import Mathlib

/-!
# CalculatorInterpreter: lexer, parser and tree-walking evaluator

A shallow embedding of the Go packages `token`, `lexer`, `nestingstack`, `ast`,
`parser` and `interpreter`, followed by the properties proved about them.

Conventions of the embedding.

* A Go `string` is a sequence of bytes: `Input : List Nat`, every element a byte
  value (below 256).  `CurrentChar = 0` is the lexer's end-of-input sentinel.
* A Go `error` is a value of `Error` (one constructor per message); a nil error
  is `none`.
* An `interface{}` value is an `Iface`.
* Pointer receivers become explicit state passing: a method that mutates its
  receiver returns the new receiver.
* The native `int` is `Int` wrapped to `w` bits (`wrapInt w`), `w` being the
  platform's word size (32 or 64).
* The recursive-descent procedures take a fuel argument; `none` means that the
  fuel ran out, never that the Go code returned.
-/

namespace Calc

/-! ## token -/

/-- The strings used as `TokenType`: the eight constants of the packages, and
`NONE` for the empty string of the token that accompanies a lexer error. -/
inductive Kind
  | INTEGER | PLUS | MINUS | DIV | MUL | LPAR | RPAR | EOF | NONE
  deriving DecidableEq, Repr

/-- The `error` values the packages build, one constructor per message.
`encounteredError` wraps the error stored in an error node, and
`encounteredNilError` stands for the same message around a nil error. -/
inductive Error
  | invalidCharacter (c : Nat)
  | integerSyntax
  | integerRange
  | consumeExpected (expected got : Kind)
  | unexpectedRPar
  | invalidCharacterOnStack
  | popEmpty
  | peekEmpty
  | missingOp
  | factorUnexpected (got : Kind)
  | termDefault
  | exprUnexpected (got : Kind)
  | notBalanced
  | unexpectedInputAtEnd
  | tokenValueNotInt
  | leftNonInteger
  | rightNonInteger
  | divisionByZero
  | binaryDefault
  | unaryNonInteger
  | unaryDefault
  | emptyExpression
  | finalNonInteger
  | encounteredError (inner : Error)
  | encounteredNilError
  deriving DecidableEq, Repr

/-- An `interface{}` value as it occurs in the program: an `int`, a `rune`
(the character payload of operator tokens), the nil interface, or an `error`
(what `VisitErrorNode` returns as its value). -/
inductive Iface
  | int (n : Int)
  | rune (c : Nat)
  | nil
  | err (e : Error)
  deriving DecidableEq, Repr

/-- The struct `token.Token`. -/
structure Token where
  TokenType : Kind
  Value : Iface
  deriving DecidableEq, Repr

/-- The constructor `token.NewToken`. -/
def NewToken (tokenType : Kind) (value : Iface) : Token :=
  { TokenType := tokenType, Value := value }

/-! ## lexer -/

/-- The struct `lexer.Lexer`. -/
structure Lexer where
  Input : List Nat
  Position : Nat
  CurrentChar : Nat
  deriving DecidableEq, Repr

/-- The function `unicode.IsSpace` on a byte converted to a rune (Latin-1). -/
def isSpace (c : Nat) : Bool :=
  c = 9 || c = 10 || c = 11 || c = 12 || c = 13 || c = 32 || c = 133 || c = 160

/-- The function `unicode.IsDigit` on a byte converted to a rune (Latin-1). -/
def isDigit (c : Nat) : Bool :=
  decide (48 ≤ c) && decide (c ≤ 57)

/-- The constructor `lexer.NewLexer`. -/
def NewLexer (input : List Nat) : Lexer :=
  { Input := input
    Position := 0
    CurrentChar := if input.length > 0 then input.getD 0 0 else 0 }

/-- The method `Lexer.GetNextChar`.  The Go test `Position > len(Input) - 1`
is on signed integers; `Position` is at least 1 here, so the truncated
subtraction agrees with it. -/
def GetNextChar (lex : Lexer) : Lexer :=
  let pos := lex.Position + 1
  if pos > lex.Input.length - 1 then
    { lex with Position := pos, CurrentChar := 0 }
  else
    { lex with Position := pos, CurrentChar := lex.Input.getD pos 0 }

/-- The loop of `Lexer.SkipWhiteSpace`, with a bound on its iterations. -/
def SkipWhiteSpaceLoop : Nat → Lexer → Lexer
  | 0, lex => lex
  | n + 1, lex =>
    if lex.CurrentChar ≠ 0 && isSpace lex.CurrentChar then
      SkipWhiteSpaceLoop n (GetNextChar lex)
    else lex

/-- The method `Lexer.SkipWhiteSpace`: every iteration moves `Position` one
step, and the loop stops once `Position` is beyond the input. -/
def SkipWhiteSpace (lex : Lexer) : Lexer :=
  SkipWhiteSpaceLoop (lex.Input.length - lex.Position + 1) lex

/-- The loop of `Lexer.Integer`, which appends the digits read to
`integerString`. -/
def IntegerLoop : Nat → List Nat → Lexer → List Nat × Lexer
  | 0, s, lex => (s, lex)
  | n + 1, s, lex =>
    if lex.CurrentChar ≠ 0 && isDigit lex.CurrentChar then
      IntegerLoop n (s ++ [lex.CurrentChar]) (GetNextChar lex)
    else (s, lex)

/-- The base-10 value of a string of decimal digits. -/
def digitsValue (s : List Nat) : Nat :=
  s.foldl (fun acc c => 10 * acc + (c - 48)) 0

/-- The call `strconv.ParseInt(s, 10, 32)` on the strings `Integer` builds,
which hold decimal digits only: a syntax error for the empty string (or a
character that is not a digit), a range error for a value above `2^31 - 1`. -/
def ParseInt32 (s : List Nat) : Except Error Int :=
  if s.isEmpty || !s.all isDigit then .error Error.integerSyntax
  else if digitsValue s > 2147483647 then .error Error.integerRange
  else .ok (digitsValue s)

/-- The method `Lexer.Integer`.  The conversion `int(integerA)` is the identity
on the values `ParseInt` accepts, the native `int` having at least 32 bits. -/
def Integer (lex : Lexer) : Int × Option Error × Lexer :=
  let r := IntegerLoop (lex.Input.length - lex.Position + 1) [] lex
  match ParseInt32 r.1 with
  | .error e => (0, some e, r.2)
  | .ok v => (v, none, r.2)

/-- The loop of `Lexer.GetNextToken`.  Only the whitespace case goes round the
loop again, so two iterations are always enough (`GetNextTokenLoop_fuel`). -/
def GetNextTokenLoop : Nat → Lexer → Token × Option Error × Lexer
  | 0, lex => (NewToken Kind.EOF (Iface.int 0), none, lex)
  | n + 1, lex =>
    if lex.CurrentChar ≠ 0 then
      if isSpace lex.CurrentChar then
        GetNextTokenLoop n (SkipWhiteSpace lex)
      else if isDigit lex.CurrentChar then
        match Integer lex with
        | (_, some err, lex1) => (NewToken Kind.NONE (Iface.int 0), some err, lex1)
        | (integer, none, lex1) => (NewToken Kind.INTEGER (Iface.int integer), none, lex1)
      else if lex.CurrentChar = 43 then
        (NewToken Kind.PLUS (Iface.rune 43), none, GetNextChar lex)
      else if lex.CurrentChar = 45 then
        (NewToken Kind.MINUS (Iface.rune 45), none, GetNextChar lex)
      else if lex.CurrentChar = 42 then
        (NewToken Kind.MUL (Iface.rune 45), none, GetNextChar lex)
      else if lex.CurrentChar = 47 then
        (NewToken Kind.DIV (Iface.rune 47), none, GetNextChar lex)
      else if lex.CurrentChar = 40 then
        (NewToken Kind.LPAR (Iface.rune 40), none, GetNextChar lex)
      else if lex.CurrentChar = 41 then
        (NewToken Kind.RPAR (Iface.rune 41), none, GetNextChar lex)
      else
        (NewToken Kind.NONE (Iface.int 0), some (Error.invalidCharacter lex.CurrentChar), lex)
    else
      (NewToken Kind.EOF (Iface.int 0), none, lex)

/-- The method `Lexer.GetNextToken`. -/
def GetNextToken (lex : Lexer) : Token × Option Error × Lexer :=
  GetNextTokenLoop 2 lex

/-! ## nestingstack -/

/-- The struct `nestingstack.NestingStack`; the top of the stack is the last
element of the slice. -/
structure NestingStack where
  Stack : List Token
  deriving DecidableEq, Repr

/-- The constructor `nestingstack.NewNestingStack`. -/
def NewNestingStack : NestingStack :=
  { Stack := [] }

/-- The method `NestingStack.StackSize`. -/
def StackSize (ns : NestingStack) : Nat :=
  ns.Stack.length

/-- The method `NestingStack.IsEmpty`. -/
def IsEmpty (ns : NestingStack) : Bool :=
  ns.Stack.length == 0

/-- The zero value `token.Token{}`. -/
def zeroToken : Token :=
  { TokenType := Kind.NONE, Value := Iface.nil }

/-- The method `NestingStack.Pop`: the element, the error and the new stack. -/
def Pop (ns : NestingStack) : Token × Option Error × NestingStack :=
  if IsEmpty ns then (zeroToken, some Error.popEmpty, ns)
  else
    let index := ns.Stack.length - 1
    let element := ns.Stack.getD index zeroToken
    (element, none, { Stack := ns.Stack.take index })

/-- The method `NestingStack.Peek`. -/
def Peek (ns : NestingStack) : Token × Option Error :=
  if IsEmpty ns then (zeroToken, some Error.peekEmpty)
  else (ns.Stack.getD (ns.Stack.length - 1) zeroToken, none)

/-- The method `NestingStack.Push`. -/
def Push (ns : NestingStack) (value : Token) : NestingStack :=
  { Stack := ns.Stack ++ [value] }

/-! ## ast -/

/-- The four implementations of the interface `ast.ASTNode`.  The error stored
in an `ErrorNode` may be nil. -/
inductive ASTNode
  | BinaryOperation (LeftChild : ASTNode) (Operator : Token) (RightChild : ASTNode)
  | UnaryOperation (Operator : Token) (Expr : ASTNode)
  | NumberLiteral (Token : Token) (Value : Int)
  | ErrorNode (ErrorType : Option Error)
  deriving DecidableEq, Repr

/-- The constructor `ast.NewBinaryOperation`. -/
def NewBinaryOperation (leftChild rightChild : ASTNode) (operator : Token) : ASTNode :=
  ASTNode.BinaryOperation leftChild operator rightChild

/-- The constructor `ast.NewUnaryOperation`. -/
def NewUnaryOperation (operator : Token) (expr : ASTNode) : ASTNode :=
  ASTNode.UnaryOperation operator expr

/-- The constructor `ast.NewNumberLiteral`: the node and a nil error, or a nil
node and the error when the value of the token is not an `int`. -/
def NewNumberLiteral (token : Token) : Except Error ASTNode :=
  match token.Value with
  | Iface.int value => .ok (ASTNode.NumberLiteral token value)
  | _ => .error Error.tokenValueNotInt

/-- The constructor `ast.NewErrorNode`. -/
def NewErrorNode (errorType : Option Error) : ASTNode :=
  ASTNode.ErrorNode errorType

/-! ## parser -/

/-- The struct `parser.Parser`. -/
structure Parser where
  Lex : Lexer
  CurrentToken : Token
  Stack : NestingStack
  deriving DecidableEq, Repr

/-- The constructor `parser.NewParser`: the parser is returned together with
the error of the first `GetNextToken`. -/
def NewParser (lex : Lexer) : Parser × Option Error :=
  match GetNextToken lex with
  | (currentToken, err, lex1) =>
    ({ Lex := lex1, CurrentToken := currentToken, Stack := NewNestingStack }, err)

/-- The part of `Parser.Consume` that keeps the nesting stack: a push for an
LPAR, a peek and a pop for an RPAR. -/
def consumeStack (p : Parser) : Option Error × Parser :=
  let p1 : Parser :=
    if p.CurrentToken.TokenType = Kind.LPAR then
      { p with Stack := Push p.Stack { TokenType := Kind.LPAR, Value := Iface.rune 40 } }
    else p
  if p1.CurrentToken.TokenType = Kind.RPAR then
    match Peek p1.Stack with
    | (_, some _) => (some Error.unexpectedRPar, p1)
    | (t, none) =>
      if t.TokenType ≠ Kind.LPAR then (some Error.invalidCharacterOnStack, p1)
      else
        match Pop p1.Stack with
        | (_, some err, st) => (some err, { p1 with Stack := st })
        | (_, none, st) => (none, { p1 with Stack := st })
  else (none, p1)

/-- The method `Parser.Consume`: the error and the parser as the call leaves
it.  `CurrentToken` is assigned before the error of `GetNextToken` is looked
at, as in the source. -/
def Consume (expectedType : Kind) (p : Parser) : Option Error × Parser :=
  if p.CurrentToken.TokenType ≠ expectedType then
    (some (Error.consumeExpected expectedType p.CurrentToken.TokenType), p)
  else
    match consumeStack p with
    | (some err, p2) => (some err, p2)
    | (none, p2) =>
      let previousToken := p2.CurrentToken
      match GetNextToken p2.Lex with
      | (tok, some err, lex1) => (some err, { p2 with Lex := lex1, CurrentToken := tok })
      | (tok, none, lex1) =>
        let p3 : Parser := { p2 with Lex := lex1, CurrentToken := tok }
        if p3.CurrentToken.TokenType = Kind.RPAR && IsEmpty p3.Stack then
          (some Error.unexpectedRPar, p3)
        else if previousToken.TokenType = Kind.INTEGER
            && p3.CurrentToken.TokenType = Kind.INTEGER then
          (some Error.missingOp, p3)
        else (none, p3)

/-- What `Factor`, `Term`, `Expr` and `Parse` return: the node, the error and
the parser as the call leaves it. -/
abbrev PResult := ASTNode × Option Error × Parser

/-- The body of `Parser.Factor`, its calls to `Factor` and `Expr` being the two
function arguments. -/
def FactorBody (Factor Expr : Parser → Option PResult) (p : Parser) : Option PResult :=
  let token := p.CurrentToken
  match token.TokenType with
  | Kind.PLUS =>
    match Consume Kind.PLUS p with
    | (some err, p1) => some (NewErrorNode (some err), some err, p1)
    | (none, p1) =>
      match Factor p1 with
      | none => none
      | some (_, some err, p2) => some (NewErrorNode (some err), some err, p2)
      | some (unaryChild, none, p2) => some (NewUnaryOperation token unaryChild, none, p2)
  | Kind.MINUS =>
    match Consume Kind.MINUS p with
    | (some err, p1) => some (NewErrorNode (some err), some err, p1)
    | (none, p1) =>
      match Factor p1 with
      | none => none
      | some (_, some err, p2) => some (NewErrorNode (some err), some err, p2)
      | some (unaryChild, none, p2) => some (NewUnaryOperation token unaryChild, none, p2)
  | Kind.INTEGER =>
    match Consume Kind.INTEGER p with
    | (some err, p1) => some (NewErrorNode (some err), some err, p1)
    | (none, p1) =>
      match NewNumberLiteral token with
      | .error err => some (NewErrorNode (some err), some err, p1)
      | .ok integerNode => some (integerNode, none, p1)
  | Kind.LPAR =>
    match Consume Kind.LPAR p with
    | (some err, p1) => some (NewErrorNode (some err), some err, p1)
    | (none, p1) =>
      match Expr p1 with
      | none => none
      | some (_, some err, p2) => some (NewErrorNode (some err), some err, p2)
      | some (subTreeRoot, none, p2) =>
        match Consume Kind.RPAR p2 with
        | (some err, p3) => some (NewErrorNode (some err), some err, p3)
        | (none, p3) => some (subTreeRoot, none, p3)
  | _ =>
    some (NewErrorNode (some (Error.factorUnexpected p.CurrentToken.TokenType)),
      some (Error.factorUnexpected p.CurrentToken.TokenType), p)

/-- The loop of `Parser.Term`, from its test on: the call to `Factor` and the
next round of the loop are the two function arguments. -/
def TermLoopBody (Factor : Parser → Option PResult)
    (loop : ASTNode → Parser → Option PResult) (leftChild : ASTNode) (p : Parser) :
    Option PResult :=
  if p.CurrentToken.TokenType = Kind.MUL || p.CurrentToken.TokenType = Kind.DIV then
    let token := p.CurrentToken
    match (match p.CurrentToken.TokenType with
        | Kind.MUL => some (Consume Kind.MUL p)
        | Kind.DIV => some (Consume Kind.DIV p)
        | _ => none) with
    | none => some (NewErrorNode none, some Error.termDefault, p)
    | some (some err, p1) => some (NewErrorNode (some err), some err, p1)
    | some (none, p1) =>
      match Factor p1 with
      | none => none
      | some (_, some err, p2) => some (NewErrorNode (some err), some err, p2)
      | some (rightChild, none, p2) => loop (NewBinaryOperation leftChild rightChild token) p2
  else some (leftChild, none, p)

/-- The body of `Parser.Term`. -/
def TermBody (Factor : Parser → Option PResult)
    (loop : ASTNode → Parser → Option PResult) (p : Parser) : Option PResult :=
  match Factor p with
  | none => none
  | some (_, some err, p1) => some (NewErrorNode (some err), some err, p1)
  | some (leftChild, none, p1) => loop leftChild p1

/-- The loop of `Parser.Expr`, from its test on. -/
def ExprLoopBody (Term : Parser → Option PResult)
    (loop : ASTNode → Parser → Option PResult) (leftChild : ASTNode) (p : Parser) :
    Option PResult :=
  if p.CurrentToken.TokenType = Kind.PLUS || p.CurrentToken.TokenType = Kind.MINUS then
    let token := p.CurrentToken
    match (match p.CurrentToken.TokenType with
        | Kind.PLUS => some (Consume Kind.PLUS p)
        | Kind.MINUS => some (Consume Kind.MINUS p)
        | _ => none) with
    | none => some (NewErrorNode none, some (Error.exprUnexpected token.TokenType), p)
    | some (some err, p1) => some (NewErrorNode (some err), some err, p1)
    | some (none, p1) =>
      match Term p1 with
      | none => none
      | some (_, some err, p2) => some (NewErrorNode (some err), some err, p2)
      | some (rightChild, none, p2) => loop (NewBinaryOperation leftChild rightChild token) p2
  else some (leftChild, none, p)

/-- The body of `Parser.Expr`. -/
def ExprBody (Term : Parser → Option PResult)
    (loop : ASTNode → Parser → Option PResult) (p : Parser) : Option PResult :=
  match Term p with
  | none => none
  | some (_, some err, p1) => some (NewErrorNode (some err), some err, p1)
  | some (leftChild, none, p1) => loop leftChild p1

mutual
/-- The method `Parser.Factor`, with fuel. -/
def Factor : Nat → Parser → Option PResult
  | 0, _ => none
  | n + 1, p => FactorBody (fun q => Factor n q) (fun q => Expr n q) p
/-- The method `Parser.Term`, with fuel. -/
def Term : Nat → Parser → Option PResult
  | 0, _ => none
  | n + 1, p => TermBody (fun q => Factor n q) (fun l q => TermLoop n l q) p
/-- The loop of `Parser.Term`, with fuel. -/
def TermLoop : Nat → ASTNode → Parser → Option PResult
  | 0, _, _ => none
  | n + 1, leftChild, p =>
    TermLoopBody (fun q => Factor n q) (fun l q => TermLoop n l q) leftChild p
/-- The method `Parser.Expr`, with fuel. -/
def Expr : Nat → Parser → Option PResult
  | 0, _ => none
  | n + 1, p => ExprBody (fun q => Term n q) (fun l q => ExprLoop n l q) p
/-- The loop of `Parser.Expr`, with fuel. -/
def ExprLoop : Nat → ASTNode → Parser → Option PResult
  | 0, _, _ => none
  | n + 1, leftChild, p =>
    ExprLoopBody (fun q => Term n q) (fun l q => ExprLoop n l q) leftChild p
end

/-- The fuel `Parse` starts from: three units for every token that can still be
read, and a margin (`Parse_returns`). -/
def parseFuel (p : Parser) : Nat :=
  3 * p.Lex.Input.length + 9

/-- The method `Parser.Parse`. -/
def Parse (p : Parser) : Option PResult :=
  match Expr (parseFuel p) p with
  | none => none
  | some (_, some err, p1) => some (NewErrorNode (some err), some err, p1)
  | some (rootNode, none, p1) =>
    if !IsEmpty p1.Stack then
      some (NewErrorNode (some Error.notBalanced), some Error.notBalanced, p1)
    else if p1.CurrentToken.TokenType ≠ Kind.EOF then
      some (NewErrorNode (some Error.unexpectedInputAtEnd), some Error.unexpectedInputAtEnd, p1)
    else some (rootNode, none, p1)

/-! ## interpreter -/

/-- The struct `interpreter.Interpreter`. -/
structure Interpreter where
  Parser : Parser
  deriving DecidableEq, Repr

/-- The constructor `interpreter.NewInterpreter`. -/
def NewInterpreter (parser : Parser) : Interpreter :=
  { Parser := parser }

/-- A native `int` of `w` bits: the representative of `x` modulo `2^w` in
`[-2^(w-1), 2^(w-1))`. -/
def wrapInt (w : Nat) (x : Int) : Int :=
  Int.bmod x (2 ^ w)

/-- The method `Interpreter.VisitBinaryOperation`, given the operator of the
node and what `Accept` returns on the left and on the right child.  The right
result is looked at only when the left one is an `int` without error.  No
visitor returns a node as its value, so the assertion of the right result to
an error node fails. -/
def VisitBinaryOperation (w : Nat) (Operator : Token)
    (leftRes rightRes : Iface × Option Error) : Iface × Option Error :=
  match leftRes with
  | (_, some err) => (Iface.int 0, some err)
  | (Iface.int leftValue, none) =>
    match rightRes with
    | (_, some err) => (Iface.nil, some err)
    | (Iface.int rightValue, none) =>
      match Operator.TokenType with
      | Kind.PLUS => (Iface.int (wrapInt w (leftValue + rightValue)), none)
      | Kind.MINUS => (Iface.int (wrapInt w (leftValue - rightValue)), none)
      | Kind.MUL => (Iface.int (wrapInt w (leftValue * rightValue)), none)
      | Kind.DIV =>
        if rightValue = 0 then (Iface.nil, some Error.divisionByZero)
        else (Iface.int (wrapInt w (Int.tdiv leftValue rightValue)), none)
      | _ => (Iface.nil, some Error.binaryDefault)
    | (_, none) => (Iface.nil, some Error.rightNonInteger)
  | (_, none) => (Iface.int 0, some Error.leftNonInteger)

/-- The method `Interpreter.VisitNumberLiteral`. -/
def VisitNumberLiteral (Value : Int) : Iface × Option Error :=
  (Iface.int Value, none)

/-- The method `Interpreter.VisitUnaryOperation`, given the operator of the
node and what `Accept` returns on its child. -/
def VisitUnaryOperation (w : Nat) (Operator : Token)
    (exprRes : Iface × Option Error) : Iface × Option Error :=
  match exprRes with
  | (_, some err) => (Iface.int 0, some err)
  | (Iface.int exprValue, none) =>
    match Operator.TokenType with
    | Kind.PLUS => (Iface.int exprValue, none)
    | Kind.MINUS => (Iface.int (wrapInt w (-exprValue)), none)
    | _ => (Iface.int 0, some Error.unaryDefault)
  | (_, none) => (Iface.int 0, some Error.unaryNonInteger)

/-- The method `Interpreter.VisitErrorNode`: the stored error, as the value
and as the error. -/
def VisitErrorNode (ErrorType : Option Error) : Iface × Option Error :=
  match ErrorType with
  | some e => (Iface.err e, some e)
  | none => (Iface.nil, none)

/-- The methods `Accept` of the four node types, with the interpreter as the
visitor. -/
def Accept (w : Nat) : ASTNode → Iface × Option Error
  | ASTNode.BinaryOperation l op r =>
    VisitBinaryOperation w op (Accept w l) (Accept w r)
  | ASTNode.UnaryOperation op e => VisitUnaryOperation w op (Accept w e)
  | ASTNode.NumberLiteral _ v => VisitNumberLiteral v
  | ASTNode.ErrorNode e => VisitErrorNode e

/-- The method `Interpreter.Interpret`.  A node of this embedding is never the
nil interface, so the test `root == nil` has no counterpart. -/
def Interpret (w : Nat) (interp : Interpreter) : Option (Int × Option Error) :=
  match Parse interp.Parser with
  | none => none
  | some (_, some err, _) => some (0, some err)
  | some (root, none, _) =>
    match Accept w root with
    | (_, some err) => some (0, some err)
    | (Iface.int finalResult, none) => some (finalResult, none)
    | (_, none) =>
      match root with
      | ASTNode.ErrorNode (some e) => some (0, some (Error.encounteredError e))
      | ASTNode.ErrorNode none => some (0, some Error.encounteredNilError)
      | _ => some (0, some Error.finalNonInteger)

/-- The body of the loop of `TestInterpreter`: `NewLexer`, `NewParser` (its
error dropped) and `Interpret`, on an `int` of `w` bits. -/
def Calculate (w : Nat) (input : List Nat) : Option (Int × Option Error) :=
  Interpret w (NewInterpreter (NewParser (NewLexer input)).1)

/-- The bytes of an ASCII string. -/
def bytes (s : String) : List Nat :=
  s.toList.map Char.toNat

/-! ## Definitions used by the statements and proofs -/

/-- The lexer on `input` whose cursor is at `pos`, `CurrentChar` being the
byte under the cursor (0 beyond the end). -/
def lexerAt (input : List Nat) (pos : Nat) : Lexer :=
  { Input := input, Position := pos, CurrentChar := input.getD pos 0 }

/-- What `GetNextToken` does, as a function of the input `r` from the cursor
on: the token, the error and the number of bytes the cursor moves
(`GetNextToken_lexerAt`). -/
def lexSpec (r : List Nat) : Token × Option Error × Nat :=
  let ws := (r.takeWhile isSpace).length
  match r.dropWhile isSpace with
  | [] => (NewToken Kind.EOF (Iface.int 0), none, ws)
  | c :: rest =>
    if c = 0 then (NewToken Kind.EOF (Iface.int 0), none, ws)
    else if isDigit c then
      match ParseInt32 ((c :: rest).takeWhile isDigit) with
      | .error e =>
        (NewToken Kind.NONE (Iface.int 0), some e, ws + ((c :: rest).takeWhile isDigit).length)
      | .ok v =>
        (NewToken Kind.INTEGER (Iface.int v), none, ws + ((c :: rest).takeWhile isDigit).length)
    else if c = 43 then (NewToken Kind.PLUS (Iface.rune 43), none, ws + 1)
    else if c = 45 then (NewToken Kind.MINUS (Iface.rune 45), none, ws + 1)
    else if c = 42 then (NewToken Kind.MUL (Iface.rune 45), none, ws + 1)
    else if c = 47 then (NewToken Kind.DIV (Iface.rune 47), none, ws + 1)
    else if c = 40 then (NewToken Kind.LPAR (Iface.rune 40), none, ws + 1)
    else if c = 41 then (NewToken Kind.RPAR (Iface.rune 41), none, ws + 1)
    else (NewToken Kind.NONE (Iface.int 0), some (Error.invalidCharacter c), ws)

/-- The parser state is well formed: `CurrentChar` of its lexer is the byte
under the cursor (0 beyond the end), as in every state reached from
`NewLexer`. -/
def WF (p : Parser) : Prop :=
  p.Lex = lexerAt p.Lex.Input p.Lex.Position

/-- The kinds of the tokens `Consume` is called on: all but EOF and the empty
kind. -/
def proper (k : Kind) : Bool :=
  k != Kind.EOF && k != Kind.NONE

/-- The kinds a factor can start with. -/
def startsFactor (k : Kind) : Bool :=
  k == Kind.INTEGER || k == Kind.PLUS || k == Kind.MINUS || k == Kind.LPAR

/-- The kinds a factor can end with. -/
def endsFactor (k : Kind) : Bool :=
  k == Kind.INTEGER || k == Kind.RPAR

/-- The operator kinds PLUS, MINUS, MUL and DIV. -/
def isOperator (k : Kind) : Bool :=
  k == Kind.PLUS || k == Kind.MINUS || k == Kind.MUL || k == Kind.DIV

/-- The pairs of kinds that can follow one another in an input that parses:
after the end of a factor an operator or a closing parenthesis, after an
operator or an opening parenthesis the start of a factor. -/
def validPair (x y : Kind) : Bool :=
  (endsFactor x && (isOperator y || y == Kind.RPAR))
    || ((isOperator x || x == Kind.LPAR) && startsFactor y)

/-- The tokens consumed between two parser states: `Consumed p ts p'` when
successful calls of `Consume`, on the tokens `ts` in turn, lead from `p` to
`p'`. -/
inductive Consumed : Parser → List Token → Parser → Prop
  | nil (p : Parser) : Consumed p [] p
  | cons {p p1 p' : Parser} {ts : List Token} :
      proper p.CurrentToken.TokenType = true →
      Consume p.CurrentToken.TokenType p = (none, p1) →
      Consumed p1 ts p' → Consumed p (p.CurrentToken :: ts) p'

/-- The tokens `GetNextToken` returns in turn, up to the first EOF or error
(neither included), at most `n` of them. -/
def tokensLoop : Nat → Lexer → List Token
  | 0, _ => []
  | n + 1, lex =>
    match GetNextToken lex with
    | (_, some _, _) => []
    | (tok, none, lex1) =>
      if tok.TokenType = Kind.EOF then [] else tok :: tokensLoop n lex1

/-- A run of token kinds that starts with a kind in `first`, ends with the
end of a factor, and in which every two neighbours are a valid pair. -/
def Seg (first : Kind → Bool) (ks : List Kind) : Prop :=
  List.Chain' (fun x y => validPair x y = true) ks
    ∧ (∃ k, ks.head? = some k ∧ first k = true)
    ∧ (∃ k, ks.getLast? = some k ∧ endsFactor k = true)

/-- The kinds of a list of tokens. -/
def kinds (ts : List Token) : List Kind :=
  ts.map (fun t => t.TokenType)

/-- The kinds the loop of `Term` goes on with. -/
def mulOp (k : Kind) : Bool := k == Kind.MUL || k == Kind.DIV

/-- The kinds the loop of `Expr` goes on with. -/
def addOp (k : Kind) : Bool := k == Kind.PLUS || k == Kind.MINUS

/-- A bound on the number of tokens the parser can still consume: the bytes
from the cursor on, and one for a current token that is not EOF. -/
def remaining (p : Parser) : Nat :=
  (p.Lex.Input.length - p.Lex.Position) + (if proper p.CurrentToken.TokenType then 1 else 0)

/-- The input up to its first zero byte, which the lexer takes for the end of
the input (the whole input when it holds no zero byte). -/
def beforeZero (input : List Nat) : List Nat :=
  input.takeWhile (fun b => b != 0)

/-- The link between the nesting stack and the parentheses the lexer has
passed, in a well-formed parser state: `pre` is the input before the cursor,
which includes the current token.  The stack holds as many markers as `pre`
has unmatched opening parentheses, the current token set apart; no prefix of
`pre` has more closing than opening parentheses, but for a current RPAR on an
empty stack; and the cursor has passed no zero byte. -/
structure ParenInv (p : Parser) : Prop where
  wf : WF p
  pos_le : p.Lex.Position ≤ p.Lex.Input.length
  no_zero : ∀ b ∈ p.Lex.Input.take p.Lex.Position, b ≠ 0
  at_eof : p.CurrentToken.TokenType = Kind.EOF → p.Lex.CurrentChar = 0
  balance : p.Stack.Stack.length + (p.Lex.Input.take p.Lex.Position).count 41
      + (if p.CurrentToken.TokenType = Kind.LPAR then 1 else 0)
    = (p.Lex.Input.take p.Lex.Position).count 40
      + (if p.CurrentToken.TokenType = Kind.RPAR then 1 else 0)
  prefixes : ∀ q, q ≤ p.Lex.Position →
    (p.Lex.Input.take q).count 41 ≤ (p.Lex.Input.take q).count 40
      + (if p.CurrentToken.TokenType = Kind.RPAR ∧ p.Stack.Stack = [] then 1 else 0)

/-- A list of tokens holds two INTEGER tokens with no operator token (PLUS,
MINUS, MUL, DIV) between them. -/
def adjacentIntegers (ts : List Token) : Prop :=
  ∃ a t1 mid t2 b, ts = a ++ t1 :: mid ++ t2 :: b
    ∧ t1.TokenType = Kind.INTEGER ∧ t2.TokenType = Kind.INTEGER
    ∧ ∀ t ∈ mid, isOperator t.TokenType = false

/-- The tokens still to be consumed, as a parser state sees them: the current
token and those the lexer goes on to return (at most `n` of them), up to the
first EOF or error. -/
def view (n : Nat) (p : Parser) : List Token :=
  if p.CurrentToken.TokenType = Kind.EOF then [] else p.CurrentToken :: tokensLoop n p.Lex

/-! ## The grammar of the specification -/

/-- The three levels of the grammar: factor, term and expr. -/
inductive Level
  | factor | term | expr
  deriving DecidableEq, Repr

/-- The derivations of the grammar
`expr := term ((+|-) term)*`, `term := factor ((*|/) factor)*`,
`factor := (+|-) factor | ( expr ) | INTEGER`,
the repetitions read from the left (`expr := term | expr (+|-) term`), which
derives the same strings.  Every token carries the bytes written in front of
it (`ws`, meant to be whitespace); an INTEGER carries its digits. -/
inductive Tree : Level → Type
  | int (ws digits : List Nat) : Tree Level.factor
  | pos (ws : List Nat) (f : Tree Level.factor) : Tree Level.factor
  | neg (ws : List Nat) (f : Tree Level.factor) : Tree Level.factor
  | paren (ws1 : List Nat) (e : Tree Level.expr) (ws2 : List Nat) : Tree Level.factor
  | factor (f : Tree Level.factor) : Tree Level.term
  | mul (t : Tree Level.term) (ws : List Nat) (f : Tree Level.factor) : Tree Level.term
  | div (t : Tree Level.term) (ws : List Nat) (f : Tree Level.factor) : Tree Level.term
  | term (t : Tree Level.term) : Tree Level.expr
  | add (e : Tree Level.expr) (ws : List Nat) (t : Tree Level.term) : Tree Level.expr
  | sub (e : Tree Level.expr) (ws : List Nat) (t : Tree Level.term) : Tree Level.expr

/-- The input string a derivation stands for. -/
def render : {l : Level} → Tree l → List Nat
  | _, Tree.int ws digits => ws ++ digits
  | _, Tree.pos ws f => ws ++ 43 :: render f
  | _, Tree.neg ws f => ws ++ 45 :: render f
  | _, Tree.paren ws1 e ws2 => ws1 ++ 40 :: (render e ++ (ws2 ++ [41]))
  | _, Tree.factor f => render f
  | _, Tree.mul t ws f => render t ++ (ws ++ 42 :: render f)
  | _, Tree.div t ws f => render t ++ (ws ++ 47 :: render f)
  | _, Tree.term t => render t
  | _, Tree.add e ws t => render e ++ (ws ++ 43 :: render t)
  | _, Tree.sub e ws t => render e ++ (ws ++ 45 :: render t)

/-- A string of whitespace bytes. -/
def allSpace (ws : List Nat) : Prop :=
  ∀ c ∈ ws, isSpace c = true

/-- A literal: a string of decimal digits, not empty, of value at most
2147483647. -/
def isLiteral (digits : List Nat) : Prop :=
  digits ≠ [] ∧ (∀ c ∈ digits, isDigit c = true) ∧ digitsValue digits ≤ 2147483647

/-- The derivation is one of the grammar: whitespace only between the tokens,
and every INTEGER a literal of value at most 2147483647. -/
def wellFormed : {l : Level} → Tree l → Prop
  | _, Tree.int ws digits => allSpace ws ∧ isLiteral digits
  | _, Tree.pos ws f => allSpace ws ∧ wellFormed f
  | _, Tree.neg ws f => allSpace ws ∧ wellFormed f
  | _, Tree.paren ws1 e ws2 => allSpace ws1 ∧ wellFormed e ∧ allSpace ws2
  | _, Tree.factor f => wellFormed f
  | _, Tree.mul t ws f => wellFormed t ∧ allSpace ws ∧ wellFormed f
  | _, Tree.div t ws f => wellFormed t ∧ allSpace ws ∧ wellFormed f
  | _, Tree.term t => wellFormed t
  | _, Tree.add e ws t => wellFormed e ∧ allSpace ws ∧ wellFormed t
  | _, Tree.sub e ws t => wellFormed e ∧ allSpace ws ∧ wellFormed t

/-- The value of the expression under the standard rules, in the integers:
the shape of the derivation gives the precedence and the association to the
left, and the division truncates toward zero. -/
def value : {l : Level} → Tree l → Int
  | _, Tree.int _ digits => (digitsValue digits : Int)
  | _, Tree.pos _ f => value f
  | _, Tree.neg _ f => - value f
  | _, Tree.paren _ e _ => value e
  | _, Tree.factor f => value f
  | _, Tree.mul t _ f => value t * value f
  | _, Tree.div t _ f => Int.tdiv (value t) (value f)
  | _, Tree.term t => value t
  | _, Tree.add e _ t => value e + value t
  | _, Tree.sub e _ t => value e - value t

/-- No division of the expression has a zero divisor. -/
def noZeroDivisor : {l : Level} → Tree l → Prop
  | _, Tree.int _ _ => True
  | _, Tree.pos _ f => noZeroDivisor f
  | _, Tree.neg _ f => noZeroDivisor f
  | _, Tree.paren _ e _ => noZeroDivisor e
  | _, Tree.factor f => noZeroDivisor f
  | _, Tree.mul t _ f => noZeroDivisor t ∧ noZeroDivisor f
  | _, Tree.div t _ f => noZeroDivisor t ∧ noZeroDivisor f ∧ value f ≠ 0
  | _, Tree.term t => noZeroDivisor t
  | _, Tree.add e _ t => noZeroDivisor e ∧ noZeroDivisor t
  | _, Tree.sub e _ t => noZeroDivisor e ∧ noZeroDivisor t

/-- The integer `x` is in the range of a native `int` of `w` bits. -/
def fits (w : Nat) (x : Int) : Prop :=
  -(2 ^ (w - 1) : Int) ≤ x ∧ x < (2 ^ (w - 1) : Int)

/-- No result of an operation of the expression leaves the range of a native
`int` of `w` bits. -/
def inRange (w : Nat) : {l : Level} → Tree l → Prop
  | _, Tree.int _ _ => True
  | _, Tree.pos _ f => inRange w f
  | _, Tree.neg _ f => inRange w f ∧ fits w (- value f)
  | _, Tree.paren _ e _ => inRange w e
  | _, Tree.factor f => inRange w f
  | _, Tree.mul t _ f => inRange w t ∧ inRange w f ∧ fits w (value t * value f)
  | _, Tree.div t _ f => inRange w t ∧ inRange w f ∧ fits w (Int.tdiv (value t) (value f))
  | _, Tree.term t => inRange w t
  | _, Tree.add e _ t => inRange w e ∧ inRange w t ∧ fits w (value e + value t)
  | _, Tree.sub e _ t => inRange w e ∧ inRange w t ∧ fits w (value e - value t)

/-- The tree `Parse` builds for a derivation.  The MUL token carries the rune
'-', as in `GetNextToken`. -/
def toAST : {l : Level} → Tree l → ASTNode
  | _, Tree.int _ digits =>
    ASTNode.NumberLiteral (NewToken Kind.INTEGER (Iface.int (digitsValue digits)))
      (digitsValue digits)
  | _, Tree.pos _ f => ASTNode.UnaryOperation (NewToken Kind.PLUS (Iface.rune 43)) (toAST f)
  | _, Tree.neg _ f => ASTNode.UnaryOperation (NewToken Kind.MINUS (Iface.rune 45)) (toAST f)
  | _, Tree.paren _ e _ => toAST e
  | _, Tree.factor f => toAST f
  | _, Tree.mul t _ f =>
    ASTNode.BinaryOperation (toAST t) (NewToken Kind.MUL (Iface.rune 45)) (toAST f)
  | _, Tree.div t _ f =>
    ASTNode.BinaryOperation (toAST t) (NewToken Kind.DIV (Iface.rune 47)) (toAST f)
  | _, Tree.term t => toAST t
  | _, Tree.add e _ t =>
    ASTNode.BinaryOperation (toAST e) (NewToken Kind.PLUS (Iface.rune 43)) (toAST t)
  | _, Tree.sub e _ t =>
    ASTNode.BinaryOperation (toAST e) (NewToken Kind.MINUS (Iface.rune 45)) (toAST t)

/-- The parser state on `input` whose current token was read from the
position `pos`, the cursor standing behind that token. -/
def parserAt (input : List Nat) (pos : Nat) (st : NestingStack) : Parser :=
  { Lex := lexerAt input (pos + (lexSpec (input.drop pos)).2.2)
    CurrentToken := (lexSpec (input.drop pos)).1
    Stack := st }

/-- What may follow a factor in the input `k`, with the nesting stack `st`:
a token that is read without error, is no INTEGER, and is an RPAR only when
the stack holds a marker. -/
def Follow (k : List Nat) (st : NestingStack) : Prop :=
  (lexSpec k).2.1 = none ∧ (lexSpec k).1.TokenType ≠ Kind.INTEGER
    ∧ ((lexSpec k).1.TokenType = Kind.RPAR → st.Stack ≠ [])

/-- What the parser does on the string of a derivation `t` that stands at the
position `q` of the input and is followed by `k`: `Factor` returns the tree of
a factor; `Term` and `Expr` return whatever their loops return after the
operands read so far, the tree of `t` being the left operand. -/
def parsesAs : (l : Level) → Tree l → Prop
  | Level.factor, f => ∀ i q st k, i.drop q = render f ++ k → Follow k st →
      ∃ n, Factor n (parserAt i q st)
        = some (toAST f, none, parserAt i (q + (render f).length) st)
  | Level.term, t => ∀ i q st k, i.drop q = render t ++ k → Follow k st →
      ∀ m res, TermLoop m (toAST t) (parserAt i (q + (render t).length) st) = some res →
        ∃ n, Term n (parserAt i q st) = some res
  | Level.expr, e => ∀ i q st k, i.drop q = render e ++ k → Follow k st →
      mulOp (lexSpec k).1.TokenType = false →
      ∀ m res, ExprLoop m (toAST e) (parserAt i (q + (render e).length) st) = some res →
        ∃ n, Expr n (parserAt i q st) = some res

/-! ## Inputs and trees of the claims -/

/-- The node `Factor` builds for the literal `digits`. -/
def litNode (digits : List Nat) : ASTNode :=
  ASTNode.NumberLiteral (NewToken Kind.INTEGER (Iface.int (digitsValue digits)))
    (digitsValue digits)

/-- The byte of an additive operator: '-' when `minus`, '+' otherwise. -/
def addChar (minus : Bool) : Nat :=
  if minus then 45 else 43

/-- The token `GetNextToken` builds for an additive operator. -/
def addToken (minus : Bool) : Token :=
  if minus then NewToken Kind.MINUS (Iface.rune 45) else NewToken Kind.PLUS (Iface.rune 43)

/-- The byte of a multiplicative operator: '/' when `divide`, '*' otherwise. -/
def mulChar (divide : Bool) : Nat :=
  if divide then 47 else 42

/-- The token `GetNextToken` builds for a multiplicative operator. -/
def mulToken (divide : Bool) : Token :=
  if divide then NewToken Kind.DIV (Iface.rune 47) else NewToken Kind.MUL (Iface.rune 45)

/-- The string `" o1 x1 ... on xn"`: every step is an operator (its byte given
by `opChar`) between two blanks, and a literal. -/
def chainInput (opChar : Bool → Nat) : List (Bool × List Nat) → List Nat
  | [] => []
  | s :: rest => [32, opChar s.1, 32] ++ (s.2 ++ chainInput opChar rest)

/-- The left fold of the steps into Binary nodes: each operator and operand
make the previous result the new left child. -/
def chainNode (opToken : Bool → Token) (left : ASTNode) (steps : List (Bool × List Nat)) :
    ASTNode :=
  steps.foldl (fun acc s => NewBinaryOperation acc (litNode s.2) (opToken s.1)) left

/-- The derivation of `"t o1 x1 ... on xn"` with multiplicative operators. -/
def chainTerm (t : Tree Level.term) (steps : List (Bool × List Nat)) : Tree Level.term :=
  steps.foldl (fun acc s =>
    if s.1 then Tree.div acc [32] (Tree.int [32] s.2)
    else Tree.mul acc [32] (Tree.int [32] s.2)) t

/-- The derivation of `"e o1 x1 ... on xn"` with additive operators. -/
def chainExpr (e : Tree Level.expr) (steps : List (Bool × List Nat)) : Tree Level.expr :=
  steps.foldl (fun acc s =>
    if s.1 then Tree.sub acc [32] (Tree.factor (Tree.int [32] s.2))
    else Tree.add acc [32] (Tree.factor (Tree.int [32] s.2))) e

/-- A run of signs, all the byte `c`, each after its own whitespace. -/
def signsInput (c : Nat) : List (List Nat) → List Nat
  | [] => []
  | ws :: rest => ws ++ c :: signsInput c rest

/-- The derivation of a factor after a run of signs: '-' signs when `minus`,
'+' signs otherwise. -/
def signsTree (minus : Bool) (signs : List (List Nat)) (f : Tree Level.factor) :
    Tree Level.factor :=
  signs.foldr (fun ws acc => if minus then Tree.neg ws acc else Tree.pos ws acc) f

/-- The derivation of `"2 * (16 -8) / 2 - 1"`, an input of the tests. -/
def exampleTree : Tree Level.expr :=
  Tree.sub
    (Tree.term
      (Tree.div
        (Tree.mul (Tree.factor (Tree.int [] [50])) [32]
          (Tree.paren [32]
            (Tree.sub (Tree.term (Tree.factor (Tree.int [] [49, 54]))) [32]
              (Tree.factor (Tree.int [] [56])))
            []))
        [32] (Tree.int [32] [50])))
    [32] (Tree.factor (Tree.int [32] [49]))

/-! ## Token sequences, and the calls of `Consume` -/

/-- The lexer after `n` calls of `GetNextToken`. -/
def afterCalls : Nat → Lexer → Lexer
  | 0, lex => lex
  | n + 1, lex => afterCalls n (GetNextToken lex).2.2

/-- The token sequence of the input: the tokens `GetNextToken` returns in turn
from `NewLexer` on, up to the first EOF or error, neither included.  Every
token takes at least one byte, so more rounds add nothing
(`tokensLoop_fuel`). -/
def tokens (input : List Nat) : List Token :=
  tokensLoop (input.length + 1) (NewLexer input)

/-- What the calls of `GetNextToken` return in turn, token and error, up to
the first EOF or error, which is the last entry; at most `n` calls. -/
def tokenStream : Nat → Lexer → List (Token × Option Error)
  | 0, _ => []
  | n + 1, lex =>
    match GetNextToken lex with
    | (tok, some err, _) => [(tok, some err)]
    | (tok, none, lex1) =>
      if tok.TokenType = Kind.EOF then [(tok, none)] else (tok, none) :: tokenStream n lex1

/-- Two lexers produce the same token sequence: call after call they return
the same token and the same error, up to the first EOF or error. -/
def sameTokens (lex1 lex2 : Lexer) : Prop :=
  ∀ n, tokenStream n lex1 = tokenStream n lex2

/-- Two parser states with the same current token and nesting stack, whose
lexers produce the same token sequence. -/
def Sim (p q : Parser) : Prop :=
  p.CurrentToken = q.CurrentToken ∧ p.Stack = q.Stack ∧ sameTokens p.Lex q.Lex

/-- The relation between the parsers of two runs that `Sim` gives: `Sim` as
long as no error is returned, nothing after an error. -/
def simRel : Option Error → Parser → Parser → Prop
  | none, p, q => Sim p q
  | some _, _, _ => True

/-- The call `Consume expectedType` on `p` gets as far as replacing the
current token by the next one: the kind of the current token is the expected
one, and the nesting stack takes it.  This is when the current token counts
as consumed, whatever the call returns after that. -/
def advances (expectedType : Kind) (p : Parser) : Bool :=
  decide (p.CurrentToken.TokenType = expectedType) && (consumeStack p).1.isNone

/-- The parser after the calls `Consume k` for the `k` of `ks` in turn,
whatever they return. -/
def runConsume (ks : List Kind) (p : Parser) : Parser :=
  ks.foldl (fun q k => (Consume k q).2) p

/-- The number of tokens of the kind `kind` consumed by the calls `Consume k`
for the `k` of `ks` in turn, from the parser `p` on. -/
def consumedOf (kind : Kind) : List Kind → Parser → Nat
  | [], _ => 0
  | k :: ks, p =>
    (if k = kind ∧ advances k p = true then 1 else 0) + consumedOf kind ks (Consume k p).2

/-- The relation between a parser and itself that says it is reached from
`p0` by calls of `Consume`. -/
def reachRel (p0 : Parser) : Option Error → Parser → Parser → Prop :=
  fun _ p q => p = q ∧ ∃ ks, p = runConsume ks p0

/-- Two results of a procedure of the parser agree up to `R`: both ran out of
fuel, or they hold the same node and the same error `e`, and parsers related
by `R e`. -/
def ResRel (R : Option Error → Parser → Parser → Prop) (r1 r2 : Option PResult) : Prop :=
  (r1 = none ∧ r2 = none) ∨
    ∃ node e p1 p2, r1 = some (node, e, p1) ∧ r2 = some (node, e, p2) ∧ R e p1 p2

/-- Every entry of the nesting stack is the marker `Consume` pushes. -/
def onlyMarkers (st : NestingStack) : Prop :=
  ∀ t ∈ st.Stack, t = { TokenType := Kind.LPAR, Value := Iface.rune 40 }

/-- The nodes of the closed set the evaluator is written for: a number
literal, a unary operation whose operator is PLUS or MINUS, a binary operation
whose operator is PLUS, MINUS, MUL or DIV, each over nodes of the set; no
error node. -/
def closedNode : ASTNode → Bool
  | ASTNode.BinaryOperation l op r => isOperator op.TokenType && closedNode l && closedNode r
  | ASTNode.UnaryOperation op e => addOp op.TokenType && closedNode e
  | ASTNode.NumberLiteral _ _ => true
  | ASTNode.ErrorNode _ => false

/-- The run of digits `Integer` reads from a lexer state whose current
character is a digit: the current character and the digits that follow the
cursor.  In a state reached from `NewLexer` it is the maximal run of digits
at the cursor (`digitRun_lexerAt`). -/
def digitRun (lex : Lexer) : List Nat :=
  lex.CurrentChar :: (lex.Input.drop (lex.Position + 1)).takeWhile isDigit

set_option linter.unusedTactic false
set_option linter.unreachableTactic false
/-! ## The lexer on a well-formed state -/

theorem isSpace_zero : isSpace 0 = false := by decide
theorem isDigit_zero : isDigit 0 = false := by decide

theorem isSpace_ne_zero {c : Nat} (h : isSpace c = true) : c ≠ 0 := by
  rintro rfl; simp [isSpace_zero] at h

theorem isDigit_ne_zero {c : Nat} (h : isDigit c = true) : c ≠ 0 := by
  rintro rfl; simp [isDigit_zero] at h

theorem isDigit_not_isSpace {c : Nat} (h : isDigit c = true) : isSpace c = false := by
  simp only [isDigit, Bool.and_eq_true, decide_eq_true_eq] at h
  simp only [isSpace, Bool.or_eq_false_iff, decide_eq_false_iff_not]
  omega

theorem drop_cases (i : List Nat) (pos : Nat) :
    (i.drop pos = [] ∧ i.length ≤ pos ∧ (lexerAt i pos).CurrentChar = 0) ∨
    (∃ c r, i.drop pos = c :: r ∧ pos < i.length ∧ (lexerAt i pos).CurrentChar = c
      ∧ i.drop (pos + 1) = r) := by
  by_cases h : pos < i.length
  · right
    refine ⟨i[pos], i.drop (pos + 1), ?_, h, ?_, rfl⟩
    · exact List.drop_eq_getElem_cons h
    · simp [lexerAt, List.getD_eq_getElem?_getD, List.getElem?_eq_getElem h]
  · left
    have h : i.length ≤ pos := Nat.le_of_not_lt h
    refine ⟨List.drop_eq_nil_of_le h, h, ?_⟩
    simp [lexerAt, List.getD_eq_getElem?_getD, List.getElem?_eq_none h]

theorem NewLexer_eq (input : List Nat) : NewLexer input = lexerAt input 0 := by
  unfold NewLexer lexerAt
  cases input <;> simp

theorem GetNextChar_lexerAt (i : List Nat) (pos : Nat) :
    GetNextChar (lexerAt i pos) = lexerAt i (pos + 1) := by
  unfold GetNextChar lexerAt
  simp only
  split
  · rename_i h
    have : i.length ≤ pos + 1 := by omega
    simp [List.getD_eq_getElem?_getD, List.getElem?_eq_none this]
  · rfl

theorem SkipWhiteSpaceLoop_lexerAt (i : List Nat) :
    ∀ n pos, ((i.drop pos).takeWhile isSpace).length < n →
      SkipWhiteSpaceLoop n (lexerAt i pos)
        = lexerAt i (pos + ((i.drop pos).takeWhile isSpace).length) := by
  intro n
  induction n with
  | zero => intro pos h; omega
  | succ n ih =>
    intro pos h
    rcases drop_cases i pos with ⟨h1, _, h3⟩ | ⟨c, r, h1, _, h3, h4⟩
    · simp [SkipWhiteSpaceLoop, h1, h3]
    · rw [h1] at h ⊢
      by_cases hc : isSpace c = true
      · have hne := isSpace_ne_zero hc
        simp only [List.takeWhile_cons, hc, if_true, List.length_cons] at h ⊢
        have := ih (pos + 1) (by rw [h4]; omega)
        rw [h4] at this
        simp only [SkipWhiteSpaceLoop]
        rw [if_pos (by simp [h3, hne, hc])]
        rw [GetNextChar_lexerAt, this]
        congr 1; omega
      · simp only [Bool.not_eq_true] at hc
        simp [SkipWhiteSpaceLoop, h3, hc, List.takeWhile_cons]

theorem takeWhile_length_le_drop (i : List Nat) (pos : Nat) (f : Nat → Bool) :
    ((i.drop pos).takeWhile f).length ≤ i.length - pos := by
  have := (List.takeWhile_sublist f (l := i.drop pos)).length_le
  simpa using this

theorem SkipWhiteSpace_lexerAt (i : List Nat) (pos : Nat) :
    SkipWhiteSpace (lexerAt i pos)
      = lexerAt i (pos + ((i.drop pos).takeWhile isSpace).length) := by
  unfold SkipWhiteSpace
  apply SkipWhiteSpaceLoop_lexerAt
  have := takeWhile_length_le_drop i pos isSpace
  simp only [lexerAt]
  omega

theorem IntegerLoop_lexerAt (i : List Nat) :
    ∀ n s pos, ((i.drop pos).takeWhile isDigit).length < n →
      IntegerLoop n s (lexerAt i pos)
        = (s ++ (i.drop pos).takeWhile isDigit,
            lexerAt i (pos + ((i.drop pos).takeWhile isDigit).length)) := by
  intro n
  induction n with
  | zero => intro s pos h; omega
  | succ n ih =>
    intro s pos h
    rcases drop_cases i pos with ⟨h1, _, h3⟩ | ⟨c, r, h1, _, h3, h4⟩
    · simp [IntegerLoop, h1, h3]
    · rw [h1] at h ⊢
      by_cases hc : isDigit c = true
      · have hne := isDigit_ne_zero hc
        simp only [List.takeWhile_cons, hc, if_true, List.length_cons] at h ⊢
        have := ih (s ++ [c]) (pos + 1) (by rw [h4]; omega)
        rw [h4] at this
        simp only [IntegerLoop]
        rw [if_pos (by simp [h3, hne, hc])]
        rw [GetNextChar_lexerAt, h3, this]
        simp only [List.append_assoc, List.singleton_append, Prod.mk.injEq, true_and]
        congr 1; omega
      · simp only [Bool.not_eq_true] at hc
        simp [IntegerLoop, h3, hc, List.takeWhile_cons]

theorem Integer_lexerAt (i : List Nat) (pos : Nat) :
    Integer (lexerAt i pos)
      = (match ParseInt32 ((i.drop pos).takeWhile isDigit) with
          | .error e => (0, some e, lexerAt i (pos + ((i.drop pos).takeWhile isDigit).length))
          | .ok v => (v, none, lexerAt i (pos + ((i.drop pos).takeWhile isDigit).length))) := by
  unfold Integer
  have h := IntegerLoop_lexerAt i ((lexerAt i pos).Input.length - (lexerAt i pos).Position + 1) []
    pos (by have := takeWhile_length_le_drop i pos isDigit; simp only [lexerAt]; omega)
  simp only [h, List.nil_append]
  try (cases ParseInt32 (List.takeWhile isDigit (List.drop pos i)) <;> rfl)

theorem drop_takeWhile_length (f : Nat → Bool) (l : List Nat) :
    l.drop (l.takeWhile f).length = l.dropWhile f := by
  induction l with
  | nil => rfl
  | cons a l ih =>
    by_cases h : f a = true
    · simp [List.takeWhile_cons, List.dropWhile_cons, h, ih]
    · simp [List.takeWhile_cons, List.dropWhile_cons, h]

theorem dropWhile_head_not (f : Nat → Bool) (l : List Nat) (c : Nat) (r : List Nat)
    (h : l.dropWhile f = c :: r) : f c = false := by
  induction l with
  | nil => simp at h
  | cons a l ih =>
    by_cases ha : f a = true
    · simp only [List.dropWhile_cons, ha, if_true] at h; exact ih h
    · simp only [List.dropWhile_cons, ha] at h
      simp only [Bool.false_eq_true, ↓reduceIte, List.cons.injEq] at h
      rw [← h.1]; simpa using ha

/-- The lexer at a cursor that is not on whitespace: one round of the loop. -/
theorem GetNextTokenLoop_nonspace (i : List Nat) (pos n : Nat)
    (h : ∀ c r, i.drop pos = c :: r → isSpace c = false) :
    GetNextTokenLoop (n + 1) (lexerAt i pos)
      = ((lexSpec (i.drop pos)).1, (lexSpec (i.drop pos)).2.1,
          lexerAt i (pos + (lexSpec (i.drop pos)).2.2)) := by
  rcases drop_cases i pos with ⟨h1, _, h3⟩ | ⟨c, r, h1, _, h3, h4⟩
  · simp [GetNextTokenLoop, h1, h3, lexSpec]
  · have hs := h c r h1
    rw [h1]
    have htw : List.takeWhile isSpace (c :: r) = [] := by simp [List.takeWhile_cons, hs]
    have hdw : List.dropWhile isSpace (c :: r) = c :: r := by simp [List.dropWhile_cons, hs]
    simp only [GetNextTokenLoop, h3, lexSpec, htw, hdw, hs, List.length_nil, Nat.zero_add]
    by_cases h0 : c = 0
    · simp [h0]
    · simp only [h0, ne_eq, not_false_eq_true, if_true, if_false, Bool.false_eq_true]
      by_cases hd : isDigit c = true
      · simp only [hd, if_true, Integer_lexerAt, h1]
        cases ParseInt32 (List.takeWhile isDigit (c :: r)) <;> rfl
      · simp only [hd, if_false, Bool.false_eq_true, GetNextChar_lexerAt]
        split_ifs <;> simp

theorem lexSpec_dropWhile (r : List Nat) :
    lexSpec r = ((lexSpec (r.dropWhile isSpace)).1, (lexSpec (r.dropWhile isSpace)).2.1,
      (r.takeWhile isSpace).length + (lexSpec (r.dropWhile isSpace)).2.2) := by
  have h1 : (r.dropWhile isSpace).takeWhile isSpace = [] := by
    cases h : r.dropWhile isSpace with
    | nil => rfl
    | cons c t => simp [List.takeWhile_cons, dropWhile_head_not _ _ _ _ h]
  have h2 : (r.dropWhile isSpace).dropWhile isSpace = r.dropWhile isSpace := by
    cases h : r.dropWhile isSpace with
    | nil => rfl
    | cons c t => simp [List.dropWhile_cons, dropWhile_head_not _ _ _ _ h]
  unfold lexSpec
  simp only [h1, h2, List.length_nil, Nat.zero_add]
  cases r.dropWhile isSpace with
  | nil => rfl
  | cons c t =>
    simp only
    split_ifs <;> try rfl
    cases ParseInt32 (List.takeWhile isDigit (c :: t)) <;> rfl

/-- The method `GetNextToken` on a lexer whose `CurrentChar` is the byte under
the cursor: the token and the error are those of `lexSpec` on the input from
the cursor on, and the cursor moves by the number of bytes `lexSpec` gives. -/
theorem GetNextToken_lexerAt (i : List Nat) (pos : Nat) :
    GetNextToken (lexerAt i pos)
      = ((lexSpec (i.drop pos)).1, (lexSpec (i.drop pos)).2.1,
          lexerAt i (pos + (lexSpec (i.drop pos)).2.2)) := by
  by_cases h : ∀ c r, i.drop pos = c :: r → isSpace c = false
  · exact GetNextTokenLoop_nonspace i pos 1 h
  · push_neg at h
    obtain ⟨c, r, h1, hs⟩ := h
    simp only [ne_eq, Bool.not_eq_false] at hs
    rcases drop_cases i pos with ⟨h1', _, _⟩ | ⟨c', r', h1', _, h3, _⟩
    · rw [h1'] at h1; cases h1
    · rw [h1'] at h1; cases h1
      have hne := isSpace_ne_zero hs
      have step : GetNextToken (lexerAt i pos)
          = GetNextTokenLoop 1 (SkipWhiteSpace (lexerAt i pos)) := by
        simp [GetNextToken, GetNextTokenLoop, h3, hne, hs]
      rw [step, SkipWhiteSpace_lexerAt]
      have hd : i.drop (pos + ((i.drop pos).takeWhile isSpace).length)
          = (i.drop pos).dropWhile isSpace := by
        rw [← drop_takeWhile_length isSpace (i.drop pos), List.drop_drop]
      rw [GetNextTokenLoop_nonspace i _ 0 (by
        intro c2 r2 h2; rw [hd] at h2; exact dropWhile_head_not _ _ _ _ h2)]
      rw [hd, lexSpec_dropWhile (i.drop pos)]
      simp only [Prod.mk.injEq, true_and]
      congr 1; omega


/-! ## The recursive-descent procedures: unfolding and inversion -/

theorem Factor_succ (n : Nat) (p : Parser) :
    Factor (n + 1) p = FactorBody (fun q => Factor n q) (fun q => Expr n q) p := by
  rw [Factor]

theorem Term_succ (n : Nat) (p : Parser) :
    Term (n + 1) p = TermBody (fun q => Factor n q) (fun l q => TermLoop n l q) p := by
  rw [Term]

theorem TermLoop_succ (n : Nat) (l : ASTNode) (p : Parser) :
    TermLoop (n + 1) l p
      = TermLoopBody (fun q => Factor n q) (fun l q => TermLoop n l q) l p := by
  rw [TermLoop]

theorem Expr_succ (n : Nat) (p : Parser) :
    Expr (n + 1) p = ExprBody (fun q => Term n q) (fun l q => ExprLoop n l q) p := by
  rw [Expr]

theorem ExprLoop_succ (n : Nat) (l : ASTNode) (p : Parser) :
    ExprLoop (n + 1) l p
      = ExprLoopBody (fun q => Term n q) (fun l q => ExprLoop n l q) l p := by
  rw [ExprLoop]

theorem Factor_zero (p : Parser) : Factor 0 p = none := by rw [Factor]
theorem Term_zero (p : Parser) : Term 0 p = none := by rw [Term]
theorem TermLoop_zero (l : ASTNode) (p : Parser) : TermLoop 0 l p = none := by rw [TermLoop]
theorem Expr_zero (p : Parser) : Expr 0 p = none := by rw [Expr]
theorem ExprLoop_zero (l : ASTNode) (p : Parser) : ExprLoop 0 l p = none := by rw [ExprLoop]

/-- What a successful `Factor` did. -/
theorem FactorBody_ok {F E : Parser → Option PResult} {p p' : Parser} {node : ASTNode}
    (h : FactorBody F E p = some (node, none, p')) :
    (p.CurrentToken.TokenType = Kind.PLUS ∧ ∃ p1 child, Consume Kind.PLUS p = (none, p1)
        ∧ F p1 = some (child, none, p') ∧ node = NewUnaryOperation p.CurrentToken child) ∨
    (p.CurrentToken.TokenType = Kind.MINUS ∧ ∃ p1 child, Consume Kind.MINUS p = (none, p1)
        ∧ F p1 = some (child, none, p') ∧ node = NewUnaryOperation p.CurrentToken child) ∨
    (p.CurrentToken.TokenType = Kind.INTEGER ∧ Consume Kind.INTEGER p = (none, p')
        ∧ NewNumberLiteral p.CurrentToken = .ok node) ∨
    (p.CurrentToken.TokenType = Kind.LPAR ∧ ∃ p1 p2, Consume Kind.LPAR p = (none, p1)
        ∧ E p1 = some (node, none, p2) ∧ Consume Kind.RPAR p2 = (none, p')) := by
  unfold FactorBody at h
  simp only at h
  repeat' split at h
  all_goals simp only [Option.some.injEq, Prod.mk.injEq, true_and, reduceCtorEq, false_and,
    and_false] at h
  all_goals obtain ⟨h1, h2⟩ := h
  all_goals subst h1 h2
  all_goals simp_all

/-- What a successful `Term` (or `Expr`) did. -/
theorem TermBody_ok {F : Parser → Option PResult} {L : ASTNode → Parser → Option PResult}
    {p p' : Parser} {node : ASTNode} (h : TermBody F L p = some (node, none, p')) :
    ∃ l p1, F p = some (l, none, p1) ∧ L l p1 = some (node, none, p') := by
  unfold TermBody at h
  split at h
  · simp at h
  · simp at h
  · rename_i l p1 hF
    exact ⟨l, p1, hF, h⟩

theorem ExprBody_ok {T : Parser → Option PResult} {L : ASTNode → Parser → Option PResult}
    {p p' : Parser} {node : ASTNode} (h : ExprBody T L p = some (node, none, p')) :
    ∃ l p1, T p = some (l, none, p1) ∧ L l p1 = some (node, none, p') := by
  unfold ExprBody at h
  split at h
  · simp at h
  · simp at h
  · rename_i l p1 hF
    exact ⟨l, p1, hF, h⟩

/-- What a successful round of the loop of `Term` did. -/
theorem TermLoopBody_ok {F : Parser → Option PResult} {L : ASTNode → Parser → Option PResult}
    {p p' : Parser} {left node : ASTNode}
    (h : TermLoopBody F L left p = some (node, none, p')) :
    (p.CurrentToken.TokenType ≠ Kind.MUL ∧ p.CurrentToken.TokenType ≠ Kind.DIV
        ∧ node = left ∧ p' = p) ∨
    (∃ p1 right p2, (p.CurrentToken.TokenType = Kind.MUL ∨ p.CurrentToken.TokenType = Kind.DIV)
        ∧ Consume p.CurrentToken.TokenType p = (none, p1) ∧ F p1 = some (right, none, p2)
        ∧ L (NewBinaryOperation left right p.CurrentToken) p2 = some (node, none, p')) := by
  unfold TermLoopBody at h
  by_cases hk : p.CurrentToken.TokenType = Kind.MUL ∨ p.CurrentToken.TokenType = Kind.DIV
  · right
    rcases hk with hk | hk
    · simp only [hk, decide_True, Bool.true_or, if_true] at h
      repeat' split at h
      all_goals first
        | (simp at h; done)
        | exact ⟨_, _, _, Or.inl hk, by rw [hk]; exact Option.some.inj ‹some (Consume _ p) = some _›,
            ‹_ = some (_, none, _)›, h⟩
    · simp only [hk, decide_True, Bool.or_true, if_true] at h
      repeat' split at h
      all_goals first
        | (simp at h; done)
        | exact ⟨_, _, _, Or.inr hk, by rw [hk]; exact Option.some.inj ‹some (Consume _ p) = some _›,
            ‹_ = some (_, none, _)›, h⟩
  · left
    have hk' := hk
    simp only [not_or] at hk'
    simp only [hk'.1, hk'.2, decide_False, Bool.or_self, Bool.false_eq_true, if_false,
      Option.some.injEq, Prod.mk.injEq, true_and] at h
    exact ⟨hk'.1, hk'.2, h.1.symm, h.2.symm⟩

/-- What a successful round of the loop of `Expr` did. -/
theorem ExprLoopBody_ok {T : Parser → Option PResult} {L : ASTNode → Parser → Option PResult}
    {p p' : Parser} {left node : ASTNode}
    (h : ExprLoopBody T L left p = some (node, none, p')) :
    (p.CurrentToken.TokenType ≠ Kind.PLUS ∧ p.CurrentToken.TokenType ≠ Kind.MINUS
        ∧ node = left ∧ p' = p) ∨
    (∃ p1 right p2, (p.CurrentToken.TokenType = Kind.PLUS ∨ p.CurrentToken.TokenType = Kind.MINUS)
        ∧ Consume p.CurrentToken.TokenType p = (none, p1) ∧ T p1 = some (right, none, p2)
        ∧ L (NewBinaryOperation left right p.CurrentToken) p2 = some (node, none, p')) := by
  unfold ExprLoopBody at h
  by_cases hk : p.CurrentToken.TokenType = Kind.PLUS ∨ p.CurrentToken.TokenType = Kind.MINUS
  · right
    rcases hk with hk | hk
    · simp only [hk, decide_True, Bool.true_or, if_true] at h
      repeat' split at h
      all_goals first
        | (simp at h; done)
        | exact ⟨_, _, _, Or.inl hk, by rw [hk]; exact Option.some.inj ‹some (Consume _ p) = some _›,
            ‹_ = some (_, none, _)›, h⟩
    · simp only [hk, decide_True, Bool.or_true, if_true] at h
      repeat' split at h
      all_goals first
        | (simp at h; done)
        | exact ⟨_, _, _, Or.inr hk, by rw [hk]; exact Option.some.inj ‹some (Consume _ p) = some _›,
            ‹_ = some (_, none, _)›, h⟩
  · left
    have hk' := hk
    simp only [not_or] at hk'
    simp only [hk'.1, hk'.2, decide_False, Bool.or_self, Bool.false_eq_true, if_false,
      Option.some.injEq, Prod.mk.injEq, true_and] at h
    exact ⟨hk'.1, hk'.2, h.1.symm, h.2.symm⟩

/-! ## More fuel gives the same result -/

theorem FactorBody_mono {F F' E E' : Parser → Option PResult}
    (hF : ∀ q r, F q = some r → F' q = some r) (hE : ∀ q r, E q = some r → E' q = some r)
    {p : Parser} {r : PResult} (h : FactorBody F E p = some r) :
    FactorBody F' E' p = some r := by
  unfold FactorBody at h ⊢
  simp only at h ⊢
  repeat' split at h
  all_goals first
    | (simp at h; done)
    | (have hF2 := hF _ _ ‹F _ = some _›; simp_all)
    | (have hE2 := hE _ _ ‹E _ = some _›; simp_all)
    | simp_all

theorem TermBody_mono {F F' : Parser → Option PResult}
    {L L' : ASTNode → Parser → Option PResult}
    (hF : ∀ q r, F q = some r → F' q = some r)
    (hL : ∀ l q r, L l q = some r → L' l q = some r)
    {p : Parser} {r : PResult} (h : TermBody F L p = some r) :
    TermBody F' L' p = some r := by
  unfold TermBody at h ⊢
  repeat' split at h
  all_goals first
    | (simp at h; done)
    | (have hF2 := hF _ _ ‹F _ = some _›; have hL2 := hL _ _ _ h; simp_all)
    | (have hF2 := hF _ _ ‹F _ = some _›; simp_all)

theorem TermLoopBody_mono {F F' : Parser → Option PResult}
    {L L' : ASTNode → Parser → Option PResult}
    (hF : ∀ q r, F q = some r → F' q = some r)
    (hL : ∀ l q r, L l q = some r → L' l q = some r)
    {p : Parser} {left : ASTNode} {r : PResult} (h : TermLoopBody F L left p = some r) :
    TermLoopBody F' L' left p = some r := by
  unfold TermLoopBody at h ⊢
  simp only at h ⊢
  repeat' split at h
  all_goals first
    | (simp at h; done)
    | (have hF2 := hF _ _ ‹F _ = some _›; have hL2 := hL _ _ _ h; simp_all)
    | (have hF2 := hF _ _ ‹F _ = some _›; simp_all)
    | simp_all

theorem ExprBody_mono {T T' : Parser → Option PResult}
    {L L' : ASTNode → Parser → Option PResult}
    (hT : ∀ q r, T q = some r → T' q = some r)
    (hL : ∀ l q r, L l q = some r → L' l q = some r)
    {p : Parser} {r : PResult} (h : ExprBody T L p = some r) :
    ExprBody T' L' p = some r := by
  unfold ExprBody at h ⊢
  repeat' split at h
  all_goals first
    | (simp at h; done)
    | (have hF2 := hT _ _ ‹T _ = some _›; have hL2 := hL _ _ _ h; simp_all)
    | (have hF2 := hT _ _ ‹T _ = some _›; simp_all)

theorem ExprLoopBody_mono {T T' : Parser → Option PResult}
    {L L' : ASTNode → Parser → Option PResult}
    (hT : ∀ q r, T q = some r → T' q = some r)
    (hL : ∀ l q r, L l q = some r → L' l q = some r)
    {p : Parser} {left : ASTNode} {r : PResult} (h : ExprLoopBody T L left p = some r) :
    ExprLoopBody T' L' left p = some r := by
  unfold ExprLoopBody at h ⊢
  simp only at h ⊢
  repeat' split at h
  all_goals first
    | (simp at h; done)
    | (have hF2 := hT _ _ ‹T _ = some _›; have hL2 := hL _ _ _ h; simp_all)
    | (have hF2 := hT _ _ ‹T _ = some _›; simp_all)
    | simp_all

theorem fuel_succ (n : Nat) :
    (∀ p r, Factor n p = some r → Factor (n + 1) p = some r) ∧
    (∀ p r, Term n p = some r → Term (n + 1) p = some r) ∧
    (∀ l p r, TermLoop n l p = some r → TermLoop (n + 1) l p = some r) ∧
    (∀ p r, Expr n p = some r → Expr (n + 1) p = some r) ∧
    (∀ l p r, ExprLoop n l p = some r → ExprLoop (n + 1) l p = some r) := by
  induction n with
  | zero =>
    simp [Factor_zero, Term_zero, TermLoop_zero, Expr_zero, ExprLoop_zero]
  | succ n ih =>
    obtain ⟨hF, hT, hTL, hE, hEL⟩ := ih
    refine ⟨?_, ?_, ?_, ?_, ?_⟩
    · intro p r h
      rw [Factor_succ] at h ⊢
      exact FactorBody_mono hF hE h
    · intro p r h
      rw [Term_succ] at h ⊢
      exact TermBody_mono hF hTL h
    · intro l p r h
      rw [TermLoop_succ] at h ⊢
      exact TermLoopBody_mono hF hTL h
    · intro p r h
      rw [Expr_succ] at h ⊢
      exact ExprBody_mono hT hEL h
    · intro l p r h
      rw [ExprLoop_succ] at h ⊢
      exact ExprLoopBody_mono hT hEL h

theorem Factor_fuel_le {n m : Nat} (h : n ≤ m) {p : Parser} {r : PResult}
    (hr : Factor n p = some r) : Factor m p = some r := by
  induction h with
  | refl => exact hr
  | step _ ih => exact (fuel_succ _).1 _ _ ih

theorem Term_fuel_le {n m : Nat} (h : n ≤ m) {p : Parser} {r : PResult}
    (hr : Term n p = some r) : Term m p = some r := by
  induction h with
  | refl => exact hr
  | step _ ih => exact (fuel_succ _).2.1 _ _ ih

theorem TermLoop_fuel_le {n m : Nat} (h : n ≤ m) {l : ASTNode} {p : Parser} {r : PResult}
    (hr : TermLoop n l p = some r) : TermLoop m l p = some r := by
  induction h with
  | refl => exact hr
  | step _ ih => exact (fuel_succ _).2.2.1 _ _ _ ih

theorem Expr_fuel_le {n m : Nat} (h : n ≤ m) {p : Parser} {r : PResult}
    (hr : Expr n p = some r) : Expr m p = some r := by
  induction h with
  | refl => exact hr
  | step _ ih => exact (fuel_succ _).2.2.2.1 _ _ ih

theorem ExprLoop_fuel_le {n m : Nat} (h : n ≤ m) {l : ASTNode} {p : Parser} {r : PResult}
    (hr : ExprLoop n l p = some r) : ExprLoop m l p = some r := by
  induction h with
  | refl => exact hr
  | step _ ih => exact (fuel_succ _).2.2.2.2 _ _ _ ih

/-! ## The nesting stack and `Consume` -/

theorem Peek_snoc (s : List Token) (x : Token) : Peek { Stack := s ++ [x] } = (x, none) := by
  simp [Peek, IsEmpty, List.getD_eq_getElem?_getD]

theorem Pop_snoc (s : List Token) (x : Token) :
    Pop { Stack := s ++ [x] } = (x, none, { Stack := s }) := by
  simp [Pop, IsEmpty, List.getD_eq_getElem?_getD]

theorem stack_snoc_of_ne_nil (s : List Token) (h : s ≠ []) :
    s = s.take (s.length - 1) ++ [s.getD (s.length - 1) zeroToken] := by
  induction s using List.reverseRecOn with
  | nil => exact absurd rfl h
  | append_singleton l a _ => simp [List.getD_eq_getElem?_getD]

theorem Peek_ok {ns : NestingStack} {x : Token} (h : Peek ns = (x, none)) :
    ns.Stack = ns.Stack.take (ns.Stack.length - 1) ++ [x] := by
  unfold Peek IsEmpty at h
  split at h
  · simp at h
  · rename_i hne
    simp only [Prod.mk.injEq, and_true] at h
    have hne' : ns.Stack ≠ [] := by
      intro h0; simp [h0] at hne
    have := stack_snoc_of_ne_nil ns.Stack hne'
    rw [h] at this
    exact this

theorem Pop_ok {ns ns' : NestingStack} {x : Token} (h : Pop ns = (x, none, ns')) :
    ns.Stack = ns'.Stack ++ [x] := by
  unfold Pop IsEmpty at h
  split at h
  · simp at h
  · rename_i hne
    simp only [Prod.mk.injEq, true_and] at h
    have hne' : ns.Stack ≠ [] := by
      intro h0; simp [h0] at hne
    have := stack_snoc_of_ne_nil ns.Stack hne'
    rw [h.1] at this
    rw [← h.2]
    exact this

/-- What a successful `Consume` did. -/
theorem Consume_ok {t : Kind} {p p' : Parser} (h : Consume t p = (none, p')) :
    p.CurrentToken.TokenType = t ∧
    GetNextToken p.Lex = (p'.CurrentToken, none, p'.Lex) ∧
    (t = Kind.LPAR →
      p'.Stack.Stack = p.Stack.Stack ++ [{ TokenType := Kind.LPAR, Value := Iface.rune 40 }]) ∧
    (t = Kind.RPAR → ∃ top, p.Stack.Stack = p'.Stack.Stack ++ [top]
      ∧ top.TokenType = Kind.LPAR) ∧
    (t ≠ Kind.LPAR → t ≠ Kind.RPAR → p'.Stack = p.Stack) ∧
    (p'.CurrentToken.TokenType = Kind.RPAR → p'.Stack.Stack ≠ []) ∧
    (t = Kind.INTEGER → p'.CurrentToken.TokenType ≠ Kind.INTEGER) := by
  unfold Consume at h
  split at h
  · simp at h
  · rename_i hk
    simp only [ne_eq, Decidable.not_not] at hk
    split at h
    · simp at h
    · rename_i p2 hs
      simp only at h
      split at h
      · simp at h
      · rename_i tok lex1 hg
        split at h
        · simp at h
        · split at h
          · simp at h
          · rename_i h1 h2
            simp only [Prod.mk.injEq, true_and] at h
            subst h
            simp only [Bool.and_eq_true, decide_eq_true_eq, not_and] at h1 h2
            -- the stack part
            unfold consumeStack at hs
            simp only at hs
            by_cases hL : p.CurrentToken.TokenType = Kind.LPAR
            · simp only [hL, if_true, reduceCtorEq, if_false, Prod.mk.injEq, true_and] at hs
              subst hs
              simp only at hg h1 h2 ⊢
              refine ⟨hk, hg, ?_, ?_, ?_, ?_, ?_⟩
              · intro _; rfl
              · intro ht; rw [← hk, hL] at ht; cases ht
              · intro ht; exact absurd (hk ▸ hL) ht
              · intro hr h0; have := h1 hr; simp [IsEmpty, h0] at this
              · intro ht; rw [← hk, hL] at ht; cases ht
            · simp only [hL, if_false] at hs
              by_cases hR : p.CurrentToken.TokenType = Kind.RPAR
              · simp only [hR, if_true] at hs
                split at hs
                · simp at hs
                · rename_i top hpk
                  split at hs
                  · simp at hs
                  · rename_i htop
                    simp only [ne_eq, Decidable.not_not] at htop
                    split at hs
                    · simp at hs
                    · rename_i x st hpop
                      simp only [Prod.mk.injEq, true_and] at hs
                      subst hs
                      simp only at hg h1 h2 ⊢
                      have e1 := Peek_ok hpk
                      have e2 := Pop_ok hpop
                      have : top = x := by
                        have := e1.symm.trans e2
                        have := List.append_inj' this rfl
                        simpa using this.2
                      subst this
                      refine ⟨hk, hg, ?_, ?_, ?_, ?_, ?_⟩
                      · intro ht; rw [← hk, hR] at ht; cases ht
                      · intro _; exact ⟨top, e2, htop⟩
                      · intro _ ht; exact absurd (hk ▸ hR) ht
                      · intro hr h0; have := h1 hr; simp [IsEmpty, h0] at this
                      · intro ht; rw [← hk, hR] at ht; cases ht
              · simp only [hR, if_false, Prod.mk.injEq, true_and] at hs
                subst hs
                simp only at hg h1 h2 ⊢
                refine ⟨hk, hg, ?_, ?_, ?_, ?_, ?_⟩
                · intro ht; exact absurd (hk.trans ht) hL
                · intro ht; exact absurd (hk.trans ht) hR
                · intro _ _; trivial
                · intro hr h0; have := h1 hr; simp [IsEmpty, h0] at this
                · intro ht; exact h2 (hk.trans ht)

theorem Consume_simple {t : Kind} {p : Parser} {tok : Token} {lex' : Lexer}
    (hk : p.CurrentToken.TokenType = t) (hL : t ≠ Kind.LPAR) (hR : t ≠ Kind.RPAR)
    (hg : GetNextToken p.Lex = (tok, none, lex'))
    (h1 : tok.TokenType = Kind.RPAR → p.Stack.Stack ≠ [])
    (h2 : t = Kind.INTEGER → tok.TokenType ≠ Kind.INTEGER) :
    Consume t p = (none, { Lex := lex', CurrentToken := tok, Stack := p.Stack }) := by
  subst hk
  have hs : consumeStack p = (none, p) := by
    simp [consumeStack, hL, hR]
  unfold Consume
  simp only [ne_eq, not_true_eq_false, if_false, hs, hg]
  by_cases hr : tok.TokenType = Kind.RPAR
  · have := h1 hr
    have he : IsEmpty p.Stack = false := by
      simp only [IsEmpty, beq_eq_false_iff_ne, ne_eq, List.length_eq_zero]; exact this
    simp [hr, he]
  · by_cases hi : p.CurrentToken.TokenType = Kind.INTEGER
    · simp [hr, hi, h2 hi]
    · simp [hr, hi]

theorem Consume_LPAR {p : Parser} {tok : Token} {lex' : Lexer}
    (hk : p.CurrentToken.TokenType = Kind.LPAR)
    (hg : GetNextToken p.Lex = (tok, none, lex')) :
    Consume Kind.LPAR p = (none,
      { Lex := lex', CurrentToken := tok, Stack := Push p.Stack ⟨Kind.LPAR, Iface.rune 40⟩ }) := by
  have hs : consumeStack p
      = (none, { p with Stack := Push p.Stack ⟨Kind.LPAR, Iface.rune 40⟩ }) := by
    simp [consumeStack, hk]
  unfold Consume
  simp only [hk, ne_eq, not_true_eq_false, if_false, hs, hg]
  simp [IsEmpty, Push]

theorem Consume_RPAR {p : Parser} {tok top : Token} {lex' : Lexer} {s : List Token}
    (hk : p.CurrentToken.TokenType = Kind.RPAR)
    (hs : p.Stack.Stack = s ++ [top]) (htop : top.TokenType = Kind.LPAR)
    (hg : GetNextToken p.Lex = (tok, none, lex'))
    (h1 : tok.TokenType = Kind.RPAR → s ≠ []) :
    Consume Kind.RPAR p = (none, { Lex := lex', CurrentToken := tok, Stack := { Stack := s } }) := by
  have hst : p.Stack = { Stack := s ++ [top] } := by
    cases h : p.Stack; simp [h] at hs; simp [hs]
  have hcs : consumeStack p = (none, { p with Stack := { Stack := s } }) := by
    simp [consumeStack, hk, hst, Peek_snoc, Pop_snoc, htop]
  unfold Consume
  simp only [hk, ne_eq, not_true_eq_false, if_false, hcs, hg]
  by_cases hr : tok.TokenType = Kind.RPAR
  · have := h1 hr
    simp [hr, IsEmpty, this]
  · simp [hr]

/-- A successful `Consume` on a well-formed state, in terms of `lexSpec`. -/
theorem Consume_ok_WF {t : Kind} {p p' : Parser} (hw : WF p) (h : Consume t p = (none, p')) :
    p'.Lex = lexerAt p.Lex.Input
        (p.Lex.Position + (lexSpec (p.Lex.Input.drop p.Lex.Position)).2.2) ∧
    p'.CurrentToken = (lexSpec (p.Lex.Input.drop p.Lex.Position)).1 ∧
    (lexSpec (p.Lex.Input.drop p.Lex.Position)).2.1 = none := by
  have hg := (Consume_ok h).2.1
  rw [hw, GetNextToken_lexerAt] at hg
  simp only [Prod.mk.injEq] at hg
  exact ⟨hg.2.2.symm, hg.1.symm, hg.2.1⟩

theorem Consume_ok_WF' {t : Kind} {p p' : Parser} (hw : WF p) (h : Consume t p = (none, p')) :
    WF p' ∧ p'.Lex.Input = p.Lex.Input := by
  have := (Consume_ok_WF hw h).1
  constructor
  · unfold WF; rw [this]; rfl
  · rw [this]; rfl

theorem Consumed_append {p q r : Parser} {a b : List Token}
    (h1 : Consumed p a q) (h2 : Consumed q b r) : Consumed p (a ++ b) r := by
  induction h1 with
  | nil _ => exact h2
  | cons hp hc _ ih => exact Consumed.cons hp hc (ih h2)

theorem Consumed_WF {p q : Parser} {ts : List Token} (h : Consumed p ts q) (hw : WF p) :
    WF q ∧ q.Lex.Input = p.Lex.Input := by
  induction h with
  | nil _ => exact ⟨hw, rfl⟩
  | cons _ hc _ ih =>
    have h1 := Consume_ok_WF' hw hc
    have h2 := ih h1.1
    exact ⟨h2.1, h2.2.trans h1.2⟩

/-! ## The tokens a successful parse consumes -/

theorem Seg_single {f : Kind → Bool} {k : Kind} (h1 : f k = true) (h2 : endsFactor k = true) :
    Seg f [k] :=
  ⟨List.chain'_singleton k, ⟨k, rfl, h1⟩, ⟨k, rfl, h2⟩⟩

theorem Seg_ne_nil {f : Kind → Bool} {ks : List Kind} (h : Seg f ks) : ks ≠ [] := by
  rintro rfl
  obtain ⟨_, ⟨k, hk, _⟩, _⟩ := h
  simp at hk

theorem Seg_cons {f g : Kind → Bool} {k : Kind} {ks : List Kind} (h : Seg f ks)
    (hg : g k = true) (hv : ∀ y, f y = true → validPair k y = true) : Seg g (k :: ks) := by
  obtain ⟨hc, ⟨a, ha, hfa⟩, ⟨b, hb, hfb⟩⟩ := h
  refine ⟨?_, ⟨k, rfl, hg⟩, ⟨b, ?_, hfb⟩⟩
  · apply hc.cons'
    intro y hy
    rw [ha] at hy
    simp only [Option.mem_def, Option.some.injEq] at hy
    subst hy
    exact hv _ hfa
  · cases ks with
    | nil => simp at ha
    | cons x xs => simpa using hb

theorem Seg_append {f g : Kind → Bool} {as bs : List Kind} (h1 : Seg f as) (h2 : Seg g bs)
    (hv : ∀ x y, endsFactor x = true → g y = true → validPair x y = true) :
    Seg f (as ++ bs) := by
  obtain ⟨hc1, ⟨a1, ha1, hfa1⟩, ⟨b1, hb1, hfb1⟩⟩ := h1
  obtain ⟨hc2, ⟨a2, ha2, hfa2⟩, ⟨b2, hb2, hfb2⟩⟩ := h2
  refine ⟨?_, ⟨a1, ?_, hfa1⟩, ⟨b2, ?_, hfb2⟩⟩
  · apply hc1.append hc2
    intro x hx y hy
    rw [hb1] at hx; rw [ha2] at hy
    simp only [Option.mem_def, Option.some.injEq] at hx hy
    subst hx; subst hy
    exact hv _ _ hfb1 hfa2
  · simp [ha1]
  · simp [hb2]

theorem Seg_snoc {f : Kind → Bool} {as : List Kind} {k : Kind} (h1 : Seg f as)
    (hk : endsFactor k = true)
    (hv : ∀ x, endsFactor x = true → validPair x k = true) : Seg f (as ++ [k]) :=
  Seg_append (g := fun y => y == k) h1 (Seg_single (by simp) hk)
    (by intro x y hx hy; simp only [beq_iff_eq] at hy; subst hy; exact hv x hx)


/-! ## The tokens a successful parse consumes: the trace -/

theorem kinds_cons (t : Token) (ts : List Token) : kinds (t :: ts) = t.TokenType :: kinds ts := rfl

theorem kinds_append (a b : List Token) : kinds (a ++ b) = kinds a ++ kinds b := by
  simp [kinds]

theorem validPair_ends_operator {x y : Kind} (hx : endsFactor x = true)
    (hy : isOperator y = true) : validPair x y = true := by
  simp [validPair, hx, hy]

theorem validPair_operator_starts {x y : Kind} (hx : isOperator x = true)
    (hy : startsFactor y = true) : validPair x y = true := by
  simp [validPair, hx, hy]

/-- The tokens a successful `Factor` consumes. -/
theorem FactorBody_trace {F E : Parser → Option PResult}
    (hF : ∀ q node q', F q = some (node, none, q') →
      ∃ ts, Consumed q ts q' ∧ Seg startsFactor (kinds ts))
    (hE : ∀ q node q', E q = some (node, none, q') →
      ∃ ts, Consumed q ts q' ∧ Seg startsFactor (kinds ts))
    {p p' : Parser} {node : ASTNode} (h : FactorBody F E p = some (node, none, p')) :
    ∃ ts, Consumed p ts p' ∧ Seg startsFactor (kinds ts) := by
  rcases FactorBody_ok h with ⟨hk, p1, child, hc, hf, _⟩ | ⟨hk, p1, child, hc, hf, _⟩
    | ⟨hk, hc, _⟩ | ⟨hk, p1, p2, hc, he, hc2⟩
  · obtain ⟨ts, h1, h2⟩ := hF _ _ _ hf
    refine ⟨p.CurrentToken :: ts, Consumed.cons (by rw [hk]; rfl) (by rw [hk]; exact hc) h1, ?_⟩
    rw [kinds_cons, hk]
    exact Seg_cons h2 rfl (fun y hy => validPair_operator_starts rfl hy)
  · obtain ⟨ts, h1, h2⟩ := hF _ _ _ hf
    refine ⟨p.CurrentToken :: ts, Consumed.cons (by rw [hk]; rfl) (by rw [hk]; exact hc) h1, ?_⟩
    rw [kinds_cons, hk]
    exact Seg_cons h2 rfl (fun y hy => validPair_operator_starts rfl hy)
  · refine ⟨[p.CurrentToken],
      Consumed.cons (by rw [hk]; rfl) (by rw [hk]; exact hc) (Consumed.nil _), ?_⟩
    rw [kinds_cons, hk]
    exact Seg_single rfl rfl
  · obtain ⟨ts, h1, h2⟩ := hE _ _ _ he
    have hk2 := (Consume_ok hc2).1
    have h3 : Consumed p2 [p2.CurrentToken] p' :=
      Consumed.cons (by rw [hk2]; rfl) (by rw [hk2]; exact hc2) (Consumed.nil _)
    refine ⟨p.CurrentToken :: (ts ++ [p2.CurrentToken]),
      Consumed.cons (by rw [hk]; rfl) (by rw [hk]; exact hc) (Consumed_append h1 h3), ?_⟩
    rw [kinds_cons, hk, kinds_append]
    have h4 : Seg startsFactor (kinds ts ++ kinds [p2.CurrentToken]) := by
      apply Seg_snoc h2 (by simp [hk2]; rfl)
      intro x hx
      simp [hk2, validPair, hx]
    exact Seg_cons h4 rfl (fun y hy => by simp [validPair, hy, isOperator])

/-- The tokens a successful loop of `Term` or `Expr` consumes: none, or an
operator followed by an operand, and so on. -/
theorem LoopBody_trace (first : Kind → Bool)
    (hfirst : ∀ y, first y = true → isOperator y = true)
    {F : Parser → Option PResult} {L : ASTNode → Parser → Option PResult}
    (hF : ∀ q node q', F q = some (node, none, q') →
      ∃ ts, Consumed q ts q' ∧ Seg startsFactor (kinds ts))
    (hL : ∀ l q node q', L l q = some (node, none, q') →
      ∃ ts, Consumed q ts q' ∧ (ts = [] ∨ Seg first (kinds ts)))
    {p p' : Parser} {left node : ASTNode}
    (h : (node = left ∧ p' = p) ∨
      (∃ p1 right p2, first p.CurrentToken.TokenType = true
        ∧ Consume p.CurrentToken.TokenType p = (none, p1) ∧ F p1 = some (right, none, p2)
        ∧ L (NewBinaryOperation left right p.CurrentToken) p2 = some (node, none, p'))) :
    ∃ ts, Consumed p ts p' ∧ (ts = [] ∨ Seg first (kinds ts)) := by
  rcases h with ⟨_, rfl⟩ | ⟨p1, right, p2, hk, hc, hf, hl⟩
  · exact ⟨[], Consumed.nil _, Or.inl rfl⟩
  · obtain ⟨ts1, h1, h2⟩ := hF _ _ _ hf
    obtain ⟨ts2, h3, h4⟩ := hL _ _ _ _ hl
    have hop := hfirst _ hk
    refine ⟨p.CurrentToken :: (ts1 ++ ts2), Consumed.cons ?_ hc (Consumed_append h1 h3),
      Or.inr ?_⟩
    · revert hop; cases p.CurrentToken.TokenType <;> simp [isOperator, proper]
    · rw [kinds_cons, kinds_append]
      have h5 : Seg startsFactor (kinds ts1 ++ kinds ts2) := by
        rcases h4 with rfl | h4
        · simpa [kinds] using h2
        · exact Seg_append h2 h4 (fun x y hx hy => validPair_ends_operator hx (hfirst y hy))
      exact Seg_cons h5 hk (fun y hy => validPair_operator_starts hop hy)

/-- The melting of an operand and the loop that follows it. -/
theorem Seg_operand_loop {first : Kind → Bool}
    (hfirst : ∀ y, first y = true → isOperator y = true)
    {ts1 ts2 : List Token} (h1 : Seg startsFactor (kinds ts1))
    (h2 : ts2 = [] ∨ Seg first (kinds ts2)) : Seg startsFactor (kinds (ts1 ++ ts2)) := by
  rw [kinds_append]
  rcases h2 with rfl | h2
  · simpa [kinds] using h1
  · exact Seg_append h1 h2 (fun x y hx hy => validPair_ends_operator hx (hfirst y hy))

theorem trace_all (n : Nat) :
    (∀ p node p', Factor n p = some (node, none, p') →
      ∃ ts, Consumed p ts p' ∧ Seg startsFactor (kinds ts)) ∧
    (∀ p node p', Term n p = some (node, none, p') →
      ∃ ts, Consumed p ts p' ∧ Seg startsFactor (kinds ts)) ∧
    (∀ l p node p', TermLoop n l p = some (node, none, p') →
      ∃ ts, Consumed p ts p' ∧ (ts = [] ∨ Seg mulOp (kinds ts))) ∧
    (∀ p node p', Expr n p = some (node, none, p') →
      ∃ ts, Consumed p ts p' ∧ Seg startsFactor (kinds ts)) ∧
    (∀ l p node p', ExprLoop n l p = some (node, none, p') →
      ∃ ts, Consumed p ts p' ∧ (ts = [] ∨ Seg addOp (kinds ts))) := by
  have hmul : ∀ y, mulOp y = true → isOperator y = true := by
    intro y; cases y <;> simp [mulOp, isOperator]
  have hadd : ∀ y, addOp y = true → isOperator y = true := by
    intro y; cases y <;> simp [addOp, isOperator]
  induction n with
  | zero =>
    simp [Factor_zero, Term_zero, TermLoop_zero, Expr_zero, ExprLoop_zero]
  | succ n ih =>
    obtain ⟨hF, hT, hTL, hE, hEL⟩ := ih
    refine ⟨?_, ?_, ?_, ?_, ?_⟩
    · intro p node p' h
      rw [Factor_succ] at h
      exact FactorBody_trace hF hE h
    · intro p node p' h
      rw [Term_succ] at h
      obtain ⟨l, p1, h1, h2⟩ := TermBody_ok h
      obtain ⟨ts1, a1, b1⟩ := hF _ _ _ h1
      obtain ⟨ts2, a2, b2⟩ := hTL _ _ _ _ h2
      exact ⟨ts1 ++ ts2, Consumed_append a1 a2, Seg_operand_loop hmul b1 b2⟩
    · intro l p node p' h
      rw [TermLoop_succ] at h
      apply @LoopBody_trace mulOp hmul _ _ hF hTL p p' l node
      rcases TermLoopBody_ok h with ⟨_, _, h1, h2⟩ | ⟨p1, right, p2, hk, hc, hf, hl⟩
      · exact Or.inl ⟨h1, h2⟩
      · exact Or.inr ⟨p1, right, p2, by rcases hk with hk | hk <;> simp [mulOp, hk], hc, hf, hl⟩
    · intro p node p' h
      rw [Expr_succ] at h
      obtain ⟨l, p1, h1, h2⟩ := ExprBody_ok h
      obtain ⟨ts1, a1, b1⟩ := hT _ _ _ h1
      obtain ⟨ts2, a2, b2⟩ := hEL _ _ _ _ h2
      exact ⟨ts1 ++ ts2, Consumed_append a1 a2, Seg_operand_loop hadd b1 b2⟩
    · intro l p node p' h
      rw [ExprLoop_succ] at h
      apply @LoopBody_trace addOp hadd _ _ hT hEL p p' l node
      rcases ExprLoopBody_ok h with ⟨_, _, h1, h2⟩ | ⟨p1, right, p2, hk, hc, hf, hl⟩
      · exact Or.inl ⟨h1, h2⟩
      · exact Or.inr ⟨p1, right, p2, by rcases hk with hk | hk <;> simp [addOp, hk], hc, hf, hl⟩

/-! ## What `lexSpec` returns without an error -/

theorem lexSpec_nil : lexSpec [] = (NewToken Kind.EOF (Iface.int 0), none, 0) := rfl

/-- The three ways `lexSpec` succeeds: end of input, an integer, or one of
the six symbols, each after the leading whitespace `ws`. -/
theorem lexSpec_cases (r : List Nat) (h : (lexSpec r).2.1 = none) :
    ∃ ws l, r = ws ++ l ∧ (∀ c ∈ ws, isSpace c = true) ∧
      ((lexSpec r = (NewToken Kind.EOF (Iface.int 0), none, ws.length)
          ∧ (l = [] ∨ ∃ t, l = 0 :: t)) ∨
       (∃ ds t v, l = ds ++ t ∧ ds ≠ [] ∧ (∀ c ∈ ds, isDigit c = true)
          ∧ lexSpec r = (NewToken Kind.INTEGER (Iface.int v), none, ws.length + ds.length)) ∨
       (∃ c t tok, l = c :: t ∧ lexSpec r = (tok, none, ws.length + 1)
          ∧ ((c = 43 ∧ tok.TokenType = Kind.PLUS) ∨ (c = 45 ∧ tok.TokenType = Kind.MINUS)
            ∨ (c = 42 ∧ tok.TokenType = Kind.MUL) ∨ (c = 47 ∧ tok.TokenType = Kind.DIV)
            ∨ (c = 40 ∧ tok.TokenType = Kind.LPAR) ∨ (c = 41 ∧ tok.TokenType = Kind.RPAR)))) := by
  refine ⟨r.takeWhile isSpace, r.dropWhile isSpace, (List.takeWhile_append_dropWhile _ _).symm,
    fun c hc => List.mem_takeWhile_imp hc, ?_⟩
  unfold lexSpec at h ⊢
  simp only at h ⊢
  cases hl : r.dropWhile isSpace with
  | nil => left; exact ⟨rfl, Or.inl rfl⟩
  | cons c t =>
    simp only [hl] at h ⊢
    by_cases h0 : c = 0
    · left; subst h0; simp
    · simp only [h0, if_false] at h ⊢
      by_cases hd : isDigit c = true
      · simp only [hd, if_true] at h ⊢
        right; left
        cases hp : ParseInt32 ((c :: t).takeWhile isDigit) with
        | error e => simp [hp] at h
        | ok v =>
          refine ⟨(c :: t).takeWhile isDigit, (c :: t).dropWhile isDigit, v,
            (List.takeWhile_append_dropWhile _ _).symm, ?_,
            fun c hc => List.mem_takeWhile_imp hc, rfl⟩
          simp [List.takeWhile_cons, hd]
      · simp only [hd, Bool.false_eq_true, if_false] at h ⊢
        right; right
        split_ifs at h ⊢ with h1 h2 h3 h4 h5 h6
        · exact ⟨c, t, _, rfl, rfl, Or.inl ⟨h1, rfl⟩⟩
        · exact ⟨c, t, _, rfl, rfl, Or.inr (Or.inl ⟨h2, rfl⟩)⟩
        · exact ⟨c, t, _, rfl, rfl, Or.inr (Or.inr (Or.inl ⟨h3, rfl⟩))⟩
        · exact ⟨c, t, _, rfl, rfl, Or.inr (Or.inr (Or.inr (Or.inl ⟨h4, rfl⟩)))⟩
        · exact ⟨c, t, _, rfl, rfl, Or.inr (Or.inr (Or.inr (Or.inr (Or.inl ⟨h5, rfl⟩))))⟩
        · exact ⟨c, t, _, rfl, rfl, Or.inr (Or.inr (Or.inr (Or.inr (Or.inr ⟨h6, rfl⟩))))⟩

theorem count_paren_neutral (l : List Nat)
    (h : ∀ c ∈ l, isSpace c = true ∨ isDigit c = true) :
    l.count 40 = 0 ∧ l.count 41 = 0 := by
  constructor <;> rw [List.count_eq_zero] <;> intro hm <;> have := h _ hm <;> revert this <;> decide

theorem take_count_paren_neutral (l t : List Nat) (j : Nat) (hj : j ≤ l.length)
    (h : ∀ c ∈ l, isSpace c = true ∨ isDigit c = true) :
    ((l ++ t).take j).count 40 = 0 ∧ ((l ++ t).take j).count 41 = 0 := by
  rw [List.take_append_of_le_length hj]
  exact count_paren_neutral _ (fun c hc => h c (List.mem_of_mem_take hc))

/-- The facts about a successful `lexSpec` the proofs below use: how far the
cursor moves, and how many parentheses it passes. -/
theorem lexSpec_facts (r : List Nat) (h : (lexSpec r).2.1 = none) :
    (lexSpec r).2.2 ≤ r.length ∧
    (lexSpec r).1.TokenType ≠ Kind.NONE ∧
    ((lexSpec r).1.TokenType ≠ Kind.EOF → 1 ≤ (lexSpec r).2.2) ∧
    ((lexSpec r).1.TokenType = Kind.EOF → (∀ b ∈ r, b ≠ 0) → (lexSpec r).2.2 = r.length) ∧
    (r.take (lexSpec r).2.2).count 40 = (if (lexSpec r).1.TokenType = Kind.LPAR then 1 else 0) ∧
    (r.take (lexSpec r).2.2).count 41 = (if (lexSpec r).1.TokenType = Kind.RPAR then 1 else 0) ∧
    (∀ j, j < (lexSpec r).2.2 → (r.take j).count 40 = 0 ∧ (r.take j).count 41 = 0) := by
  obtain ⟨ws, l, rfl, hws, hc⟩ := lexSpec_cases r h
  have hws' : ∀ c ∈ ws, isSpace c = true ∨ isDigit c = true := fun c hc => Or.inl (hws c hc)
  rcases hc with ⟨he, hl⟩ | ⟨ds, t, v, rfl, hne, hds, he⟩ | ⟨c, t, tok, rfl, he, hc⟩
  · rw [he]
    simp only [NewToken, List.length_append, ne_eq, reduceCtorEq, not_false_eq_true,
      not_true_eq_false, false_implies, true_implies, if_false, true_and]
    refine ⟨by omega, ?_, ?_, ?_, ?_⟩
    · intro hz
      rcases hl with rfl | ⟨t, rfl⟩
      · simp
      · exact absurd rfl (hz 0 (by simp))
    · have := take_count_paren_neutral ws l ws.length (le_refl _) hws'
      exact this.1
    · have := take_count_paren_neutral ws l ws.length (le_refl _) hws'
      exact this.2
    · intro j hj
      exact take_count_paren_neutral ws l j (by omega) hws'
  · rw [he]
    have hn : ∀ c ∈ ws ++ ds, isSpace c = true ∨ isDigit c = true := by
      intro c hc
      rcases List.mem_append.1 hc with hc | hc
      · exact Or.inl (hws c hc)
      · exact Or.inr (hds c hc)
    have hlen : 1 ≤ ds.length := by
      cases ds with
      | nil => exact absurd rfl hne
      | cons _ _ => simp
    simp only [NewToken, List.length_append, ne_eq, reduceCtorEq, not_false_eq_true,
      false_implies, true_implies, if_false, true_and]
    refine ⟨by omega, by omega, ?_, ?_, ?_⟩
    · have := take_count_paren_neutral (ws ++ ds) t (ws.length + ds.length) (by simp) hn
      simpa using this.1
    · have := take_count_paren_neutral (ws ++ ds) t (ws.length + ds.length) (by simp) hn
      simpa using this.2
    · intro j hj
      have := take_count_paren_neutral (ws ++ ds) t j (by simp; omega) hn
      simpa using this
  · rw [he]
    have htake : (ws ++ c :: t).take (ws.length + 1) = ws ++ [c] := by
      rw [List.take_append_eq_append_take]
      simp
    have hcw := count_paren_neutral ws hws'
    simp only [List.length_append, List.length_cons, htake, List.count_append, hcw.1, hcw.2,
      Nat.zero_add, true_and]
    refine ⟨by omega, ?_, ?_, ?_, ?_, ?_, ?_⟩
    · rcases hc with ⟨_, hk⟩ | ⟨_, hk⟩ | ⟨_, hk⟩ | ⟨_, hk⟩ | ⟨_, hk⟩ | ⟨_, hk⟩ <;> simp [hk]
    · intro _; omega
    · rcases hc with ⟨_, hk⟩ | ⟨_, hk⟩ | ⟨_, hk⟩ | ⟨_, hk⟩ | ⟨_, hk⟩ | ⟨_, hk⟩ <;> simp [hk]
    · rcases hc with ⟨rfl, hk⟩ | ⟨rfl, hk⟩ | ⟨rfl, hk⟩ | ⟨rfl, hk⟩ | ⟨rfl, hk⟩ | ⟨rfl, hk⟩ <;> simp [hk]
    · rcases hc with ⟨rfl, hk⟩ | ⟨rfl, hk⟩ | ⟨rfl, hk⟩ | ⟨rfl, hk⟩ | ⟨rfl, hk⟩ | ⟨rfl, hk⟩ <;> simp [hk]
    · intro j hj
      exact take_count_paren_neutral ws (c :: t) j (by omega) hws'

/-! ## Every successful `Consume` brings the end of the input nearer -/

theorem Consume_remaining {t : Kind} {p p' : Parser} (hw : WF p) (ht : proper t = true)
    (h : Consume t p = (none, p')) : remaining p' < remaining p := by
  obtain ⟨h1, h2, h3⟩ := Consume_ok_WF hw h
  have hk := (Consume_ok h).1
  obtain ⟨f1, f2, f3, _⟩ := lexSpec_facts _ h3
  rw [← h2] at f2 f3
  simp only [List.length_drop] at f1
  unfold remaining
  rw [h1, hk, ht]
  simp only [lexerAt, if_true]
  by_cases he : p'.CurrentToken.TokenType = Kind.EOF
  · simp only [he, proper]; simp; omega
  · have := f3 he
    split <;> omega

theorem Consumed_remaining {p p' : Parser} {ts : List Token} (h : Consumed p ts p')
    (hw : WF p) : remaining p' + ts.length ≤ remaining p := by
  induction h with
  | nil _ => simp
  | cons hp hc _ ih =>
    have h1 := Consume_remaining hw hp hc
    have h2 := ih (Consume_ok_WF' hw hc).1
    simp only [List.length_cons]
    omega

theorem Seg_kinds_length {f : Kind → Bool} {ts : List Token} (h : Seg f (kinds ts)) :
    1 ≤ ts.length := by
  cases ts with
  | nil => exact absurd rfl (Seg_ne_nil h)
  | cons _ _ => simp

/-- A successful `Factor`, `Term` or `Expr` consumes at least one token. -/
theorem ok_remaining (n : Nat) :
    (∀ p node p', WF p → Factor n p = some (node, none, p') →
      WF p' ∧ remaining p' < remaining p) ∧
    (∀ p node p', WF p → Term n p = some (node, none, p') →
      WF p' ∧ remaining p' < remaining p) ∧
    (∀ p node p', WF p → Expr n p = some (node, none, p') →
      WF p' ∧ remaining p' < remaining p) := by
  obtain ⟨hF, hT, _, hE, _⟩ := trace_all n
  refine ⟨?_, ?_, ?_⟩ <;> intro p node p' hw h
  · obtain ⟨ts, h1, h2⟩ := hF _ _ _ h
    have := Consumed_remaining h1 hw
    have := Seg_kinds_length h2
    exact ⟨(Consumed_WF h1 hw).1, by omega⟩
  · obtain ⟨ts, h1, h2⟩ := hT _ _ _ h
    have := Consumed_remaining h1 hw
    have := Seg_kinds_length h2
    exact ⟨(Consumed_WF h1 hw).1, by omega⟩
  · obtain ⟨ts, h1, h2⟩ := hE _ _ _ h
    have := Consumed_remaining h1 hw
    have := Seg_kinds_length h2
    exact ⟨(Consumed_WF h1 hw).1, by omega⟩

/-! ## Enough fuel: the procedures return -/

theorem FactorBody_total {F E : Parser → Option PResult} {p : Parser}
    (hF : ∀ t p1, Consume t p = (none, p1) → proper t = true → ∃ r, F p1 = some r)
    (hE : ∀ t p1, Consume t p = (none, p1) → proper t = true → ∃ r, E p1 = some r) :
    ∃ r, FactorBody F E p = some r := by
  unfold FactorBody
  simp only
  split
  · split
    · exact ⟨_, rfl⟩
    · rename_i p1 hc
      obtain ⟨⟨node, e, p2⟩, hr⟩ := hF _ _ hc rfl
      rw [hr]
      cases e <;> exact ⟨_, rfl⟩
  · split
    · exact ⟨_, rfl⟩
    · rename_i p1 hc
      obtain ⟨⟨node, e, p2⟩, hr⟩ := hF _ _ hc rfl
      rw [hr]
      cases e <;> exact ⟨_, rfl⟩
  · split
    · exact ⟨_, rfl⟩
    · split <;> exact ⟨_, rfl⟩
  · split
    · exact ⟨_, rfl⟩
    · rename_i p1 hc
      obtain ⟨⟨node, e, p2⟩, hr⟩ := hE _ _ hc rfl
      rw [hr]
      cases e
      · simp only
        split <;> exact ⟨_, rfl⟩
      · exact ⟨_, rfl⟩
  · exact ⟨_, rfl⟩

theorem TermBody_total {F : Parser → Option PResult} {L : ASTNode → Parser → Option PResult}
    {p : Parser} (hF : ∃ r, F p = some r)
    (hL : ∀ l p1, F p = some (l, none, p1) → ∃ r, L l p1 = some r) :
    ∃ r, TermBody F L p = some r := by
  unfold TermBody
  obtain ⟨⟨node, e, p1⟩, hr⟩ := hF
  rw [hr]
  cases e
  · exact hL _ _ hr
  · exact ⟨_, rfl⟩

theorem ExprBody_total {T : Parser → Option PResult} {L : ASTNode → Parser → Option PResult}
    {p : Parser} (hT : ∃ r, T p = some r)
    (hL : ∀ l p1, T p = some (l, none, p1) → ∃ r, L l p1 = some r) :
    ∃ r, ExprBody T L p = some r := by
  unfold ExprBody
  obtain ⟨⟨node, e, p1⟩, hr⟩ := hT
  rw [hr]
  cases e
  · exact hL _ _ hr
  · exact ⟨_, rfl⟩

theorem TermLoopBody_total {F : Parser → Option PResult}
    {L : ASTNode → Parser → Option PResult} {left : ASTNode} {p : Parser}
    (hF : ∀ t p1, Consume t p = (none, p1) → proper t = true → ∃ r, F p1 = some r)
    (hL : ∀ t p1 l p2, Consume t p = (none, p1) → proper t = true →
      F p1 = some (l, none, p2) → ∀ l', ∃ r, L l' p2 = some r) :
    ∃ r, TermLoopBody F L left p = some r := by
  unfold TermLoopBody
  simp only
  split
  · split
    · exact ⟨_, rfl⟩
    · exact ⟨_, rfl⟩
    · rename_i p1 hc
      have hc' : ∃ t, proper t = true ∧ Consume t p = (none, p1) := by
        split at hc
        · exact ⟨Kind.MUL, rfl, Option.some.inj hc⟩
        · exact ⟨Kind.DIV, rfl, Option.some.inj hc⟩
        · simp at hc
      obtain ⟨t, ht, hc'⟩ := hc'
      obtain ⟨⟨node, e, p2⟩, hr⟩ := hF _ _ hc' ht
      rw [hr]
      cases e
      · exact hL _ _ _ _ hc' ht hr _
      · exact ⟨_, rfl⟩
  · exact ⟨_, rfl⟩

theorem ExprLoopBody_total {T : Parser → Option PResult}
    {L : ASTNode → Parser → Option PResult} {left : ASTNode} {p : Parser}
    (hT : ∀ t p1, Consume t p = (none, p1) → proper t = true → ∃ r, T p1 = some r)
    (hL : ∀ t p1 l p2, Consume t p = (none, p1) → proper t = true →
      T p1 = some (l, none, p2) → ∀ l', ∃ r, L l' p2 = some r) :
    ∃ r, ExprLoopBody T L left p = some r := by
  unfold ExprLoopBody
  simp only
  split
  · split
    · exact ⟨_, rfl⟩
    · exact ⟨_, rfl⟩
    · rename_i p1 hc
      have hc' : ∃ t, proper t = true ∧ Consume t p = (none, p1) := by
        split at hc
        · exact ⟨Kind.PLUS, rfl, Option.some.inj hc⟩
        · exact ⟨Kind.MINUS, rfl, Option.some.inj hc⟩
        · simp at hc
      obtain ⟨t, ht, hc'⟩ := hc'
      obtain ⟨⟨node, e, p2⟩, hr⟩ := hT _ _ hc' ht
      rw [hr]
      cases e
      · exact hL _ _ _ _ hc' ht hr _
      · exact ⟨_, rfl⟩
  · exact ⟨_, rfl⟩

/-- With fuel of three units for every token that is left, and a margin, each
procedure returns. -/
theorem total_all (n : Nat) :
    (∀ p, WF p → 3 * remaining p + 1 ≤ n → ∃ r, Factor n p = some r) ∧
    (∀ p, WF p → 3 * remaining p + 2 ≤ n → ∃ r, Term n p = some r) ∧
    (∀ l p, WF p → 3 * remaining p + 1 ≤ n → ∃ r, TermLoop n l p = some r) ∧
    (∀ p, WF p → 3 * remaining p + 3 ≤ n → ∃ r, Expr n p = some r) ∧
    (∀ l p, WF p → 3 * remaining p + 1 ≤ n → ∃ r, ExprLoop n l p = some r) := by
  induction n with
  | zero =>
    refine ⟨?_, ?_, ?_, ?_, ?_⟩ <;> intros <;> omega
  | succ n ih =>
    obtain ⟨hF, hT, hTL, hE, hEL⟩ := ih
    obtain ⟨rF, rT, rE⟩ := ok_remaining n
    refine ⟨?_, ?_, ?_, ?_, ?_⟩
    · intro p hw hn
      rw [Factor_succ]
      apply FactorBody_total
      · intro t p1 hc ht
        have := Consume_remaining hw ht hc
        exact hF p1 (Consume_ok_WF' hw hc).1 (by omega)
      · intro t p1 hc ht
        have := Consume_remaining hw ht hc
        exact hE p1 (Consume_ok_WF' hw hc).1 (by omega)
    · intro p hw hn
      rw [Term_succ]
      apply TermBody_total
      · exact hF p hw (by omega)
      · intro l p1 h1
        have := rF _ _ _ hw h1
        exact hTL l p1 this.1 (by omega)
    · intro l p hw hn
      rw [TermLoop_succ]
      apply TermLoopBody_total
      · intro t p1 hc ht
        have := Consume_remaining hw ht hc
        exact hF p1 (Consume_ok_WF' hw hc).1 (by omega)
      · intro t p1 l1 p2 hc ht h1 l'
        have := Consume_remaining hw ht hc
        have := rF _ _ _ (Consume_ok_WF' hw hc).1 h1
        exact hTL l' p2 this.1 (by omega)
    · intro p hw hn
      rw [Expr_succ]
      apply ExprBody_total
      · exact hT p hw (by omega)
      · intro l p1 h1
        have := rT _ _ _ hw h1
        exact hEL l p1 this.1 (by omega)
    · intro l p hw hn
      rw [ExprLoop_succ]
      apply ExprLoopBody_total
      · intro t p1 hc ht
        have := Consume_remaining hw ht hc
        exact hT p1 (Consume_ok_WF' hw hc).1 (by omega)
      · intro t p1 l1 p2 hc ht h1 l'
        have := Consume_remaining hw ht hc
        have := rT _ _ _ (Consume_ok_WF' hw hc).1 h1
        exact hEL l' p2 this.1 (by omega)

theorem remaining_le (p : Parser) : remaining p ≤ p.Lex.Input.length + 1 := by
  unfold remaining
  split <;> omega

/-- On a well-formed state `Parse` returns: its fuel is enough. -/
theorem Parse_returns (p : Parser) (hw : WF p) : ∃ r, Parse p = some r := by
  have := remaining_le p
  obtain ⟨⟨node, e, p1⟩, hr⟩ := (total_all (parseFuel p)).2.2.2.1 p hw (by unfold parseFuel; omega)
  unfold Parse
  rw [hr]
  cases e
  · simp only
    split_ifs <;> exact ⟨_, rfl⟩
  · exact ⟨_, rfl⟩

theorem NewParser_WF (input : List Nat) : WF (NewParser (NewLexer input)).1 := by
  unfold NewParser
  rw [NewLexer_eq, GetNextToken_lexerAt]
  rfl

/-! ## Parentheses: the nesting stack against the input -/

/-- The cursor passes no zero byte, and stops on one (or on the end) when the
token is EOF. -/
theorem lexSpec_zero (r : List Nat) (h : (lexSpec r).2.1 = none) :
    (∀ b ∈ r.take (lexSpec r).2.2, b ≠ 0) ∧
    ((lexSpec r).1.TokenType = Kind.EOF → (r.drop (lexSpec r).2.2).headD 0 = 0) := by
  obtain ⟨ws, l, rfl, hws, hc⟩ := lexSpec_cases r h
  have hws0 : ∀ b ∈ ws, b ≠ 0 := fun b hb => isSpace_ne_zero (hws b hb)
  rcases hc with ⟨he, hl⟩ | ⟨ds, t, v, rfl, hne, hds, he⟩ | ⟨c, t, tok, rfl, he, hc⟩
  · rw [he]
    simp only [List.take_left', List.drop_left', NewToken, true_implies]
    refine ⟨hws0, ?_⟩
    rcases hl with rfl | ⟨t, rfl⟩ <;> rfl
  · rw [he]
    simp only [NewToken, reduceCtorEq, false_implies, and_true]
    intro b hb
    rw [← List.append_assoc, ← List.length_append, List.take_left' rfl] at hb
    rcases List.mem_append.1 hb with hb | hb
    · exact hws0 b hb
    · exact isDigit_ne_zero (hds b hb)
  · rw [he]
    have htake : (ws ++ c :: t).take (ws.length + 1) = ws ++ [c] := by
      rw [List.take_append_eq_append_take]
      simp
    simp only [htake]
    constructor
    · intro b hb
      rcases List.mem_append.1 hb with hb | hb
      · exact hws0 b hb
      · simp only [List.mem_singleton] at hb
        subst hb
        rcases hc with ⟨rfl, _⟩ | ⟨rfl, _⟩ | ⟨rfl, _⟩ | ⟨rfl, _⟩ | ⟨rfl, _⟩ | ⟨rfl, _⟩ <;> decide
    · intro hk
      rcases hc with ⟨_, hk'⟩ | ⟨_, hk'⟩ | ⟨_, hk'⟩ | ⟨_, hk'⟩ | ⟨_, hk'⟩ | ⟨_, hk'⟩ <;>
        rw [hk'] at hk <;> cases hk

theorem lexerAt_CurrentChar (i : List Nat) (pos : Nat) :
    (lexerAt i pos).CurrentChar = (i.drop pos).headD 0 := by
  rcases drop_cases i pos with ⟨h1, _, h3⟩ | ⟨c, r, h1, _, h3, _⟩
  · rw [h1, h3]; rfl
  · rw [h1, h3]; rfl

/-- One successful lexing step keeps the invariant, whatever the stack is,
as long as the stack and the tokens agree. -/
theorem ParenInv_step {p p' : Parser} {t : Kind} (hi : ParenInv p)
    (h : Consume t p = (none, p')) : ParenInv p' := by
  obtain ⟨hk, _, sL, sR, sO, sE, _⟩ := Consume_ok h
  obtain ⟨h1, h2, h3⟩ := Consume_ok_WF hi.wf h
  obtain ⟨f1, f2, f3, f4, f5, f6, f7⟩ := lexSpec_facts _ h3
  obtain ⟨z1, z2⟩ := lexSpec_zero _ h3
  have hw' := Consume_ok_WF' hi.wf h
  rw [← h2] at f2 f3 f4 f5 f6 z2
  obtain ⟨hwf, hpl, hnz, hae, hbal, hpre⟩ := hi
  obtain ⟨⟨i0, pos, cc⟩, cur, st⟩ := p
  obtain ⟨⟨i, pos', cc'⟩, cur', st'⟩ := p'
  simp only at *
  generalize hadv : (lexSpec (List.drop pos i0)).2.2 = adv at *
  simp only [lexerAt, Lexer.mk.injEq] at h1
  obtain ⟨rfl, rfl, rfl⟩ := h1
  simp only [List.length_drop] at f1
  have htake : ∀ j, i.take (pos + j) = i.take pos ++ (i.drop pos).take j := by
    intro j; exact List.take_add i pos j
  -- the stack before the step: no slack
  have hstack : ¬ (cur.TokenType = Kind.RPAR ∧ st.Stack = []) := by
    rintro ⟨hr, h0⟩
    obtain ⟨top, ht, _⟩ := sR (hk ▸ hr)
    rw [h0] at ht
    simp at ht
  simp only [hstack, if_false, Nat.add_zero] at hpre
  -- the new balance
  have hbal' : st'.Stack.length + (i.take (pos + adv)).count 41
      + (if cur'.TokenType = Kind.LPAR then 1 else 0)
    = (i.take (pos + adv)).count 40
      + (if cur'.TokenType = Kind.RPAR then 1 else 0) := by
    rw [htake, List.count_append, List.count_append, f5, f6]
    by_cases hL : t = Kind.LPAR
    · have := sL hL
      rw [hk, hL] at hbal
      simp only [if_true, reduceCtorEq, if_false] at hbal
      rw [this, List.length_append, List.length_singleton]
      omega
    · by_cases hR : t = Kind.RPAR
      · obtain ⟨top, ht, _⟩ := sR hR
        rw [hk, hR] at hbal
        simp only [if_true, reduceCtorEq, if_false] at hbal
        rw [ht, List.length_append, List.length_singleton] at hbal
        omega
      · have := sO hL hR
        rw [hk] at hbal
        simp only [hL, hR, if_false] at hbal
        rw [this]
        omega
  refine ⟨hw'.1, ?_, ?_, ?_, ?_, ?_⟩
  · simp only; omega
  · simp only [htake]
    intro b hb
    rcases List.mem_append.1 hb with hb | hb
    · exact hnz b hb
    · exact z1 b hb
  · intro he
    have := z2 he
    rw [List.drop_drop] at this
    show (lexerAt i (pos + adv)).CurrentChar = 0
    rw [lexerAt_CurrentChar]
    exact this
  · exact hbal'
  · intro q hq
    simp only at hq ⊢
    by_cases hq1 : q ≤ pos
    · have := hpre q hq1
      omega
    · obtain ⟨j, rfl⟩ : ∃ j, q = pos + j := ⟨q - pos, by omega⟩
      by_cases hj : j < adv
      · have := f7 j hj
        have := hpre pos (le_refl _)
        rw [htake, List.count_append, List.count_append]
        omega
      · have hj' : j = adv := by omega
        subst hj'
        by_cases hr : cur'.TokenType = Kind.RPAR
        · have hne := sE hr
          have hlen : 1 ≤ st'.Stack.length := by
            cases hs : st'.Stack with
            | nil => exact absurd hs hne
            | cons _ _ => simp
          simp only [hr, reduceCtorEq, if_false, if_true] at hbal'
          omega
        · simp only [hr, reduceCtorEq, if_false, false_and] at hbal' ⊢
          omega

theorem ParenInv_Consumed {p p' : Parser} {ts : List Token} (h : Consumed p ts p')
    (hi : ParenInv p) : ParenInv p' := by
  induction h with
  | nil _ => exact hi
  | cons _ hc _ ih => exact ih (ParenInv_step hi hc)

/-- A lexer error comes with the token of empty kind. -/
theorem lexSpec_error_kind (r : List Nat) (h : (lexSpec r).2.1 ≠ none) :
    (lexSpec r).1.TokenType = Kind.NONE := by
  unfold lexSpec at h ⊢
  simp only at h ⊢
  split
  · rename_i hl; simp [hl] at h
  · rename_i c t hl
    simp only [hl] at h
    split_ifs at h ⊢ <;> first | (simp at h; done) | rfl | skip
    cases hp : ParseInt32 (List.takeWhile isDigit (c :: t)) with
    | error e => rfl
    | ok v => simp [hp] at h

theorem NewParser_eq (input : List Nat) :
    NewParser (NewLexer input)
      = ({ Lex := lexerAt input (lexSpec input).2.2, CurrentToken := (lexSpec input).1,
           Stack := NewNestingStack }, (lexSpec input).2.1) := by
  unfold NewParser
  rw [NewLexer_eq, GetNextToken_lexerAt]
  simp

theorem ParenInv_NewParser (input : List Nat) (h : (lexSpec input).2.1 = none) :
    ParenInv (NewParser (NewLexer input)).1 := by
  rw [NewParser_eq]
  obtain ⟨f1, f2, f3, f4, f5, f6, f7⟩ := lexSpec_facts _ h
  obtain ⟨z1, z2⟩ := lexSpec_zero _ h
  refine ⟨rfl, f1, z1, ?_, ?_, ?_⟩
  · intro he
    show (lexerAt input (lexSpec input).2.2).CurrentChar = 0
    rw [lexerAt_CurrentChar]
    exact z2 he
  · simp only [NewNestingStack, List.length_nil, Nat.zero_add]
    show List.count 41 (List.take (lexSpec input).2.2 input) + _
      = List.count 40 (List.take (lexSpec input).2.2 input) + _
    rw [f5, f6]
    split_ifs with h1 h2 <;> first | rfl | (rw [h1] at h2; cases h2)
  · intro q hq
    simp only at hq ⊢
    show List.count 41 (List.take q input) ≤ List.count 40 (List.take q input) + _
    by_cases hq1 : q < (lexSpec input).2.2
    · have := f7 q hq1
      omega
    · have hq2 : q = (lexSpec input).2.2 := Nat.le_antisymm hq (Nat.le_of_not_lt hq1)
      rw [hq2, f5, f6]
      simp only [NewNestingStack, and_true]
      split_ifs <;> omega

/-- What a successful `Parse` did. -/
theorem Parse_ok {p p' : Parser} {node : ASTNode} (h : Parse p = some (node, none, p')) :
    Expr (parseFuel p) p = some (node, none, p') ∧ p'.Stack.Stack = []
      ∧ p'.CurrentToken.TokenType = Kind.EOF := by
  unfold Parse at h
  split at h
  · simp at h
  · simp at h
  · rename_i root p1 he
    split_ifs at h with h1 h2
    · simp at h
    · simp at h
    · simp only [Option.some.injEq, Prod.mk.injEq, true_and] at h
      obtain ⟨rfl, rfl⟩ := h
      refine ⟨he, ?_, by simpa using h2⟩
      simpa [IsEmpty] using h1

/-- A successful `Parse` consumed a run of tokens that starts a factor. -/
theorem Parse_trace {p p' : Parser} {node : ASTNode} (h : Parse p = some (node, none, p')) :
    ∃ ts, Consumed p ts p' ∧ Seg startsFactor (kinds ts) :=
  (trace_all _).2.2.2.1 _ _ _ (Parse_ok h).1

theorem Consumed_proper {p p' : Parser} {ts : List Token} (h : Consumed p ts p')
    (hne : ts ≠ []) : proper p.CurrentToken.TokenType = true := by
  cases h with
  | nil _ => exact absurd rfl hne
  | cons hp _ _ => exact hp

theorem take_eq_beforeZero (i : List Nat) (pos : Nat) (h1 : ∀ b ∈ i.take pos, b ≠ 0)
    (h2 : (i.drop pos).headD 0 = 0) : beforeZero i = i.take pos := by
  unfold beforeZero
  conv_lhs => rw [← List.take_append_drop pos i]
  rw [List.takeWhile_append_of_pos (by intro b hb; simpa using h1 b hb)]
  cases hd : i.drop pos with
  | nil => simp
  | cons c t =>
    rw [hd] at h2
    simp only [List.headD_cons] at h2
    subst h2
    simp

/-- After a successful `Parse` from `NewParser`, the input up to its first zero
byte has as many closing as opening parentheses, and none of its prefixes has
more closing than opening ones. -/
theorem Parse_ok_balanced (input : List Nat) {node : ASTNode} {p' : Parser}
    (h : Parse (NewParser (NewLexer input)).1 = some (node, none, p')) :
    (beforeZero input).count 40 = (beforeZero input).count 41 ∧
    ∀ q, ((beforeZero input).take q).count 41 ≤ ((beforeZero input).take q).count 40 := by
  obtain ⟨ts, h1, h2⟩ := Parse_trace h
  obtain ⟨_, hs, hk⟩ := Parse_ok h
  have hp := Consumed_proper h1 (by intro h0; rw [h0] at h2; exact Seg_ne_nil h2 rfl)
  have hl : (lexSpec input).2.1 = none := by
    by_contra hne
    have := lexSpec_error_kind input hne
    rw [NewParser_eq] at hp
    simp only [this] at hp
    exact absurd hp (by decide)
  have hi := ParenInv_Consumed h1 (ParenInv_NewParser input hl)
  have hI : p'.Lex.Input = input := by
    rw [(Consumed_WF h1 (NewParser_WF input)).2, NewParser_eq]; rfl
  obtain ⟨hwf, hpl, hnz, hae, hbal, hpre⟩ := hi
  rw [hI] at hpl hnz hbal hpre
  have hcc : (input.drop p'.Lex.Position).headD 0 = 0 := by
    rw [← lexerAt_CurrentChar, ← hI, ← hwf]
    exact hae hk
  have hb := take_eq_beforeZero input _ hnz hcc
  rw [hb]
  simp only [hk, hs, reduceCtorEq, if_false, List.length_nil, Nat.zero_add, Nat.add_zero,
    false_and] at hbal hpre
  refine ⟨hbal.symm, ?_⟩
  intro q
  rw [List.take_take]
  exact hpre _ (Nat.min_le_right _ _)

/-! ## The token sequence of the input against the tokens consumed -/

theorem tokensLoop_step {p p1 : Parser} {t : Kind} (h : Consume t p = (none, p1)) (n : Nat) :
    tokensLoop (n + 1) p.Lex = view n p1 := by
  have := (Consume_ok h).2.1
  simp only [tokensLoop, this, view]

/-- The tokens to come are a prefix of the tokens a parse that ends on EOF
consumes. -/
theorem view_isPrefix {p p' : Parser} {ts : List Token} (h : Consumed p ts p')
    (he : p'.CurrentToken.TokenType = Kind.EOF) : ∀ n, view n p <+: ts := by
  induction h with
  | nil _ => intro n; simp [view, he]
  | @cons p p1 p' ts hp hc _ ih =>
    intro n
    have hne : p.CurrentToken.TokenType ≠ Kind.EOF := by
      intro h0; rw [h0] at hp; exact absurd hp (by decide)
    simp only [view, hne, if_false]
    cases n with
    | zero => simp [tokensLoop]
    | succ m =>
      rw [tokensLoop_step hc]
      exact (List.prefix_cons_inj _).2 (ih he m)

theorem tokensLoop_NewLexer (input : List Nat) (n : Nat) :
    tokensLoop (n + 1) (NewLexer input)
      = if (NewParser (NewLexer input)).2 = none then view n (NewParser (NewLexer input)).1
        else [] := by
  unfold NewParser
  simp only [tokensLoop, view]
  rcases GetNextToken (NewLexer input) with ⟨tok, _ | e, lex1⟩ <;> simp

/-- The token sequence of the input is a prefix of what a successful `Parse`
consumes. -/
theorem tokensLoop_isPrefix (input : List Nat) {p' : Parser} {ts : List Token}
    (h : Consumed (NewParser (NewLexer input)).1 ts p')
    (he : p'.CurrentToken.TokenType = Kind.EOF) (n : Nat) :
    tokensLoop n (NewLexer input) <+: ts := by
  cases n with
  | zero => simp [tokensLoop]
  | succ m =>
    rw [tokensLoop_NewLexer]
    split
    · exact view_isPrefix h he m
    · simp

theorem adjacentIntegers_extend {s ts : List Token} (h : adjacentIntegers s)
    (hp : s <+: ts) : adjacentIntegers ts := by
  obtain ⟨a, t1, mid, t2, b, rfl, h1, h2, h3⟩ := h
  obtain ⟨c, rfl⟩ := hp
  exact ⟨a, t1, mid, t2, b ++ c, by simp, h1, h2, h3⟩

theorem no_gap_after_end (mid : List Token) :
    ∀ x : Kind, endsFactor x = true →
      List.Chain' (fun x y => validPair x y = true) (x :: (kinds mid ++ [Kind.INTEGER])) →
      (∀ t ∈ mid, isOperator t.TokenType = false) → False := by
  induction mid with
  | nil =>
    intro x hx hc _
    simp only [kinds, List.map_nil, List.nil_append, List.chain'_cons, List.chain'_singleton,
      and_true] at hc
    revert hx hc
    cases x <;> decide
  | cons m mid ih =>
    intro x hx hc hm
    simp only [kinds_cons, List.cons_append, List.chain'_cons] at hc
    have hmo := hm m (List.mem_cons_self _ _)
    have hme : endsFactor m.TokenType = true := by
      revert hx hmo
      have := hc.1
      revert this
      cases x <;> cases m.TokenType <;> decide
    exact ih _ hme hc.2 (fun t ht => hm t (List.mem_cons_of_mem _ ht))

/-- A run of tokens in which all neighbours are valid pairs has an operator
between any two of its integers. -/
theorem not_adjacentIntegers_of_chain {ts : List Token}
    (h : List.Chain' (fun x y => validPair x y = true) (kinds ts)) : ¬ adjacentIntegers ts := by
  rintro ⟨a, t1, mid, t2, b, rfl, h1, h2, h3⟩
  have e : kinds (a ++ t1 :: mid ++ t2 :: b)
      = kinds a ++ ((t1.TokenType :: (kinds mid ++ [t2.TokenType])) ++ kinds b) := by
    simp [kinds]
  rw [e] at h
  have := h.right_of_append.left_of_append
  rw [h1, h2] at this
  exact no_gap_after_end mid Kind.INTEGER rfl this h3

/-- An input whose token sequence has two integers with no operator between
them does not parse. -/
theorem Parse_adjacentIntegers (input : List Nat) (n : Nat)
    (h : adjacentIntegers (tokensLoop n (NewLexer input))) {node : ASTNode} {p' : Parser} :
    Parse (NewParser (NewLexer input)).1 ≠ some (node, none, p') := by
  intro hp
  obtain ⟨ts, h1, h2⟩ := Parse_trace hp
  have hk := (Parse_ok hp).2.2
  have := adjacentIntegers_extend h (tokensLoop_isPrefix input h1 hk n)
  exact not_adjacentIntegers_of_chain h2.1 this

/-- When `Parse` fails, `Interpret` returns its error. -/
theorem Calculate_of_Parse_error (w : Nat) (input : List Nat) {node : ASTNode} {e : Error}
    {p' : Parser} (h : Parse (NewParser (NewLexer input)).1 = some (node, some e, p')) :
    Calculate w input = some (0, some e) := by
  simp [Calculate, Interpret, NewInterpreter, h]

/-- From `NewParser` on, `Parse` returns. -/
theorem Parse_NewParser_returns (input : List Nat) :
    ∃ node e p', Parse (NewParser (NewLexer input)).1 = some (node, e, p') := by
  obtain ⟨⟨node, e, p'⟩, h⟩ := Parse_returns _ (NewParser_WF input)
  exact ⟨node, e, p', h⟩


/-! ## `lexSpec` on the strings of the grammar -/

theorem allSpace_takeWhile (ws r : List Nat) (h : allSpace ws) :
    (ws ++ r).takeWhile isSpace = ws ++ r.takeWhile isSpace :=
  List.takeWhile_append_of_pos h

theorem allSpace_dropWhile (ws r : List Nat) (h : allSpace ws) :
    (ws ++ r).dropWhile isSpace = r.dropWhile isSpace :=
  List.dropWhile_append_of_pos h

/-- Whitespace in front moves the cursor further and changes nothing else. -/
theorem lexSpec_ws_append (ws r : List Nat) (h : allSpace ws) :
    lexSpec (ws ++ r) = ((lexSpec r).1, (lexSpec r).2.1, ws.length + (lexSpec r).2.2) := by
  rw [lexSpec_dropWhile (ws ++ r), lexSpec_dropWhile r, allSpace_takeWhile ws r h,
    allSpace_dropWhile ws r h]
  simp only [List.length_append, Prod.mk.injEq, true_and]
  omega

theorem lexSpec_plus (r : List Nat) :
    lexSpec (43 :: r) = (NewToken Kind.PLUS (Iface.rune 43), none, 1) := by
  simp [lexSpec, List.takeWhile_cons, List.dropWhile_cons, isSpace, isDigit]

theorem lexSpec_minus (r : List Nat) :
    lexSpec (45 :: r) = (NewToken Kind.MINUS (Iface.rune 45), none, 1) := by
  simp [lexSpec, List.takeWhile_cons, List.dropWhile_cons, isSpace, isDigit]

theorem lexSpec_mul (r : List Nat) :
    lexSpec (42 :: r) = (NewToken Kind.MUL (Iface.rune 45), none, 1) := by
  simp [lexSpec, List.takeWhile_cons, List.dropWhile_cons, isSpace, isDigit]

theorem lexSpec_div (r : List Nat) :
    lexSpec (47 :: r) = (NewToken Kind.DIV (Iface.rune 47), none, 1) := by
  simp [lexSpec, List.takeWhile_cons, List.dropWhile_cons, isSpace, isDigit]

theorem lexSpec_lpar (r : List Nat) :
    lexSpec (40 :: r) = (NewToken Kind.LPAR (Iface.rune 40), none, 1) := by
  simp [lexSpec, List.takeWhile_cons, List.dropWhile_cons, isSpace, isDigit]

theorem lexSpec_rpar (r : List Nat) :
    lexSpec (41 :: r) = (NewToken Kind.RPAR (Iface.rune 41), none, 1) := by
  simp [lexSpec, List.takeWhile_cons, List.dropWhile_cons, isSpace, isDigit]

theorem lexSpec_allSpace (ws : List Nat) (h : allSpace ws) :
    lexSpec ws = (NewToken Kind.EOF (Iface.int 0), none, ws.length) := by
  have := lexSpec_ws_append ws [] h
  simpa [lexSpec_nil] using this

theorem takeWhile_digits (ds r : List Nat) (hd : ∀ c ∈ ds, isDigit c = true)
    (hr : ∀ c t, r = c :: t → isDigit c = false) : (ds ++ r).takeWhile isDigit = ds := by
  rw [List.takeWhile_append_of_pos hd]
  cases r with
  | nil => simp
  | cons c t => simp [List.takeWhile_cons, hr c t rfl]

theorem ParseInt32_literal (ds : List Nat) (h : isLiteral ds) :
    ParseInt32 ds = .ok (digitsValue ds : Int) := by
  obtain ⟨h1, h2, h3⟩ := h
  unfold ParseInt32
  have e1 : ds.isEmpty = false := by cases ds <;> simp_all
  have e2 : ds.all isDigit = true := by simpa using h2
  simp [e1, e2, Nat.not_lt.2 h3]

/-- A run of digits, not followed by a digit, is read as one INTEGER: the
literal's value when it is at most 2147483647, a range error above. -/
theorem lexSpec_digits (ds r : List Nat) (hne : ds ≠ []) (hd : ∀ c ∈ ds, isDigit c = true)
    (hr : ∀ c t, r = c :: t → isDigit c = false) :
    lexSpec (ds ++ r)
      = if digitsValue ds ≤ 2147483647 then
          (NewToken Kind.INTEGER (Iface.int (digitsValue ds)), none, ds.length)
        else (NewToken Kind.NONE (Iface.int 0), some Error.integerRange, ds.length) := by
  cases ds with
  | nil => exact absurd rfl hne
  | cons d ds' =>
    have hdd : isDigit d = true := hd d (List.mem_cons_self _ _)
    have hs : isSpace d = false := isDigit_not_isSpace hdd
    have h0 : d ≠ 0 := isDigit_ne_zero hdd
    have htw := takeWhile_digits (d :: ds') r hd hr
    have e1 : (d :: ds').isEmpty = false := rfl
    have e2 : (d :: ds').all isDigit = true := by simpa using hd
    simp only [List.cons_append] at htw
    unfold lexSpec
    simp only [List.cons_append, List.takeWhile_cons, List.dropWhile_cons, hs, h0, hdd,
      Bool.false_eq_true, if_false, if_true, List.length_nil, Nat.zero_add]
    simp only [List.takeWhile_cons, hdd, if_true] at htw
    rw [htw]
    unfold ParseInt32
    simp only [e1, e2, Bool.not_true, Bool.or_self, Bool.false_eq_true, if_false]
    by_cases hv : digitsValue (d :: ds') ≤ 2147483647
    · simp [hv, Nat.not_lt.2 hv]
    · simp [hv, Nat.lt_of_not_le hv]

theorem lexSpec_literal (ds r : List Nat) (h : isLiteral ds)
    (hr : ∀ c t, r = c :: t → isDigit c = false) :
    lexSpec (ds ++ r)
      = (NewToken Kind.INTEGER (Iface.int (digitsValue ds)), none, ds.length) := by
  rw [lexSpec_digits ds r h.1 h.2.1 hr, if_pos h.2.2]

/-! ## What may follow a factor -/

theorem Follow_no_digit {k : List Nat} {st : NestingStack} (h : Follow k st) :
    ∀ c t, k = c :: t → isDigit c = false := by
  intro c t hk
  subst hk
  by_contra hd
  simp only [Bool.not_eq_false] at hd
  have hds : ∀ x ∈ (c :: t).takeWhile isDigit, isDigit x = true :=
    fun x hx => List.mem_takeWhile_imp hx
  have hne : (c :: t).takeWhile isDigit ≠ [] := by simp [List.takeWhile_cons, hd]
  have hsplit := (List.takeWhile_append_dropWhile isDigit (c :: t)).symm
  have hr : ∀ x y, (c :: t).dropWhile isDigit = x :: y → isDigit x = false :=
    fun x y hxy => dropWhile_head_not _ _ _ _ hxy
  have := lexSpec_digits _ _ hne hds hr
  rw [← hsplit] at this
  obtain ⟨h1, h2, _⟩ := h
  rw [this] at h1 h2
  by_cases hv : digitsValue (List.takeWhile isDigit (c :: t)) ≤ 2147483647
  · rw [if_pos hv] at h2; exact h2 rfl
  · rw [if_neg hv] at h1; exact absurd h1 (by simp)

theorem Follow_allSpace (ws : List Nat) (st : NestingStack) (h : allSpace ws) :
    Follow ws st := by
  unfold Follow
  rw [lexSpec_allSpace ws h]
  simp [NewToken]

theorem Follow_operator (ws r : List Nat) (st : NestingStack) (h : allSpace ws) (c : Nat)
    (hc : c = 43 ∨ c = 45 ∨ c = 42 ∨ c = 47) : Follow (ws ++ c :: r) st := by
  unfold Follow
  rw [lexSpec_ws_append _ _ h]
  rcases hc with rfl | rfl | rfl | rfl
  · simp [lexSpec_plus, NewToken]
  · simp [lexSpec_minus, NewToken]
  · simp [lexSpec_mul, NewToken]
  · simp [lexSpec_div, NewToken]

theorem Follow_rpar (ws r : List Nat) (st : NestingStack) (h : allSpace ws)
    (hst : st.Stack ≠ []) : Follow (ws ++ 41 :: r) st := by
  unfold Follow
  rw [lexSpec_ws_append _ _ h]
  simp [lexSpec_rpar, NewToken, hst]

theorem head_not_digit_ws (ws r : List Nat) (h : allSpace ws) (c : Nat)
    (hc : isDigit c = false) : ∀ x t, ws ++ c :: r = x :: t → isDigit x = false := by
  intro x t hx
  cases ws with
  | nil =>
    simp only [List.nil_append, List.cons.injEq] at hx
    rw [← hx.1]; exact hc
  | cons a ws' =>
    simp only [List.cons_append, List.cons.injEq] at hx
    rw [← hx.1]
    have := h a (List.mem_cons_self _ _)
    by_contra hd
    simp only [Bool.not_eq_false] at hd
    rw [isDigit_not_isSpace hd] at this
    exact absurd this (by decide)

/-- The first token of a derivation is read without error and starts a
factor. -/
theorem lexSpec_render {l : Level} (t : Tree l) :
    wellFormed t → ∀ k, (∀ c r, k = c :: r → isDigit c = false) →
      (lexSpec (render t ++ k)).2.1 = none
        ∧ startsFactor (lexSpec (render t ++ k)).1.TokenType = true := by
  induction t with
  | int ws ds =>
    intro hw k hk
    simp only [render, List.append_assoc]
    rw [lexSpec_ws_append _ _ hw.1, lexSpec_literal ds k hw.2 hk]
    exact ⟨rfl, rfl⟩
  | pos ws f _ =>
    intro hw k _
    simp only [render, List.append_assoc, List.cons_append]
    rw [lexSpec_ws_append _ _ hw.1, lexSpec_plus]
    exact ⟨rfl, rfl⟩
  | neg ws f _ =>
    intro hw k _
    simp only [render, List.append_assoc, List.cons_append]
    rw [lexSpec_ws_append _ _ hw.1, lexSpec_minus]
    exact ⟨rfl, rfl⟩
  | paren ws1 e ws2 _ =>
    intro hw k _
    simp only [render, List.append_assoc, List.cons_append]
    rw [lexSpec_ws_append _ _ hw.1, lexSpec_lpar]
    exact ⟨rfl, rfl⟩
  | factor f ih => intro hw k hk; exact ih hw k hk
  | mul t ws f ih _ =>
    intro hw k _
    simp only [render, List.append_assoc, List.cons_append]
    exact ih hw.1 _ (head_not_digit_ws ws _ hw.2.1 42 (by decide))
  | div t ws f ih _ =>
    intro hw k _
    simp only [render, List.append_assoc, List.cons_append]
    exact ih hw.1 _ (head_not_digit_ws ws _ hw.2.1 47 (by decide))
  | term t ih => intro hw k hk; exact ih hw k hk
  | add e ws t ih _ =>
    intro hw k _
    simp only [render, List.append_assoc, List.cons_append]
    exact ih hw.1 _ (head_not_digit_ws ws _ hw.2.1 43 (by decide))
  | sub e ws t ih _ =>
    intro hw k _
    simp only [render, List.append_assoc, List.cons_append]
    exact ih hw.1 _ (head_not_digit_ws ws _ hw.2.1 45 (by decide))

/-! ## The parser on the strings of the grammar -/

theorem drop_add_of_append {i : List Nat} {q : Nat} {x k : List Nat}
    (h : i.drop q = x ++ k) : i.drop (q + x.length) = k := by
  rw [← List.drop_drop, h, List.drop_left]

theorem parserAt_token (i : List Nat) (q : Nat) (st : NestingStack) :
    (parserAt i q st).CurrentToken = (lexSpec (i.drop q)).1 := rfl

theorem GetNextToken_parserAt (i : List Nat) (q : Nat) (st st' : NestingStack) :
    GetNextToken (parserAt i q st).Lex
      = ((parserAt i (q + (lexSpec (i.drop q)).2.2) st').CurrentToken,
          (lexSpec (i.drop (q + (lexSpec (i.drop q)).2.2))).2.1,
          (parserAt i (q + (lexSpec (i.drop q)).2.2) st').Lex) := by
  simp only [parserAt, GetNextToken_lexerAt]

/-- `Consume` of a token that is no parenthesis, between two positions. -/
theorem Consume_parserAt {i : List Nat} {q : Nat} {st : NestingStack} {t : Kind}
    {x k : List Nat} (hd : i.drop q = x ++ k) (hadv : (lexSpec (i.drop q)).2.2 = x.length)
    (ht : (lexSpec (i.drop q)).1.TokenType = t) (hL : t ≠ Kind.LPAR) (hR : t ≠ Kind.RPAR)
    (hN : (lexSpec k).2.1 = none)
    (hN1 : (lexSpec k).1.TokenType = Kind.RPAR → st.Stack ≠ [])
    (hN2 : t = Kind.INTEGER → (lexSpec k).1.TokenType ≠ Kind.INTEGER) :
    Consume t (parserAt i q st) = (none, parserAt i (q + x.length) st) := by
  have hk := drop_add_of_append hd
  have hg := GetNextToken_parserAt i q st st
  rw [hadv, hk, hN] at hg
  have := Consume_simple (p := parserAt i q st) ht hL hR hg
    (by rw [parserAt_token, hk]; exact hN1) (by rw [parserAt_token, hk]; exact hN2)
  rw [this]
  rfl

theorem Consume_parserAt_LPAR {i : List Nat} {q : Nat} {st : NestingStack}
    {x k : List Nat} (hd : i.drop q = x ++ k) (hadv : (lexSpec (i.drop q)).2.2 = x.length)
    (ht : (lexSpec (i.drop q)).1.TokenType = Kind.LPAR)
    (hN : (lexSpec k).2.1 = none) :
    Consume Kind.LPAR (parserAt i q st)
      = (none, parserAt i (q + x.length) (Push st ⟨Kind.LPAR, Iface.rune 40⟩)) := by
  have hk := drop_add_of_append hd
  have hg := GetNextToken_parserAt i q st (Push st ⟨Kind.LPAR, Iface.rune 40⟩)
  rw [hadv, hk, hN] at hg
  have := Consume_LPAR (p := parserAt i q st) ht hg
  rw [this]
  rfl

theorem Consume_parserAt_RPAR {i : List Nat} {q : Nat} {s : List Token} {top : Token}
    {x k : List Nat} (hd : i.drop q = x ++ k) (hadv : (lexSpec (i.drop q)).2.2 = x.length)
    (ht : (lexSpec (i.drop q)).1.TokenType = Kind.RPAR) (htop : top.TokenType = Kind.LPAR)
    (hN : (lexSpec k).2.1 = none)
    (hN1 : (lexSpec k).1.TokenType = Kind.RPAR → s ≠ []) :
    Consume Kind.RPAR (parserAt i q { Stack := s ++ [top] })
      = (none, parserAt i (q + x.length) { Stack := s }) := by
  have hk := drop_add_of_append hd
  have hg := GetNextToken_parserAt i q { Stack := s ++ [top] } { Stack := s }
  rw [hadv, hk, hN] at hg
  have := Consume_RPAR (p := parserAt i q { Stack := s ++ [top] }) ht rfl htop hg
    (by rw [parserAt_token, hk]; exact hN1)
  rw [this]
  rfl

theorem FactorBody_int {F E : Parser → Option PResult} {p p1 : Parser} {node : ASTNode}
    (hk : p.CurrentToken.TokenType = Kind.INTEGER) (hc : Consume Kind.INTEGER p = (none, p1))
    (hn : NewNumberLiteral p.CurrentToken = .ok node) :
    FactorBody F E p = some (node, none, p1) := by
  simp [FactorBody, hk, hc, hn]

theorem FactorBody_plus {F E : Parser → Option PResult} {p p1 p2 : Parser} {child : ASTNode}
    (hk : p.CurrentToken.TokenType = Kind.PLUS) (hc : Consume Kind.PLUS p = (none, p1))
    (hf : F p1 = some (child, none, p2)) :
    FactorBody F E p = some (NewUnaryOperation p.CurrentToken child, none, p2) := by
  simp [FactorBody, hk, hc, hf]

theorem FactorBody_minus {F E : Parser → Option PResult} {p p1 p2 : Parser} {child : ASTNode}
    (hk : p.CurrentToken.TokenType = Kind.MINUS) (hc : Consume Kind.MINUS p = (none, p1))
    (hf : F p1 = some (child, none, p2)) :
    FactorBody F E p = some (NewUnaryOperation p.CurrentToken child, none, p2) := by
  simp [FactorBody, hk, hc, hf]

theorem FactorBody_paren {F E : Parser → Option PResult} {p p1 p2 p3 : Parser}
    {node : ASTNode} (hk : p.CurrentToken.TokenType = Kind.LPAR)
    (hc : Consume Kind.LPAR p = (none, p1)) (he : E p1 = some (node, none, p2))
    (hc2 : Consume Kind.RPAR p2 = (none, p3)) :
    FactorBody F E p = some (node, none, p3) := by
  simp [FactorBody, hk, hc, he, hc2]

theorem TermBody_step {F : Parser → Option PResult} {L : ASTNode → Parser → Option PResult}
    {p p1 : Parser} {l : ASTNode} (hf : F p = some (l, none, p1)) :
    TermBody F L p = L l p1 := by
  simp [TermBody, hf]

theorem ExprBody_step {T : Parser → Option PResult} {L : ASTNode → Parser → Option PResult}
    {p p1 : Parser} {l : ASTNode} (hf : T p = some (l, none, p1)) :
    ExprBody T L p = L l p1 := by
  simp [ExprBody, hf]

theorem TermLoopBody_stop {F : Parser → Option PResult}
    {L : ASTNode → Parser → Option PResult} {p : Parser} {left : ASTNode}
    (hk : mulOp p.CurrentToken.TokenType = false) :
    TermLoopBody F L left p = some (left, none, p) := by
  simp only [mulOp, Bool.or_eq_false_iff, beq_eq_false_iff_ne, ne_eq] at hk
  simp [TermLoopBody, hk.1, hk.2]

theorem ExprLoopBody_stop {T : Parser → Option PResult}
    {L : ASTNode → Parser → Option PResult} {p : Parser} {left : ASTNode}
    (hk : addOp p.CurrentToken.TokenType = false) :
    ExprLoopBody T L left p = some (left, none, p) := by
  simp only [addOp, Bool.or_eq_false_iff, beq_eq_false_iff_ne, ne_eq] at hk
  simp [ExprLoopBody, hk.1, hk.2]

theorem TermLoopBody_step {F : Parser → Option PResult}
    {L : ASTNode → Parser → Option PResult} {p p1 p2 : Parser} {left right : ASTNode}
    (hk : p.CurrentToken.TokenType = Kind.MUL ∨ p.CurrentToken.TokenType = Kind.DIV)
    (hc : Consume p.CurrentToken.TokenType p = (none, p1))
    (hf : F p1 = some (right, none, p2)) :
    TermLoopBody F L left p = L (NewBinaryOperation left right p.CurrentToken) p2 := by
  rcases hk with hk | hk <;> rw [hk] at hc <;> simp [TermLoopBody, hk, hc, hf]

theorem ExprLoopBody_step {T : Parser → Option PResult}
    {L : ASTNode → Parser → Option PResult} {p p1 p2 : Parser} {left right : ASTNode}
    (hk : p.CurrentToken.TokenType = Kind.PLUS ∨ p.CurrentToken.TokenType = Kind.MINUS)
    (hc : Consume p.CurrentToken.TokenType p = (none, p1))
    (hf : T p1 = some (right, none, p2)) :
    ExprLoopBody T L left p = L (NewBinaryOperation left right p.CurrentToken) p2 := by
  rcases hk with hk | hk <;> rw [hk] at hc <;> simp [ExprLoopBody, hk, hc, hf]

theorem stack_eta (st : NestingStack) : ({ Stack := st.Stack } : NestingStack) = st := rfl

theorem startsFactor_not_rpar {k : Kind} (h : startsFactor k = true) : k ≠ Kind.RPAR := by
  rintro rfl; exact absurd h (by decide)

/-- The loop of `Term` stops on a token that is neither MUL nor DIV. -/
theorem TermLoop_stop (i : List Nat) (q : Nat) (st : NestingStack) (left : ASTNode)
    (h : mulOp (lexSpec (i.drop q)).1.TokenType = false) :
    TermLoop 1 left (parserAt i q st) = some (left, none, parserAt i q st) := by
  rw [TermLoop_succ]
  exact TermLoopBody_stop h

/-- The loop of `Expr` stops on a token that is neither PLUS nor MINUS. -/
theorem ExprLoop_stop (i : List Nat) (q : Nat) (st : NestingStack) (left : ASTNode)
    (h : addOp (lexSpec (i.drop q)).1.TokenType = false) :
    ExprLoop 1 left (parserAt i q st) = some (left, none, parserAt i q st) := by
  rw [ExprLoop_succ]
  exact ExprLoopBody_stop h

theorem parse_int (ws ds : List Nat) (hw : wellFormed (Tree.int ws ds)) :
    parsesAs Level.factor (Tree.int ws ds) := by
  intro i q st k hd hf
  simp only [render] at hd ⊢
  have hlex : lexSpec (i.drop q)
      = (NewToken Kind.INTEGER (Iface.int (digitsValue ds)), none, (ws ++ ds).length) := by
    rw [hd, List.append_assoc, lexSpec_ws_append _ _ hw.1,
      lexSpec_literal ds k hw.2 (Follow_no_digit hf), List.length_append]
  refine ⟨1, ?_⟩
  rw [Factor_succ]
  apply FactorBody_int
  · rw [parserAt_token, hlex]; rfl
  · exact Consume_parserAt hd (by rw [hlex]) (by rw [hlex]; rfl) (by decide) (by decide)
      hf.1 hf.2.2 (fun _ => hf.2.1)
  · rw [parserAt_token, hlex]; rfl

theorem parse_unary (ws : List Nat) (f : Tree Level.factor) (c : Nat) (tok : Token)
    (hws : allSpace ws) (hf : wellFormed f) (ih : parsesAs Level.factor f)
    (hc : (c = 43 ∧ tok = NewToken Kind.PLUS (Iface.rune 43))
      ∨ (c = 45 ∧ tok = NewToken Kind.MINUS (Iface.rune 45))) :
    ∀ i q st k, i.drop q = (ws ++ c :: render f) ++ k → Follow k st →
      ∃ n, Factor n (parserAt i q st)
        = some (ASTNode.UnaryOperation tok (toAST f), none,
            parserAt i (q + (ws ++ c :: render f).length) st) := by
  intro i q st k hd hfo
  have hd1 : i.drop q = (ws ++ [c]) ++ (render f ++ k) := by simp [hd]
  have hlex : lexSpec (i.drop q) = (tok, none, (ws ++ [c]).length) := by
    rw [hd1, List.append_assoc, lexSpec_ws_append _ _ hws, List.length_append]
    rcases hc with ⟨rfl, rfl⟩ | ⟨rfl, rfl⟩
    · simp [lexSpec_plus]
    · simp [lexSpec_minus]
  obtain ⟨n1, n2⟩ := lexSpec_render f hf k (Follow_no_digit hfo)
  obtain ⟨n, hn⟩ := ih i (q + (ws ++ [c]).length) st k (drop_add_of_append hd1) hfo
  have hpos : q + (ws ++ [c]).length + (render f).length
      = q + (ws ++ c :: render f).length := by
    simp only [List.length_append, List.length_cons, List.length_nil]; omega
  rw [hpos] at hn
  refine ⟨n + 1, ?_⟩
  rw [Factor_succ]
  rcases hc with ⟨rfl, rfl⟩ | ⟨rfl, rfl⟩
  · have hcons : Consume Kind.PLUS (parserAt i q st)
        = (none, parserAt i (q + (ws ++ [43]).length) st) :=
      Consume_parserAt hd1 (by rw [hlex])
      (by rw [hlex]; rfl) (by decide) (by decide) n1
      (fun h => absurd h (startsFactor_not_rpar n2)) (fun h => absurd h (by decide))
    rw [FactorBody_plus (by rw [parserAt_token, hlex]; rfl) hcons hn, parserAt_token, hlex]
    rfl
  · have hcons : Consume Kind.MINUS (parserAt i q st)
        = (none, parserAt i (q + (ws ++ [45]).length) st) :=
      Consume_parserAt hd1 (by rw [hlex])
      (by rw [hlex]; rfl) (by decide) (by decide) n1
      (fun h => absurd h (startsFactor_not_rpar n2)) (fun h => absurd h (by decide))
    rw [FactorBody_minus (by rw [parserAt_token, hlex]; rfl) hcons hn, parserAt_token, hlex]
    rfl

theorem parse_paren (ws1 : List Nat) (e : Tree Level.expr) (ws2 : List Nat)
    (hw : wellFormed (Tree.paren ws1 e ws2)) (ih : parsesAs Level.expr e) :
    parsesAs Level.factor (Tree.paren ws1 e ws2) := by
  intro i q st k hd hf
  obtain ⟨hws1, hwe, hws2⟩ := hw
  simp only [render] at hd ⊢
  have hd1 : i.drop q = (ws1 ++ [40]) ++ (render e ++ ((ws2 ++ [41]) ++ k)) := by simp [hd]
  have hlex : lexSpec (i.drop q)
      = (NewToken Kind.LPAR (Iface.rune 40), none, (ws1 ++ [40]).length) := by
    rw [hd1, List.append_assoc, lexSpec_ws_append _ _ hws1, List.length_append]
    simp [lexSpec_lpar]
  have hke : ∀ c r, (ws2 ++ [41]) ++ k = c :: r → isDigit c = false := by
    intro c r h
    exact head_not_digit_ws ws2 k hws2 41 (by decide) c r (by simpa using h)
  obtain ⟨n1, _⟩ := lexSpec_render e hwe _ hke
  have hc1 : Consume Kind.LPAR (parserAt i q st)
      = (none, parserAt i (q + (ws1 ++ [40]).length) (Push st ⟨Kind.LPAR, Iface.rune 40⟩)) :=
    Consume_parserAt_LPAR hd1 (by rw [hlex]) (by rw [hlex]; rfl) n1
  have hd2 := drop_add_of_append hd1
  have hd3 := drop_add_of_append hd2
  have hlex3 : lexSpec (List.drop (q + (ws1 ++ [40]).length + (render e).length) i)
      = (NewToken Kind.RPAR (Iface.rune 41), none, (ws2 ++ [41]).length) := by
    rw [hd3, List.append_assoc, lexSpec_ws_append _ _ hws2, List.length_append]
    simp [lexSpec_rpar]
  have hfo : Follow ((ws2 ++ [41]) ++ k) (Push st ⟨Kind.LPAR, Iface.rune 40⟩) := by
    have := Follow_rpar ws2 k (Push st ⟨Kind.LPAR, Iface.rune 40⟩) hws2 (by simp [Push])
    simpa using this
  have hstop := ExprLoop_stop i (q + (ws1 ++ [40]).length + (render e).length)
    (Push st ⟨Kind.LPAR, Iface.rune 40⟩) (toAST e) (by rw [hlex3]; rfl)
  obtain ⟨n, hn⟩ := ih i _ _ _ hd2 hfo (by rw [← hd3, hlex3]; rfl) 1 _ hstop
  have hc2 : Consume Kind.RPAR (parserAt i (q + (ws1 ++ [40]).length + (render e).length)
        (Push st ⟨Kind.LPAR, Iface.rune 40⟩))
      = (none, parserAt i (q + (ws1 ++ [40]).length + (render e).length + (ws2 ++ [41]).length)
          { Stack := st.Stack }) :=
    Consume_parserAt_RPAR hd3 (by rw [hlex3]) (by rw [hlex3]; rfl) rfl hf.1 hf.2.2
  have hpos : q + (ws1 ++ [40]).length + (render e).length + (ws2 ++ [41]).length
      = q + (ws1 ++ 40 :: (render e ++ (ws2 ++ [41]))).length := by
    simp only [List.length_append, List.length_cons, List.length_nil]; omega
  rw [hpos, stack_eta] at hc2
  refine ⟨n + 1, ?_⟩
  rw [Factor_succ, FactorBody_paren (by rw [parserAt_token, hlex]; rfl) hc1 hn hc2]
  rfl

theorem parse_factor_term (f : Tree Level.factor) (ih : parsesAs Level.factor f) :
    parsesAs Level.term (Tree.factor f) := by
  intro i q st k hd hf m res hloop
  simp only [render, toAST] at hd hloop
  obtain ⟨n, hn⟩ := ih i q st k hd hf
  refine ⟨max n m + 1, ?_⟩
  rw [Term_succ, TermBody_step (Factor_fuel_le (le_max_left n m) hn)]
  exact TermLoop_fuel_le (le_max_right n m) hloop

theorem parse_binary_term (t : Tree Level.term) (ws : List Nat) (f : Tree Level.factor)
    (c : Nat) (tok : Token) (hws : allSpace ws) (hwf : wellFormed f)
    (iht : parsesAs Level.term t) (ihf : parsesAs Level.factor f)
    (hc : (c = 42 ∧ tok = NewToken Kind.MUL (Iface.rune 45))
      ∨ (c = 47 ∧ tok = NewToken Kind.DIV (Iface.rune 47))) :
    ∀ i q st k, i.drop q = (render t ++ (ws ++ c :: render f)) ++ k → Follow k st →
      ∀ m res, TermLoop m (ASTNode.BinaryOperation (toAST t) tok (toAST f))
          (parserAt i (q + (render t ++ (ws ++ c :: render f)).length) st) = some res →
        ∃ n, Term n (parserAt i q st) = some res := by
  intro i q st k hd hfo m res hloop
  have hd1 : i.drop q = render t ++ ((ws ++ [c]) ++ (render f ++ k)) := by simp [hd]
  have hd2 := drop_add_of_append hd1
  have hd3 := drop_add_of_append hd2
  have hlex : lexSpec (List.drop (q + (render t).length) i) = (tok, none, (ws ++ [c]).length) := by
    rw [hd2, List.append_assoc, lexSpec_ws_append _ _ hws, List.length_append]
    rcases hc with ⟨rfl, rfl⟩ | ⟨rfl, rfl⟩
    · simp [lexSpec_mul]
    · simp [lexSpec_div]
  have hfo1 : Follow ((ws ++ [c]) ++ (render f ++ k)) st := by
    have := Follow_operator ws (render f ++ k) st hws c
      (by rcases hc with ⟨rfl, _⟩ | ⟨rfl, _⟩ <;> simp)
    simpa using this
  obtain ⟨n1, n2⟩ := lexSpec_render f hwf k (Follow_no_digit hfo)
  obtain ⟨n, hn⟩ := ihf i _ st k hd3 hfo
  have hpos : q + (render t).length + (ws ++ [c]).length + (render f).length
      = q + (render t ++ (ws ++ c :: render f)).length := by
    simp only [List.length_append, List.length_cons, List.length_nil]; omega
  rw [hpos] at hn
  have hkind : tok.TokenType = Kind.MUL ∨ tok.TokenType = Kind.DIV := by
    rcases hc with ⟨_, rfl⟩ | ⟨_, rfl⟩
    · exact Or.inl rfl
    · exact Or.inr rfl
  have hcons : Consume tok.TokenType (parserAt i (q + (render t).length) st)
      = (none, parserAt i (q + (render t).length + (ws ++ [c]).length) st) :=
    Consume_parserAt hd2 (by rw [hlex]) (by rw [hlex])
      (by rcases hkind with h | h <;> rw [h] <;> decide)
      (by rcases hkind with h | h <;> rw [h] <;> decide) n1
      (fun h => absurd h (startsFactor_not_rpar n2))
      (fun h => by rcases hkind with h' | h' <;> rw [h'] at h <;> cases h)
  have hcur : (parserAt i (q + (render t).length) st).CurrentToken = tok := by
    rw [parserAt_token, hlex]
  apply iht i q st _ hd1 hfo1 (max n m + 1)
  rw [TermLoop_succ, TermLoopBody_step (by rw [hcur]; exact hkind) (by rw [hcur]; exact hcons)
    (Factor_fuel_le (le_max_left n m) hn), hcur]
  exact TermLoop_fuel_le (le_max_right n m) hloop

theorem parse_term_expr (t : Tree Level.term) (ih : parsesAs Level.term t) :
    parsesAs Level.expr (Tree.term t) := by
  intro i q st k hd hf hmul m res hloop
  simp only [render, toAST] at hd hloop
  have hstop := TermLoop_stop i (q + (render t).length) st (toAST t)
    (by rw [drop_add_of_append hd]; exact hmul)
  obtain ⟨n, hn⟩ := ih i q st k hd hf 1 _ hstop
  refine ⟨max n m + 1, ?_⟩
  rw [Expr_succ, ExprBody_step (Term_fuel_le (le_max_left n m) hn)]
  exact ExprLoop_fuel_le (le_max_right n m) hloop

theorem parse_binary_expr (e : Tree Level.expr) (ws : List Nat) (t : Tree Level.term)
    (c : Nat) (tok : Token) (hws : allSpace ws) (hwt : wellFormed t)
    (ihe : parsesAs Level.expr e) (iht : parsesAs Level.term t)
    (hc : (c = 43 ∧ tok = NewToken Kind.PLUS (Iface.rune 43))
      ∨ (c = 45 ∧ tok = NewToken Kind.MINUS (Iface.rune 45))) :
    ∀ i q st k, i.drop q = (render e ++ (ws ++ c :: render t)) ++ k → Follow k st →
      mulOp (lexSpec k).1.TokenType = false →
      ∀ m res, ExprLoop m (ASTNode.BinaryOperation (toAST e) tok (toAST t))
          (parserAt i (q + (render e ++ (ws ++ c :: render t)).length) st) = some res →
        ∃ n, Expr n (parserAt i q st) = some res := by
  intro i q st k hd hfo hmul m res hloop
  have hd1 : i.drop q = render e ++ ((ws ++ [c]) ++ (render t ++ k)) := by simp [hd]
  have hd2 := drop_add_of_append hd1
  have hd3 := drop_add_of_append hd2
  have hlex0 : lexSpec ((ws ++ [c]) ++ (render t ++ k)) = (tok, none, (ws ++ [c]).length) := by
    rw [List.append_assoc, lexSpec_ws_append _ _ hws, List.length_append]
    rcases hc with ⟨rfl, rfl⟩ | ⟨rfl, rfl⟩
    · simp [lexSpec_plus]
    · simp [lexSpec_minus]
  have hlex : lexSpec (List.drop (q + (render e).length) i) = (tok, none, (ws ++ [c]).length) := by
    rw [hd2, hlex0]
  have hfo1 : Follow ((ws ++ [c]) ++ (render t ++ k)) st := by
    have := Follow_operator ws (render t ++ k) st hws c
      (by rcases hc with ⟨rfl, _⟩ | ⟨rfl, _⟩ <;> simp)
    simpa using this
  have hkind : tok.TokenType = Kind.PLUS ∨ tok.TokenType = Kind.MINUS := by
    rcases hc with ⟨_, rfl⟩ | ⟨_, rfl⟩
    · exact Or.inl rfl
    · exact Or.inr rfl
  have hmul1 : mulOp (lexSpec ((ws ++ [c]) ++ (render t ++ k))).1.TokenType = false := by
    rw [hlex0]
    rcases hkind with h | h <;> simp [mulOp, h]
  obtain ⟨n1, n2⟩ := lexSpec_render t hwt k (Follow_no_digit hfo)
  have hpos : q + (render e).length + (ws ++ [c]).length + (render t).length
      = q + (render e ++ (ws ++ c :: render t)).length := by
    simp only [List.length_append, List.length_cons, List.length_nil]; omega
  have hstop := TermLoop_stop i (q + (render e).length + (ws ++ [c]).length + (render t).length)
    st (toAST t) (by rw [drop_add_of_append hd3]; exact hmul)
  obtain ⟨n, hn⟩ := iht i _ st k hd3 hfo 1 _ hstop
  rw [hpos] at hn
  have hcons : Consume tok.TokenType (parserAt i (q + (render e).length) st)
      = (none, parserAt i (q + (render e).length + (ws ++ [c]).length) st) :=
    Consume_parserAt hd2 (by rw [hlex]) (by rw [hlex])
      (by rcases hkind with h | h <;> rw [h] <;> decide)
      (by rcases hkind with h | h <;> rw [h] <;> decide) n1
      (fun h => absurd h (startsFactor_not_rpar n2))
      (fun h => by rcases hkind with h' | h' <;> rw [h'] at h <;> cases h)
  have hcur : (parserAt i (q + (render e).length) st).CurrentToken = tok := by
    rw [parserAt_token, hlex]
  apply ihe i q st _ hd1 hfo1 hmul1 (max n m + 1)
  rw [ExprLoop_succ, ExprLoopBody_step (by rw [hcur]; exact hkind) (by rw [hcur]; exact hcons)
    (Term_fuel_le (le_max_left n m) hn), hcur]
  exact ExprLoop_fuel_le (le_max_right n m) hloop

/-- The parser on the string of any well-formed derivation. -/
theorem parse_tree {l : Level} (t : Tree l) : wellFormed t → parsesAs l t := by
  induction t with
  | int ws ds => intro hw; exact parse_int ws ds hw
  | pos ws f ih =>
    intro hw
    exact parse_unary ws f 43 _ hw.1 hw.2 (ih hw.2) (Or.inl ⟨rfl, rfl⟩)
  | neg ws f ih =>
    intro hw
    exact parse_unary ws f 45 _ hw.1 hw.2 (ih hw.2) (Or.inr ⟨rfl, rfl⟩)
  | paren ws1 e ws2 ih => intro hw; exact parse_paren ws1 e ws2 hw (ih hw.2.1)
  | factor f ih => intro hw; exact parse_factor_term f (ih hw)
  | mul t ws f iht ihf =>
    intro hw
    exact parse_binary_term t ws f 42 _ hw.2.1 hw.2.2 (iht hw.1) (ihf hw.2.2)
      (Or.inl ⟨rfl, rfl⟩)
  | div t ws f iht ihf =>
    intro hw
    exact parse_binary_term t ws f 47 _ hw.2.1 hw.2.2 (iht hw.1) (ihf hw.2.2)
      (Or.inr ⟨rfl, rfl⟩)
  | term t ih => intro hw; exact parse_term_expr t (ih hw)
  | add e ws t ihe iht =>
    intro hw
    exact parse_binary_expr e ws t 43 _ hw.2.1 hw.2.2 (ihe hw.1) (iht hw.2.2)
      (Or.inl ⟨rfl, rfl⟩)
  | sub e ws t ihe iht =>
    intro hw
    exact parse_binary_expr e ws t 45 _ hw.2.1 hw.2.2 (ihe hw.1) (iht hw.2.2)
      (Or.inr ⟨rfl, rfl⟩)

/-! ## The evaluator on the trees of the grammar -/

theorem wrapInt_fits {w : Nat} (hw : 0 < w) {x : Int} (h : fits w x) : wrapInt w x = x := by
  unfold wrapInt
  unfold fits at h
  obtain ⟨k, rfl⟩ : ∃ k, w = k + 1 := ⟨w - 1, by omega⟩
  simp only [Nat.add_sub_cancel] at h
  have hm : ((2 ^ (k + 1) : Nat) : Int) = 2 * (2 : Int) ^ k := by push_cast; ring
  have hpos : (0 : Int) < 2 ^ k := by positivity
  rw [Int.bmod_def, hm]
  generalize (2 : Int) ^ k = b at *
  by_cases hx : 0 ≤ x
  · have e : x % (2 * b) = x := Int.emod_eq_of_lt hx (by omega)
    rw [e]
    split <;> omega
  · have e : x % (2 * b) = x + 2 * b := by
      have h1 : (x + 2 * b) % (2 * b) = x % (2 * b) := by simp
      rw [← h1]
      exact Int.emod_eq_of_lt (by omega) (by omega)
    rw [e]
    split <;> omega

theorem fits_literal {w : Nat} (hw : 32 ≤ w) {n : Nat} (h : n ≤ 2147483647) :
    fits w (n : Int) := by
  unfold fits
  have h1 : (2 : Int) ^ 31 ≤ 2 ^ (w - 1) :=
    pow_le_pow_right₀ (by norm_num) (by omega)
  have h2 : (2 : Int) ^ 31 = 2147483648 := by norm_num
  constructor <;> omega

/-- On the tree of a derivation of which no operation overflows or divides by
zero, the evaluator returns the value of the expression. -/
theorem Accept_toAST (w : Nat) (hw : 32 ≤ w) {l : Level} (t : Tree l) :
    wellFormed t → noZeroDivisor t → inRange w t →
      Accept w (toAST t) = (Iface.int (value t), none) := by
  have hw0 : 0 < w := by omega
  induction t with
  | int ws ds => intro _ _ _; rfl
  | pos ws f ih =>
    intro h1 h2 h3
    simp only [toAST, Accept, value, ih h1.2 h2 h3]
    rfl
  | neg ws f ih =>
    intro h1 h2 h3
    simp only [toAST, Accept, value, ih h1.2 h2 h3.1]
    simp only [VisitUnaryOperation, NewToken, wrapInt_fits hw0 h3.2]
  | paren ws1 e ws2 ih => intro h1 h2 h3; exact ih h1.2.1 h2 h3
  | factor f ih => intro h1 h2 h3; exact ih h1 h2 h3
  | mul t ws f iht ihf =>
    intro h1 h2 h3
    simp only [toAST, Accept, value, iht h1.1 h2.1 h3.1, ihf h1.2.2 h2.2 h3.2.1]
    simp only [VisitBinaryOperation, NewToken, wrapInt_fits hw0 h3.2.2]
  | div t ws f iht ihf =>
    intro h1 h2 h3
    simp only [toAST, Accept, value, iht h1.1 h2.1 h3.1, ihf h1.2.2 h2.2.1 h3.2.1]
    simp only [VisitBinaryOperation, NewToken, wrapInt_fits hw0 h3.2.2, h2.2.2, if_false]
  | term t ih => intro h1 h2 h3; exact ih h1 h2 h3
  | add e ws t ihe iht =>
    intro h1 h2 h3
    simp only [toAST, Accept, value, ihe h1.1 h2.1 h3.1, iht h1.2.2 h2.2 h3.2.1]
    simp only [VisitBinaryOperation, NewToken, wrapInt_fits hw0 h3.2.2]
  | sub e ws t ihe iht =>
    intro h1 h2 h3
    simp only [toAST, Accept, value, ihe h1.1 h2.1 h3.1, iht h1.2.2 h2.2 h3.2.1]
    simp only [VisitBinaryOperation, NewToken, wrapInt_fits hw0 h3.2.2]

/-! ## From the input string to the result -/

theorem Expr_fuel_unique {n m : Nat} {p : Parser} {r r' : PResult}
    (h : Expr n p = some r) (h' : Expr m p = some r') : r = r' := by
  have h1 := Expr_fuel_le (le_max_left n m) h
  have h2 := Expr_fuel_le (le_max_right n m) h'
  rw [h1] at h2
  exact Option.some.inj h2

theorem NewParser_parserAt (input : List Nat) :
    (NewParser (NewLexer input)).1 = parserAt input 0 NewNestingStack := by
  rw [NewParser_eq]
  simp [parserAt]

/-- `Parse` on the string of a well-formed derivation, with whitespace at the
end: the tree of the derivation, and a nil error. -/
theorem Parse_render (e : Tree Level.expr) (wsEnd : List Nat) (hw : wellFormed e)
    (hs : allSpace wsEnd) :
    Parse (NewParser (NewLexer (render e ++ wsEnd))).1
      = some (toAST e, none,
          parserAt (render e ++ wsEnd) (render e).length NewNestingStack) := by
  rw [NewParser_parserAt]
  have hd : (render e ++ wsEnd).drop 0 = render e ++ wsEnd := rfl
  have hlex : lexSpec (List.drop (0 + (render e).length) (render e ++ wsEnd))
      = (NewToken Kind.EOF (Iface.int 0), none, wsEnd.length) := by
    rw [drop_add_of_append hd, lexSpec_allSpace wsEnd hs]
  have hstop := ExprLoop_stop (render e ++ wsEnd) (0 + (render e).length) NewNestingStack
    (toAST e) (by rw [hlex]; rfl)
  obtain ⟨n, hn⟩ := parse_tree e hw (render e ++ wsEnd) 0 NewNestingStack wsEnd hd
    (Follow_allSpace wsEnd _ hs) (by rw [lexSpec_allSpace wsEnd hs]; rfl) 1 _ hstop
  rw [Nat.zero_add] at hn hlex
  have hwf : WF (parserAt (render e ++ wsEnd) 0 NewNestingStack) := rfl
  obtain ⟨r, hr⟩ := (total_all (parseFuel (parserAt (render e ++ wsEnd) 0 NewNestingStack))).2.2.2.1
    _ hwf (by have := remaining_le (parserAt (render e ++ wsEnd) 0 NewNestingStack)
              unfold parseFuel; omega)
  have := Expr_fuel_unique hr hn
  subst this
  unfold Parse
  rw [hr]
  simp only [parserAt_token, hlex]
  simp [parserAt, IsEmpty, NewNestingStack, NewToken]

/-! ## The loops of the lexer run to their end, in every lexer state -/

theorem SkipWhiteSpaceLoop_zero_char (n : Nat) (lex : Lexer) (h : lex.CurrentChar = 0) :
    SkipWhiteSpaceLoop n lex = lex := by
  cases n with
  | zero => rfl
  | succ n => simp [SkipWhiteSpaceLoop, h]

/-- When `SkipWhiteSpace` returns, `CurrentChar` is no whitespace: the bound on
the iterations of its loop is never reached. -/
theorem SkipWhiteSpaceLoop_exit :
    ∀ n lex, lex.Input.length - lex.Position < n →
      isSpace (SkipWhiteSpaceLoop n lex).CurrentChar = false := by
  intro n
  induction n with
  | zero => intro lex h; omega
  | succ n ih =>
    intro lex h
    unfold SkipWhiteSpaceLoop
    split
    · rename_i hc
      unfold GetNextChar
      simp only
      split
      · rw [SkipWhiteSpaceLoop_zero_char _ _ rfl]
        exact isSpace_zero
      · rename_i hp
        apply ih
        simp only
        omega
    · rename_i hc
      by_cases h0 : lex.CurrentChar = 0
      · rw [h0]; exact isSpace_zero
      · simpa [h0] using hc

theorem SkipWhiteSpace_exit (lex : Lexer) : isSpace (SkipWhiteSpace lex).CurrentChar = false :=
  SkipWhiteSpaceLoop_exit _ lex (by omega)

theorem SkipWhiteSpace_nonspace (lex : Lexer) (h : isSpace lex.CurrentChar = false) :
    SkipWhiteSpace lex = lex := by
  simp [SkipWhiteSpace, SkipWhiteSpaceLoop, h]

/-- One round of the loop of `GetNextToken` is enough when `CurrentChar` is no
whitespace. -/
theorem GetNextTokenLoop_one (n : Nat) (lex : Lexer) (h : isSpace lex.CurrentChar = false) :
    GetNextTokenLoop (n + 1) lex = GetNextTokenLoop 1 lex := by
  simp [GetNextTokenLoop, h]

/-- Two rounds of the loop of `GetNextToken` are always enough. -/
theorem GetNextTokenLoop_fuel (n : Nat) (lex : Lexer) :
    GetNextTokenLoop (n + 2) lex = GetNextTokenLoop 2 lex := by
  by_cases h : isSpace lex.CurrentChar = true
  · have h0 := isSpace_ne_zero h
    have e1 : GetNextTokenLoop (n + 2) lex = GetNextTokenLoop (n + 1) (SkipWhiteSpace lex) := by
      simp [GetNextTokenLoop, h, h0]
    have e2 : GetNextTokenLoop 2 lex = GetNextTokenLoop 1 (SkipWhiteSpace lex) := by
      simp [GetNextTokenLoop, h, h0]
    rw [e1, e2, GetNextTokenLoop_one n _ (SkipWhiteSpace_exit lex)]
  · simp only [Bool.not_eq_true] at h
    rw [GetNextTokenLoop_one (n + 1) lex h, GetNextTokenLoop_one 1 lex h]

/-- In every lexer state, when the character the whitespace is followed by is
not zero, not a digit and none of the six symbols, `GetNextToken` returns the
error for an invalid character, with the token of empty kind, and leaves the
cursor on that character. -/
theorem GetNextToken_invalid (lex : Lexer)
    (h0 : (SkipWhiteSpace lex).CurrentChar ≠ 0)
    (hd : isDigit (SkipWhiteSpace lex).CurrentChar = false)
    (hs : (SkipWhiteSpace lex).CurrentChar ∉ [43, 45, 42, 47, 40, 41]) :
    GetNextToken lex
      = (NewToken Kind.NONE (Iface.int 0),
          some (Error.invalidCharacter (SkipWhiteSpace lex).CurrentChar), SkipWhiteSpace lex) := by
  have hx := SkipWhiteSpace_exit lex
  simp only [List.mem_cons, List.mem_singleton, List.not_mem_nil, or_false, not_or] at hs
  obtain ⟨s1, s2, s3, s4, s5, s6⟩ := hs
  have hone : GetNextTokenLoop 1 (SkipWhiteSpace lex)
      = (NewToken Kind.NONE (Iface.int 0),
          some (Error.invalidCharacter (SkipWhiteSpace lex).CurrentChar), SkipWhiteSpace lex) := by
    simp [GetNextTokenLoop, h0, hx, hd, s1, s2, s3, s4, s5, s6]
  by_cases h : isSpace lex.CurrentChar = true
  · have hne := isSpace_ne_zero h
    have e2 : GetNextToken lex = GetNextTokenLoop 1 (SkipWhiteSpace lex) := by
      simp [GetNextToken, GetNextTokenLoop, h, hne]
    rw [e2, hone]
  · simp only [Bool.not_eq_true] at h
    have e := SkipWhiteSpace_nonspace lex h
    have e2 : GetNextToken lex = GetNextTokenLoop 1 lex := GetNextTokenLoop_one 1 lex h
    rw [e2]
    rw [e] at hone
    rw [hone, e]

theorem IntegerLoop_zero_char (n : Nat) (s : List Nat) (lex : Lexer) (h : lex.CurrentChar = 0) :
    IntegerLoop n s lex = (s, lex) := by
  cases n with
  | zero => rfl
  | succ n => simp [IntegerLoop, h]

/-- When the loop of `Integer` returns, `CurrentChar` is no digit: the bound on
its iterations is never reached. -/
theorem IntegerLoop_exit :
    ∀ n s lex, lex.Input.length - lex.Position < n →
      isDigit (IntegerLoop n s lex).2.CurrentChar = false := by
  intro n
  induction n with
  | zero => intro s lex h; omega
  | succ n ih =>
    intro s lex h
    unfold IntegerLoop
    split
    · rename_i hc
      unfold GetNextChar
      simp only
      split
      · rw [IntegerLoop_zero_char _ _ _ rfl]
        exact isDigit_zero
      · rename_i hp
        apply ih
        simp only
        omega
    · rename_i hc
      by_cases h0 : lex.CurrentChar = 0
      · simp only [h0]; exact isDigit_zero
      · simpa [h0] using hc

/-! ## From the derivation to the result of `Interpret` -/

theorem Calculate_of_Parse_ok (w : Nat) (input : List Nat) {node : ASTNode} {p' : Parser}
    {v : Int} (h : Parse (NewParser (NewLexer input)).1 = some (node, none, p'))
    (ha : Accept w node = (Iface.int v, none)) : Calculate w input = some (v, none) := by
  simp [Calculate, Interpret, NewInterpreter, h, ha]

theorem Calculate_of_Accept_error (w : Nat) (input : List Nat) {node : ASTNode} {p' : Parser}
    {x : Iface} {e : Error} (h : Parse (NewParser (NewLexer input)).1 = some (node, none, p'))
    (ha : Accept w node = (x, some e)) : Calculate w input = some (0, some e) := by
  simp [Calculate, Interpret, NewInterpreter, h, ha]

/-- The result of `Interpret` on the string of a derivation. -/
theorem Calculate_render (w : Nat) (hw : 32 ≤ w) (e : Tree Level.expr) (wsEnd : List Nat)
    (hwf : wellFormed e) (hs : allSpace wsEnd) (hz : noZeroDivisor e) (hr : inRange w e) :
    Calculate w (render e ++ wsEnd) = some (value e, none) :=
  Calculate_of_Parse_ok w _ (Parse_render e wsEnd hwf hs) (Accept_toAST w hw e hwf hz hr)

theorem NewParser_render_error (e : Tree Level.expr) (wsEnd : List Nat) (hwf : wellFormed e)
    (hs : allSpace wsEnd) : (NewParser (NewLexer (render e ++ wsEnd))).2 = none := by
  rw [NewParser_eq]
  exact (lexSpec_render e hwf wsEnd (Follow_no_digit (Follow_allSpace wsEnd NewNestingStack hs))).1

/-! ## Chains of operators and runs of signs -/

theorem render_chainTerm (steps : List (Bool × List Nat)) :
    ∀ t, render (chainTerm t steps) = render t ++ chainInput mulChar steps := by
  induction steps with
  | nil => intro t; simp [chainTerm, chainInput]
  | cons s rest ih =>
    intro t
    have := ih (if s.1 then Tree.div t [32] (Tree.int [32] s.2)
      else Tree.mul t [32] (Tree.int [32] s.2))
    simp only [chainTerm, List.foldl_cons] at this ⊢
    rw [this]
    cases hs : s.1 <;> simp [render, chainInput, mulChar, hs]

theorem render_chainExpr (steps : List (Bool × List Nat)) :
    ∀ e, render (chainExpr e steps) = render e ++ chainInput addChar steps := by
  induction steps with
  | nil => intro e; simp [chainExpr, chainInput]
  | cons s rest ih =>
    intro e
    have := ih (if s.1 then Tree.sub e [32] (Tree.factor (Tree.int [32] s.2))
      else Tree.add e [32] (Tree.factor (Tree.int [32] s.2)))
    simp only [chainExpr, List.foldl_cons] at this ⊢
    rw [this]
    cases hs : s.1 <;> simp [render, chainInput, addChar, hs]

theorem toAST_chainTerm (steps : List (Bool × List Nat)) :
    ∀ t, toAST (chainTerm t steps) = chainNode mulToken (toAST t) steps := by
  induction steps with
  | nil => intro t; rfl
  | cons s rest ih =>
    intro t
    have := ih (if s.1 then Tree.div t [32] (Tree.int [32] s.2)
      else Tree.mul t [32] (Tree.int [32] s.2))
    simp only [chainTerm, chainNode, List.foldl_cons] at this ⊢
    rw [this]
    cases hs : s.1 <;> simp [toAST, mulToken, hs, NewBinaryOperation, litNode]

theorem toAST_chainExpr (steps : List (Bool × List Nat)) :
    ∀ e, toAST (chainExpr e steps) = chainNode addToken (toAST e) steps := by
  induction steps with
  | nil => intro e; rfl
  | cons s rest ih =>
    intro e
    have := ih (if s.1 then Tree.sub e [32] (Tree.factor (Tree.int [32] s.2))
      else Tree.add e [32] (Tree.factor (Tree.int [32] s.2)))
    simp only [chainExpr, chainNode, List.foldl_cons] at this ⊢
    rw [this]
    cases hs : s.1 <;> simp [toAST, addToken, hs, NewBinaryOperation, litNode]

theorem allSpace_blank : allSpace [32] := by
  intro c hc
  simp only [List.mem_singleton] at hc
  subst hc
  decide

theorem allSpace_nil : allSpace [] := by
  intro c hc
  simp at hc

theorem wellFormed_chainTerm (steps : List (Bool × List Nat))
    (hs : ∀ s ∈ steps, isLiteral s.2) :
    ∀ t, wellFormed t → wellFormed (chainTerm t steps) := by
  induction steps with
  | nil => intro t h; exact h
  | cons s rest ih =>
    intro t h
    have hl := hs s (List.mem_cons_self _ _)
    simp only [chainTerm, List.foldl_cons]
    apply ih (fun x hx => hs x (List.mem_cons_of_mem _ hx))
    cases s.1
    · exact ⟨h, allSpace_blank, allSpace_blank, hl⟩
    · exact ⟨h, allSpace_blank, allSpace_blank, hl⟩

theorem wellFormed_chainExpr (steps : List (Bool × List Nat))
    (hs : ∀ s ∈ steps, isLiteral s.2) :
    ∀ e, wellFormed e → wellFormed (chainExpr e steps) := by
  induction steps with
  | nil => intro e h; exact h
  | cons s rest ih =>
    intro e h
    have hl := hs s (List.mem_cons_self _ _)
    simp only [chainExpr, List.foldl_cons]
    apply ih (fun x hx => hs x (List.mem_cons_of_mem _ hx))
    cases s.1
    · exact ⟨h, allSpace_blank, allSpace_blank, hl⟩
    · exact ⟨h, allSpace_blank, allSpace_blank, hl⟩

theorem render_signsTree (minus : Bool) (signs : List (List Nat)) (f : Tree Level.factor) :
    render (signsTree minus signs f)
      = signsInput (if minus then 45 else 43) signs ++ render f := by
  induction signs with
  | nil => simp [signsTree, signsInput]
  | cons ws rest ih =>
    simp only [signsTree, List.foldr_cons] at ih ⊢
    cases minus <;> simp_all [render, signsInput]

theorem wellFormed_signsTree (minus : Bool) (signs : List (List Nat)) (f : Tree Level.factor)
    (hs : ∀ ws ∈ signs, allSpace ws) (hf : wellFormed f) :
    wellFormed (signsTree minus signs f) := by
  induction signs with
  | nil => exact hf
  | cons ws rest ih =>
    have h1 := hs ws (List.mem_cons_self _ _)
    have h2 := ih (fun x hx => hs x (List.mem_cons_of_mem _ hx))
    simp only [signsTree, List.foldr_cons] at h2 ⊢
    cases minus
    · exact ⟨h1, h2⟩
    · exact ⟨h1, h2⟩

theorem value_signsTree_minus (signs : List (List Nat)) (f : Tree Level.factor) :
    value (signsTree true signs f)
      = if signs.length % 2 = 0 then value f else - value f := by
  induction signs with
  | nil => simp [signsTree]
  | cons ws rest ih =>
    simp only [signsTree, List.foldr_cons, if_true, value, List.length_cons] at ih ⊢
    rw [ih]
    rcases Nat.mod_two_eq_zero_or_one rest.length with h | h
    · have : (rest.length + 1) % 2 = 1 := by omega
      simp [h, this]
    · have : (rest.length + 1) % 2 = 0 := by omega
      simp [h, this]

theorem noZeroDivisor_signsTree (minus : Bool) (signs : List (List Nat))
    (f : Tree Level.factor) (hf : noZeroDivisor f) :
    noZeroDivisor (signsTree minus signs f) := by
  induction signs with
  | nil => exact hf
  | cons ws rest ih =>
    simp only [signsTree, List.foldr_cons] at ih ⊢
    cases minus <;> exact ih

theorem inRange_signsTree_minus (w : Nat) (signs : List (List Nat)) (f : Tree Level.factor)
    (hf : inRange w f) (h1 : fits w (value f)) (h2 : fits w (- value f)) :
    inRange w (signsTree true signs f) := by
  induction signs with
  | nil => exact hf
  | cons ws rest ih =>
    have hv := value_signsTree_minus rest f
    simp only [signsTree, List.foldr_cons, if_true] at ih hv ⊢
    refine ⟨ih, ?_⟩
    rw [hv]
    split
    · exact h2
    · simpa using h1

/-- The tree of a derivation evaluates to an `int`, or to an error. -/
theorem Accept_toAST_cases (w : Nat) {l : Level} (t : Tree l) :
    (∃ v, Accept w (toAST t) = (Iface.int v, none))
      ∨ (∃ x e, Accept w (toAST t) = (x, some e)) := by
  induction t with
  | int ws ds => exact Or.inl ⟨_, rfl⟩
  | pos ws f ih =>
    rcases ih with ⟨v, h⟩ | ⟨x, e, h⟩
    · exact Or.inl ⟨v, by simp [toAST, Accept, h, VisitUnaryOperation, NewToken]⟩
    · exact Or.inr ⟨_, e, by simp only [toAST, Accept, h, VisitUnaryOperation]; rfl⟩
  | neg ws f ih =>
    rcases ih with ⟨v, h⟩ | ⟨x, e, h⟩
    · exact Or.inl ⟨_, by simp only [toAST, Accept, h, VisitUnaryOperation, NewToken]; rfl⟩
    · exact Or.inr ⟨_, e, by simp only [toAST, Accept, h, VisitUnaryOperation]; rfl⟩
  | paren ws1 e ws2 ih => exact ih
  | factor f ih => exact ih
  | mul t ws f iht ihf =>
    rcases iht with ⟨v, h⟩ | ⟨x, e, h⟩
    · rcases ihf with ⟨v', h'⟩ | ⟨x', e', h'⟩
      · exact Or.inl ⟨_, by simp only [toAST, Accept, h, h', VisitBinaryOperation, NewToken]; rfl⟩
      · exact Or.inr ⟨_, e', by simp only [toAST, Accept, h, h', VisitBinaryOperation]; rfl⟩
    · exact Or.inr ⟨_, e, by simp only [toAST, Accept, h, VisitBinaryOperation]; rfl⟩
  | div t ws f iht ihf =>
    rcases iht with ⟨v, h⟩ | ⟨x, e, h⟩
    · rcases ihf with ⟨v', h'⟩ | ⟨x', e', h'⟩
      · by_cases hz : v' = 0
        · exact Or.inr ⟨_, _, by
            simp only [toAST, Accept, h, h', VisitBinaryOperation, NewToken, hz, if_true]; rfl⟩
        · exact Or.inl ⟨_, by
            simp only [toAST, Accept, h, h', VisitBinaryOperation, NewToken, hz, if_false]; rfl⟩
      · exact Or.inr ⟨_, e', by simp only [toAST, Accept, h, h', VisitBinaryOperation]; rfl⟩
    · exact Or.inr ⟨_, e, by simp only [toAST, Accept, h, VisitBinaryOperation]; rfl⟩
  | term t ih => exact ih
  | add t ws f iht ihf =>
    rcases iht with ⟨v, h⟩ | ⟨x, e, h⟩
    · rcases ihf with ⟨v', h'⟩ | ⟨x', e', h'⟩
      · exact Or.inl ⟨_, by simp only [toAST, Accept, h, h', VisitBinaryOperation, NewToken]; rfl⟩
      · exact Or.inr ⟨_, e', by simp only [toAST, Accept, h, h', VisitBinaryOperation]; rfl⟩
    · exact Or.inr ⟨_, e, by simp only [toAST, Accept, h, VisitBinaryOperation]; rfl⟩
  | sub t ws f iht ihf =>
    rcases iht with ⟨v, h⟩ | ⟨x, e, h⟩
    · rcases ihf with ⟨v', h'⟩ | ⟨x', e', h'⟩
      · exact Or.inl ⟨_, by simp only [toAST, Accept, h, h', VisitBinaryOperation, NewToken]; rfl⟩
      · exact Or.inr ⟨_, e', by simp only [toAST, Accept, h, h', VisitBinaryOperation]; rfl⟩
    · exact Or.inr ⟨_, e, by simp only [toAST, Accept, h, VisitBinaryOperation]; rfl⟩

/-- Signs '+' in front of a factor: the same `int`, or the same error. -/
theorem Accept_signsTree_plus (w : Nat) (signs : List (List Nat)) (f : Tree Level.factor) :
    (∀ v, Accept w (toAST f) = (Iface.int v, none) →
      Accept w (toAST (signsTree false signs f)) = (Iface.int v, none)) ∧
    (∀ x e, Accept w (toAST f) = (x, some e) →
      ∃ y, Accept w (toAST (signsTree false signs f)) = (y, some e)) := by
  induction signs with
  | nil => exact ⟨fun v h => h, fun x e h => ⟨x, h⟩⟩
  | cons ws rest ih =>
    simp only [signsTree, List.foldr_cons, Bool.false_eq_true, if_false] at ih ⊢
    constructor
    · intro v h
      simp only [toAST, Accept, ih.1 v h, VisitUnaryOperation, NewToken]
    · intro x e h
      obtain ⟨y, hy⟩ := ih.2 x e h
      exact ⟨_, by simp only [toAST, Accept, hy, VisitUnaryOperation]; rfl⟩

theorem fits_neg_literal {w : Nat} (hw : 32 ≤ w) {n : Nat} (h : n ≤ 2147483647) :
    fits w (-(n : Int)) := by
  unfold fits
  have h1 : (2 : Int) ^ 31 ≤ 2 ^ (w - 1) :=
    pow_le_pow_right₀ (by norm_num) (by omega)
  have h2 : (2 : Int) ^ 31 = 2147483648 := by norm_num
  constructor <;> omega

/-- The quotient of two native integers is one, but for the least integer
divided by -1. -/
theorem fits_tdiv {w : Nat} {a b : Int} (ha : fits w a) (hb : b ≠ 0)
    (hx : ¬ (a = -(2 ^ (w - 1) : Int) ∧ b = -1)) : fits w (Int.tdiv a b) := by
  unfold fits at ha ⊢
  have hpos : (0 : Int) < 2 ^ (w - 1) := by positivity
  obtain ⟨H, hH⟩ : ∃ H : Nat, (2 : Int) ^ (w - 1) = (H : Int) := ⟨2 ^ (w - 1), by push_cast; rfl⟩
  rw [hH] at ha hx hpos ⊢
  have hq : (Int.tdiv a b).natAbs = a.natAbs / b.natAbs := Int.natAbs_tdiv a b
  have hB : 0 < b.natAbs := Int.natAbs_pos.mpr hb
  have hle : a.natAbs / b.natAbs ≤ a.natAbs := Nat.div_le_self _ _
  have hA : a.natAbs ≤ H := by omega
  constructor
  · omega
  · by_cases hlt : a.natAbs < H
    · omega
    · have hAeq : a.natAbs = H := by omega
      have hamin : a = -(H : Int) := by omega
      by_cases hb1 : b.natAbs = 1
      · have hbcases : b = 1 := by
          rcases Int.natAbs_eq b with h | h
          · omega
          · exact absurd ⟨hamin, by omega⟩ hx
        rw [hbcases, Int.tdiv_one]
        omega
      · have : a.natAbs / b.natAbs < a.natAbs :=
          Nat.div_lt_self (by omega) (by omega)
        omega

/-- The quotient of the least integer by -1 wraps to the least integer. -/
theorem wrapInt_half {w : Nat} (hw : 0 < w) :
    wrapInt w (2 ^ (w - 1)) = -(2 ^ (w - 1) : Int) := by
  unfold wrapInt
  obtain ⟨k, rfl⟩ : ∃ k, w = k + 1 := ⟨w - 1, by omega⟩
  simp only [Nat.add_sub_cancel]
  have hm : ((2 ^ (k + 1) : Nat) : Int) = 2 * (2 : Int) ^ k := by push_cast; ring
  have hpos : (0 : Int) < 2 ^ k := by positivity
  rw [Int.bmod_def, hm]
  generalize (2 : Int) ^ k = b at *
  have h1 : b % (2 * b) = b := Int.emod_eq_of_lt (by omega) (by omega)
  rw [h1]
  have h2 : (2 * b + 1) / 2 = b := by omega
  rw [h2]
  simp
  omega

theorem tdiv_min_neg_one (H : Int) : Int.tdiv (-H) (-1) = H := by
  rw [Int.neg_tdiv_neg, Int.tdiv_one]

/-- What `VisitBinaryOperation` returns on a DIV node of which both children
evaluate to integers. -/
theorem Accept_div (w : Nat) (l r : ASTNode) (op : Token) (a b : Int)
    (hop : op.TokenType = Kind.DIV) (hl : Accept w l = (Iface.int a, none))
    (hr : Accept w r = (Iface.int b, none)) :
    Accept w (ASTNode.BinaryOperation l op r)
      = if b = 0 then (Iface.nil, some Error.divisionByZero)
        else (Iface.int (wrapInt w (Int.tdiv a b)), none) := by
  simp only [Accept, hl, hr, VisitBinaryOperation, hop]

theorem isLiteral_zero : isLiteral [48] := by
  simp [isLiteral, isDigit, digitsValue]


/-! ## The end of the input -/

theorem GetNextToken_zero_char (lex : Lexer) (h : lex.CurrentChar = 0) :
    GetNextToken lex = (NewToken Kind.EOF (Iface.int 0), none, lex) := by
  simp [GetNextToken, GetNextTokenLoop, h]

theorem GetNextTokenLoop_one_zero (lex : Lexer) (h : lex.CurrentChar = 0) :
    GetNextTokenLoop 1 lex = (NewToken Kind.EOF (Iface.int 0), none, lex) := by
  simp [GetNextTokenLoop, h]

/-- One round of the loop on a character that is no whitespace returns EOF
only at the end of the input. -/
theorem GetNextTokenLoop_one_EOF (lex : Lexer) (hs : isSpace lex.CurrentChar = false)
    (h : (GetNextTokenLoop 1 lex).1.TokenType = Kind.EOF) : lex.CurrentChar = 0 := by
  by_contra h0
  simp only [GetNextTokenLoop, ne_eq, h0, not_false_eq_true, if_true, hs,
    Bool.false_eq_true, if_false] at h
  split_ifs at h
  all_goals first
    | (simp [NewToken] at h; done)
    | skip
  split at h <;> simp [NewToken] at h

/-- When `GetNextToken` returns an EOF token, the error is nil and the lexer
is left at the end of the input. -/
theorem GetNextToken_EOF (lex : Lexer) (h : (GetNextToken lex).1.TokenType = Kind.EOF) :
    GetNextToken lex = (NewToken Kind.EOF (Iface.int 0), none, (GetNextToken lex).2.2)
      ∧ (GetNextToken lex).2.2.CurrentChar = 0 := by
  unfold GetNextToken at h ⊢
  by_cases hsp : isSpace lex.CurrentChar = true
  · have h0 := isSpace_ne_zero hsp
    have e2 : GetNextTokenLoop 2 lex = GetNextTokenLoop 1 (SkipWhiteSpace lex) := by
      simp [GetNextTokenLoop, hsp, h0]
    rw [e2] at h ⊢
    have hz := GetNextTokenLoop_one_EOF _ (SkipWhiteSpace_exit lex) h
    rw [GetNextTokenLoop_one_zero _ hz]
    exact ⟨rfl, hz⟩
  · simp only [Bool.not_eq_true] at hsp
    rw [GetNextTokenLoop_one 1 lex hsp] at h ⊢
    have hz := GetNextTokenLoop_one_EOF _ hsp h
    rw [GetNextTokenLoop_one_zero _ hz]
    exact ⟨rfl, hz⟩

theorem afterCalls_zero_char (n : Nat) (lex : Lexer) (h : lex.CurrentChar = 0) :
    afterCalls n lex = lex := by
  induction n with
  | zero => rfl
  | succ n ih =>
    rw [afterCalls, GetNextToken_zero_char lex h]
    exact ih

theorem afterCalls_succ (n : Nat) (lex : Lexer) :
    afterCalls (n + 1) lex = afterCalls n (GetNextToken lex).2.2 := rfl

/-! ## The token sequence of an input that parses -/

/-- More rounds than the input has bytes add no token. -/
theorem tokensLoop_lexerAt_fuel (i : List Nat) :
    ∀ k pos, i.length - pos < k → ∀ n, k ≤ n →
      tokensLoop n (lexerAt i pos) = tokensLoop k (lexerAt i pos) := by
  intro k
  induction k with
  | zero => intro pos h; omega
  | succ k ih =>
    intro pos h n hn
    obtain ⟨m, rfl⟩ : ∃ m, n = m + 1 := ⟨n - 1, by omega⟩
    simp only [tokensLoop, GetNextToken_lexerAt]
    cases he : (lexSpec (i.drop pos)).2.1 with
    | some e => rfl
    | none =>
      simp only
      by_cases hk : (lexSpec (i.drop pos)).1.TokenType = Kind.EOF
      · simp [hk]
      · simp only [hk, if_false]
        obtain ⟨f1, _, f3, _⟩ := lexSpec_facts _ he
        have h1 := f3 hk
        simp only [List.length_drop] at f1
        rw [ih (pos + (lexSpec (i.drop pos)).2.2) (by omega) m (by omega)]

theorem tokensLoop_fuel (input : List Nat) (n : Nat) (h : input.length + 1 ≤ n) :
    tokensLoop n (NewLexer input) = tokens input := by
  unfold tokens
  rw [NewLexer_eq]
  exact tokensLoop_lexerAt_fuel input (input.length + 1) 0 (by omega) n h

/-- The tokens to come are those a parse that ends on EOF consumes. -/
theorem view_take {p p' : Parser} {ts : List Token} (h : Consumed p ts p')
    (he : p'.CurrentToken.TokenType = Kind.EOF) : ∀ n, view n p = ts.take (n + 1) := by
  induction h with
  | nil _ => intro n; simp [view, he]
  | @cons p p1 p' ts hp hc _ ih =>
    intro n
    have hne : p.CurrentToken.TokenType ≠ Kind.EOF := by
      intro h0; rw [h0] at hp; exact absurd hp (by decide)
    simp only [view, hne, if_false]
    cases n with
    | zero => simp [tokensLoop]
    | succ m =>
      rw [tokensLoop_step hc, ih he m]
      rfl

theorem Consumed_split {a b : List Token} :
    ∀ {p p' : Parser}, Consumed p (a ++ b) p' → ∃ q, Consumed p a q ∧ Consumed q b p' := by
  induction a with
  | nil => intro p p' h; exact ⟨p, Consumed.nil p, h⟩
  | cons x a ih =>
    intro p p' h
    cases h with
    | cons hp hc hrest =>
      obtain ⟨q, h1, h2⟩ := ih hrest
      exact ⟨q, Consumed.cons hp hc h1, h2⟩

/-- The nesting stack against the tokens consumed by successful calls of
`Consume`: one marker more for every LPAR, one less for every RPAR. -/
theorem Consumed_stack {p p' : Parser} {ts : List Token} (h : Consumed p ts p') :
    p'.Stack.Stack.length + (kinds ts).count Kind.RPAR
      = p.Stack.Stack.length + (kinds ts).count Kind.LPAR := by
  induction h with
  | nil _ => simp [kinds]
  | @cons p p1 p' ts hp hc _ ih =>
    obtain ⟨hk, _, sL, sR, sO, _, _⟩ := Consume_ok hc
    simp only [kinds_cons, List.count_cons]
    by_cases h1 : p.CurrentToken.TokenType = Kind.LPAR
    · have := sL h1
      simp only [h1, beq_self_eq_true, if_true] at ih ⊢
      rw [this] at ih
      simp only [List.length_append, List.length_singleton] at ih
      simp
      omega
    · by_cases h2 : p.CurrentToken.TokenType = Kind.RPAR
      · obtain ⟨top, ht, _⟩ := sR h2
        rw [ht]
        simp only [h2, List.length_append, List.length_singleton]
        simp
        omega
      · have := sO h1 h2
        rw [this] at ih
        have e1 : (Kind.LPAR == p.CurrentToken.TokenType) = false := by
          simpa using fun h => h1 h.symm
        have e2 : (Kind.RPAR == p.CurrentToken.TokenType) = false := by
          simpa using fun h => h2 h.symm
        simp only [beq_iff_eq, h1, h2, if_false, Nat.add_zero] at ih ⊢
        first | exact ih | (simp [e1, e2] at ih ⊢; omega) | omega

/-- What a successful `Parse` consumed is the token sequence of the input. -/
theorem Parse_tokens (input : List Nat) {node : ASTNode} {p' : Parser}
    (h : Parse (NewParser (NewLexer input)).1 = some (node, none, p')) :
    Consumed (NewParser (NewLexer input)).1 (tokens input) p'
      ∧ Seg startsFactor (kinds (tokens input))
      ∧ p'.Stack.Stack = [] ∧ p'.CurrentToken.TokenType = Kind.EOF
      ∧ (NewParser (NewLexer input)).2 = none := by
  obtain ⟨ts, h1, h2⟩ := Parse_trace h
  obtain ⟨_, hs, hk⟩ := Parse_ok h
  have hp := Consumed_proper h1 (by intro h0; rw [h0] at h2; exact Seg_ne_nil h2 rfl)
  have hl : (lexSpec input).2.1 = none := by
    by_contra hne
    have := lexSpec_error_kind input hne
    rw [NewParser_eq] at hp
    simp only [this] at hp
    exact absurd hp (by decide)
  have herr : (NewParser (NewLexer input)).2 = none := by rw [NewParser_eq]; exact hl
  have hlen := Consumed_remaining h1 (NewParser_WF input)
  have hrem := remaining_le (NewParser (NewLexer input)).1
  have hI : (NewParser (NewLexer input)).1.Lex.Input = input := by rw [NewParser_eq]; rfl
  rw [hI] at hrem
  have ht : tokens input = ts := by
    unfold tokens
    rw [tokensLoop_NewLexer, if_pos herr, view_take h1 hk]
    exact List.take_of_length_le (by omega)
  rw [ht]
  exact ⟨h1, h2, hs, hk, herr⟩

/-- In a run of valid pairs, what follows the end of a factor is an operator
or a closing parenthesis. -/
theorem chain_after_end {a b : List Kind} {x y : Kind}
    (h : List.Chain' (fun x y => validPair x y = true) (a ++ y :: b))
    (hl : a.getLast? = some x) (hx : endsFactor x = true) :
    isOperator y = true ∨ y = Kind.RPAR := by
  rw [List.chain'_append] at h
  have := h.2.2 x (by rw [hl]; exact rfl) y (by simp)
  revert this hx
  cases x <;> cases y <;> simp [validPair, endsFactor, isOperator, startsFactor]

/-- A successful `Consume` of an RPAR finds a marker on the stack. -/
theorem Consumed_RPAR_stack {p p' : Parser} {ts : List Token}
    (h : Consumed p (p.CurrentToken :: ts) p') (hk : p.CurrentToken.TokenType = Kind.RPAR) :
    p.Stack.Stack ≠ [] := by
  cases h with
  | cons hp hc _ =>
    obtain ⟨top, ht, _⟩ := (Consume_ok hc).2.2.2.1 hk
    rw [ht]
    simp

theorem Consumed_head {p p' : Parser} {t : Token} {ts : List Token}
    (h : Consumed p (t :: ts) p') : t = p.CurrentToken := by
  cases h with
  | cons _ _ _ => rfl

/-- A complete expression followed by a token that cannot continue it does
not parse. -/
theorem Parse_extra_token (input : List Nat) (e : Tree Level.expr) (hwf : wellFormed e)
    (t : Token) (more : List Token) (h : tokens input = tokens (render e) ++ t :: more)
    (ht : t.TokenType = Kind.INTEGER ∨ t.TokenType = Kind.LPAR ∨ t.TokenType = Kind.RPAR)
    {node : ASTNode} {p' : Parser} :
    Parse (NewParser (NewLexer input)).1 ≠ some (node, none, p') := by
  intro hp
  have he := Parse_render e [] hwf allSpace_nil
  rw [List.append_nil] at he
  obtain ⟨c1, s1, k1, _, n1⟩ := Parse_tokens (render e) he
  obtain ⟨c2, s2, _, _, n2⟩ := Parse_tokens input hp
  rw [h] at c2 s2
  obtain ⟨q, ca, cb⟩ := Consumed_split c2
  have b1 := Consumed_stack c1
  have b2 := Consumed_stack ca
  have hq : q.Stack.Stack = [] := by
    have e1 : (NewParser (NewLexer (render e))).1.Stack.Stack = [] := by
      rw [NewParser_eq]; rfl
    have e2 : (NewParser (NewLexer input)).1.Stack.Stack = [] := by
      rw [NewParser_eq]; rfl
    rw [k1, e1] at b1
    rw [e2] at b2
    simp only [List.length_nil, Nat.zero_add] at b1 b2
    exact List.eq_nil_of_length_eq_zero (by omega)
  obtain ⟨x, hx1, hx2⟩ := s1.2.2
  have hch := s2.1
  rw [kinds_append, kinds_cons] at hch
  rcases chain_after_end hch hx1 hx2 with ho | hr
  · rcases ht with ht | ht | ht <;> rw [ht] at ho <;> exact absurd ho (by decide)
  · have := Consumed_head cb
    subst this
    exact Consumed_RPAR_stack cb hr hq

/-! ## Two runs of the parser in step

The procedures of the parser change the parser only through `Consume`.  A
relation between parser states that the calls of `Consume` keep is therefore
kept by `Factor`, `Term`, `Expr` and `Parse`, which then return the same node
and the same error on related states. -/

theorem consume_cases {R : Option Error → Parser → Parser → Prop}
    (hC : ∀ k p q, R none p q → (Consume k p).1 = (Consume k q).1
      ∧ R (Consume k p).1 (Consume k p).2 (Consume k q).2)
    {p q : Parser} (h : R none p q) (k : Kind) :
    (∃ e p1 q1, Consume k p = (some e, p1) ∧ Consume k q = (some e, q1) ∧ R (some e) p1 q1) ∨
    (∃ p1 q1, Consume k p = (none, p1) ∧ Consume k q = (none, q1) ∧ R none p1 q1) := by
  obtain ⟨h1, h2⟩ := hC k p q h
  rcases hp : Consume k p with ⟨e1, p1⟩
  rcases hq : Consume k q with ⟨e2, q1⟩
  rw [hp, hq] at h1
  rw [hp, hq] at h2
  simp only at h1 h2
  subst h1
  cases e1 with
  | none => exact Or.inr ⟨p1, q1, rfl, rfl, h2⟩
  | some e => exact Or.inl ⟨e, p1, q1, rfl, rfl, h2⟩

theorem ResRel_error {R : Option Error → Parser → Parser → Prop} {e : Error} {p q : Parser}
    {n : ASTNode} (h : R (some e) p q) : ResRel R (some (n, some e, p)) (some (n, some e, q)) :=
  Or.inr ⟨_, _, _, _, rfl, rfl, h⟩

theorem ResRel_ok {R : Option Error → Parser → Parser → Prop} {p q : Parser}
    {n : ASTNode} (h : R none p q) : ResRel R (some (n, none, p)) (some (n, none, q)) :=
  Or.inr ⟨_, _, _, _, rfl, rfl, h⟩

theorem FactorBody_rel {R : Option Error → Parser → Parser → Prop}
    (hTok : ∀ p q, R none p q → p.CurrentToken = q.CurrentToken)
    (hErr : ∀ e p q, R none p q → R (some e) p q)
    (hC : ∀ k p q, R none p q → (Consume k p).1 = (Consume k q).1
      ∧ R (Consume k p).1 (Consume k p).2 (Consume k q).2)
    {F1 F2 E1 E2 : Parser → Option PResult}
    (hF : ∀ p q, R none p q → ResRel R (F1 p) (F2 q))
    (hE : ∀ p q, R none p q → ResRel R (E1 p) (E2 q))
    {p q : Parser} (h : R none p q) :
    ResRel R (FactorBody F1 E1 p) (FactorBody F2 E2 q) := by
  have ht := hTok p q h
  have unary : ∀ k, ResRel R
      (match Consume k p with
        | (some err, p1) => some (NewErrorNode (some err), some err, p1)
        | (none, p1) =>
          match F1 p1 with
          | none => none
          | some (_, some err, p2) => some (NewErrorNode (some err), some err, p2)
          | some (unaryChild, none, p2) =>
            some (NewUnaryOperation p.CurrentToken unaryChild, none, p2))
      (match Consume k q with
        | (some err, p1) => some (NewErrorNode (some err), some err, p1)
        | (none, p1) =>
          match F2 p1 with
          | none => none
          | some (_, some err, p2) => some (NewErrorNode (some err), some err, p2)
          | some (unaryChild, none, p2) =>
            some (NewUnaryOperation p.CurrentToken unaryChild, none, p2)) := by
    intro k
    rcases consume_cases hC h k with ⟨e, p1, q1, c1, c2, hr⟩ | ⟨p1, q1, c1, c2, hr⟩
    · simp only [c1, c2]
      exact ResRel_error hr
    · simp only [c1, c2]
      rcases hF p1 q1 hr with ⟨f1, f2⟩ | ⟨node, e, p2, q2, f1, f2, hr2⟩
      · simp only [f1, f2]
        exact Or.inl ⟨rfl, rfl⟩
      · simp only [f1, f2]
        cases e with
        | none => exact ResRel_ok hr2
        | some e => exact ResRel_error hr2
  unfold FactorBody
  simp only
  rw [← ht]
  cases hk : p.CurrentToken.TokenType <;> simp only []
  case PLUS => exact unary Kind.PLUS
  case MINUS => exact unary Kind.MINUS
  case INTEGER =>
    rcases consume_cases hC h Kind.INTEGER with ⟨e, p1, q1, c1, c2, hr⟩ | ⟨p1, q1, c1, c2, hr⟩
    · simp only [c1, c2]
      exact ResRel_error hr
    · simp only [c1, c2]
      cases NewNumberLiteral p.CurrentToken with
      | error err => exact ResRel_error (hErr _ _ _ hr)
      | ok n => exact ResRel_ok hr
  case LPAR =>
    rcases consume_cases hC h Kind.LPAR with ⟨e, p1, q1, c1, c2, hr⟩ | ⟨p1, q1, c1, c2, hr⟩
    · simp only [c1, c2]
      exact ResRel_error hr
    · simp only [c1, c2]
      rcases hE p1 q1 hr with ⟨f1, f2⟩ | ⟨node, e, p2, q2, f1, f2, hr2⟩
      · simp only [f1, f2]
        exact Or.inl ⟨rfl, rfl⟩
      · simp only [f1, f2]
        cases e with
        | some e => exact ResRel_error hr2
        | none =>
          simp only
          rcases consume_cases hC hr2 Kind.RPAR with ⟨e, p3, q3, c3, c4, hr3⟩ | ⟨p3, q3, c3, c4, hr3⟩
          · simp only [c3, c4]
            exact ResRel_error hr3
          · simp only [c3, c4]
            exact ResRel_ok hr3
  all_goals exact ResRel_error (hErr _ _ _ h)

theorem operand_rel {R : Option Error → Parser → Parser → Prop}
    {F1 F2 : Parser → Option PResult} {L1 L2 : ASTNode → Parser → Option PResult}
    (hF : ∀ p q, R none p q → ResRel R (F1 p) (F2 q))
    (hL : ∀ l p q, R none p q → ResRel R (L1 l p) (L2 l q))
    {p1 q1 : Parser} (hr : R none p1 q1) (mk : ASTNode → ASTNode) :
    ResRel R
      (match F1 p1 with
        | none => none
        | some (_, some err, p2) => some (NewErrorNode (some err), some err, p2)
        | some (rightChild, none, p2) => L1 (mk rightChild) p2)
      (match F2 q1 with
        | none => none
        | some (_, some err, p2) => some (NewErrorNode (some err), some err, p2)
        | some (rightChild, none, p2) => L2 (mk rightChild) p2) := by
  rcases hF p1 q1 hr with ⟨f1, f2⟩ | ⟨node, e, p2, q2, f1, f2, hr2⟩
  · simp only [f1, f2]
    exact Or.inl ⟨rfl, rfl⟩
  · simp only [f1, f2]
    cases e with
    | none => exact hL _ _ _ hr2
    | some e => exact ResRel_error hr2

theorem step_rel {R : Option Error → Parser → Parser → Prop}
    (hC : ∀ k p q, R none p q → (Consume k p).1 = (Consume k q).1
      ∧ R (Consume k p).1 (Consume k p).2 (Consume k q).2)
    {F1 F2 : Parser → Option PResult} {L1 L2 : ASTNode → Parser → Option PResult}
    (hF : ∀ p q, R none p q → ResRel R (F1 p) (F2 q))
    (hL : ∀ l p q, R none p q → ResRel R (L1 l p) (L2 l q))
    {p q : Parser} (h : R none p q) (k : Kind) (mk : ASTNode → ASTNode) :
    ResRel R
      (match some (Consume k p) with
        | none => some (NewErrorNode none, some Error.termDefault, p)
        | some (some err, p1) => some (NewErrorNode (some err), some err, p1)
        | some (none, p1) =>
          match F1 p1 with
          | none => none
          | some (_, some err, p2) => some (NewErrorNode (some err), some err, p2)
          | some (rightChild, none, p2) => L1 (mk rightChild) p2)
      (match some (Consume k q) with
        | none => some (NewErrorNode none, some Error.termDefault, q)
        | some (some err, p1) => some (NewErrorNode (some err), some err, p1)
        | some (none, p1) =>
          match F2 p1 with
          | none => none
          | some (_, some err, p2) => some (NewErrorNode (some err), some err, p2)
          | some (rightChild, none, p2) => L2 (mk rightChild) p2) := by
  rcases consume_cases hC h k with ⟨e, p1, q1, c1, c2, hr⟩ | ⟨p1, q1, c1, c2, hr⟩
  · simp only [c1, c2]
    exact ResRel_error hr
  · simp only [c1, c2]
    exact operand_rel hF hL hr mk

theorem TermLoopBody_rel {R : Option Error → Parser → Parser → Prop}
    (hTok : ∀ p q, R none p q → p.CurrentToken = q.CurrentToken)
    (hC : ∀ k p q, R none p q → (Consume k p).1 = (Consume k q).1
      ∧ R (Consume k p).1 (Consume k p).2 (Consume k q).2)
    {F1 F2 : Parser → Option PResult} {L1 L2 : ASTNode → Parser → Option PResult}
    (hF : ∀ p q, R none p q → ResRel R (F1 p) (F2 q))
    (hL : ∀ l p q, R none p q → ResRel R (L1 l p) (L2 l q))
    (l : ASTNode) {p q : Parser} (h : R none p q) :
    ResRel R (TermLoopBody F1 L1 l p) (TermLoopBody F2 L2 l q) := by
  have ht := hTok p q h
  unfold TermLoopBody
  simp only
  rw [← ht]
  cases hk : p.CurrentToken.TokenType <;>
    simp only [reduceCtorEq, decide_False, decide_True, Bool.or_false, Bool.or_true,
      Bool.false_or, Bool.true_or, Bool.false_eq_true, if_false, if_true]
  case MUL =>
    exact step_rel hC hF hL h Kind.MUL (fun r => NewBinaryOperation l r p.CurrentToken)
  case DIV =>
    exact step_rel hC hF hL h Kind.DIV (fun r => NewBinaryOperation l r p.CurrentToken)
  all_goals exact ResRel_ok h

theorem ExprLoopBody_rel {R : Option Error → Parser → Parser → Prop}
    (hTok : ∀ p q, R none p q → p.CurrentToken = q.CurrentToken)
    (hC : ∀ k p q, R none p q → (Consume k p).1 = (Consume k q).1
      ∧ R (Consume k p).1 (Consume k p).2 (Consume k q).2)
    {T1 T2 : Parser → Option PResult} {L1 L2 : ASTNode → Parser → Option PResult}
    (hT : ∀ p q, R none p q → ResRel R (T1 p) (T2 q))
    (hL : ∀ l p q, R none p q → ResRel R (L1 l p) (L2 l q))
    (l : ASTNode) {p q : Parser} (h : R none p q) :
    ResRel R (ExprLoopBody T1 L1 l p) (ExprLoopBody T2 L2 l q) := by
  have ht := hTok p q h
  unfold ExprLoopBody
  simp only
  rw [← ht]
  cases hk : p.CurrentToken.TokenType <;>
    simp only [reduceCtorEq, decide_False, decide_True, Bool.or_false, Bool.or_true,
      Bool.false_or, Bool.true_or, Bool.false_eq_true, if_false, if_true]
  case PLUS =>
    rcases consume_cases hC h Kind.PLUS with ⟨e, p1, q1, c1, c2, hr⟩ | ⟨p1, q1, c1, c2, hr⟩
    · simp only [c1, c2]
      exact ResRel_error hr
    · simp only [c1, c2]
      exact operand_rel hT hL hr (fun r => NewBinaryOperation l r p.CurrentToken)
  case MINUS =>
    rcases consume_cases hC h Kind.MINUS with ⟨e, p1, q1, c1, c2, hr⟩ | ⟨p1, q1, c1, c2, hr⟩
    · simp only [c1, c2]
      exact ResRel_error hr
    · simp only [c1, c2]
      exact operand_rel hT hL hr (fun r => NewBinaryOperation l r p.CurrentToken)
  all_goals exact ResRel_ok h

theorem TermBody_rel {R : Option Error → Parser → Parser → Prop}
    {F1 F2 : Parser → Option PResult} {L1 L2 : ASTNode → Parser → Option PResult}
    (hF : ∀ p q, R none p q → ResRel R (F1 p) (F2 q))
    (hL : ∀ l p q, R none p q → ResRel R (L1 l p) (L2 l q))
    {p q : Parser} (h : R none p q) :
    ResRel R (TermBody F1 L1 p) (TermBody F2 L2 q) := by
  unfold TermBody
  exact operand_rel hF hL h (fun r => r)

theorem ExprBody_rel {R : Option Error → Parser → Parser → Prop}
    {T1 T2 : Parser → Option PResult} {L1 L2 : ASTNode → Parser → Option PResult}
    (hT : ∀ p q, R none p q → ResRel R (T1 p) (T2 q))
    (hL : ∀ l p q, R none p q → ResRel R (L1 l p) (L2 l q))
    {p q : Parser} (h : R none p q) :
    ResRel R (ExprBody T1 L1 p) (ExprBody T2 L2 q) := by
  unfold ExprBody
  exact operand_rel hT hL h (fun r => r)

/-- A relation the calls of `Consume` keep is kept by the procedures of the
parser, at every fuel. -/
theorem rel_all {R : Option Error → Parser → Parser → Prop}
    (hTok : ∀ p q, R none p q → p.CurrentToken = q.CurrentToken)
    (hErr : ∀ e p q, R none p q → R (some e) p q)
    (hC : ∀ k p q, R none p q → (Consume k p).1 = (Consume k q).1
      ∧ R (Consume k p).1 (Consume k p).2 (Consume k q).2) (n : Nat) :
    (∀ p q, R none p q → ResRel R (Factor n p) (Factor n q)) ∧
    (∀ p q, R none p q → ResRel R (Term n p) (Term n q)) ∧
    (∀ l p q, R none p q → ResRel R (TermLoop n l p) (TermLoop n l q)) ∧
    (∀ p q, R none p q → ResRel R (Expr n p) (Expr n q)) ∧
    (∀ l p q, R none p q → ResRel R (ExprLoop n l p) (ExprLoop n l q)) := by
  induction n with
  | zero =>
    refine ⟨?_, ?_, ?_, ?_, ?_⟩ <;> intros <;> refine Or.inl ⟨?_, ?_⟩ <;>
      (first | exact Factor_zero _ | exact Term_zero _ | exact TermLoop_zero _ _ | exact Expr_zero _ | exact ExprLoop_zero _ _)
  | succ n ih =>
    obtain ⟨hF, hT, hTL, hE, hEL⟩ := ih
    refine ⟨?_, ?_, ?_, ?_, ?_⟩
    · intro p q h
      rw [Factor_succ, Factor_succ]
      exact FactorBody_rel hTok hErr hC hF hE h
    · intro p q h
      rw [Term_succ, Term_succ]
      exact TermBody_rel hF hTL h
    · intro l p q h
      rw [TermLoop_succ, TermLoop_succ]
      exact TermLoopBody_rel hTok hC hF hTL l h
    · intro p q h
      rw [Expr_succ, Expr_succ]
      exact ExprBody_rel hT hEL h
    · intro l p q h
      rw [ExprLoop_succ, ExprLoop_succ]
      exact ExprLoopBody_rel hTok hC hT hEL l h

/-- The results of `Expr` on related states, whatever fuel each was given. -/
theorem Expr_rel {R : Option Error → Parser → Parser → Prop}
    (hTok : ∀ p q, R none p q → p.CurrentToken = q.CurrentToken)
    (hErr : ∀ e p q, R none p q → R (some e) p q)
    (hC : ∀ k p q, R none p q → (Consume k p).1 = (Consume k q).1
      ∧ R (Consume k p).1 (Consume k p).2 (Consume k q).2)
    {p q : Parser} (h : R none p q) {n m : Nat} {r1 r2 : PResult}
    (h1 : Expr n p = some r1) (h2 : Expr m q = some r2) :
    r1.1 = r2.1 ∧ r1.2.1 = r2.2.1 ∧ R r1.2.1 r1.2.2 r2.2.2 := by
  have e1 := Expr_fuel_le (le_max_left n m) h1
  have e2 := Expr_fuel_le (le_max_right n m) h2
  rcases (rel_all hTok hErr hC (max n m)).2.2.2.1 p q h with ⟨f1, _⟩ | ⟨node, e, p1, q1, f1, f2, hr⟩
  · rw [f1] at e1; cases e1
  · rw [f1] at e1
    rw [f2] at e2
    cases e1
    cases e2
    exact ⟨rfl, rfl, hr⟩

/-- The results of `Parse` on related states. -/
theorem Parse_rel {R : Option Error → Parser → Parser → Prop}
    (hTok : ∀ p q, R none p q → p.CurrentToken = q.CurrentToken)
    (hStack : ∀ p q, R none p q → p.Stack = q.Stack)
    (hErr : ∀ e p q, R none p q → R (some e) p q)
    (hC : ∀ k p q, R none p q → (Consume k p).1 = (Consume k q).1
      ∧ R (Consume k p).1 (Consume k p).2 (Consume k q).2)
    {p q : Parser} (h : R none p q) {r1 r2 : PResult}
    (h1 : Parse p = some r1) (h2 : Parse q = some r2) :
    r1.1 = r2.1 ∧ r1.2.1 = r2.2.1 ∧ R r1.2.1 r1.2.2 r2.2.2 := by
  unfold Parse at h1 h2
  cases hx : Expr (parseFuel p) p with
  | none => rw [hx] at h1; cases h1
  | some x =>
    cases hy : Expr (parseFuel q) q with
    | none => rw [hy] at h2; cases h2
    | some y =>
      obtain ⟨a1, a2, a3⟩ := Expr_rel hTok hErr hC h hx hy
      obtain ⟨n1, e1, p1⟩ := x
      obtain ⟨n2, e2, q1⟩ := y
      simp only at a1 a2 a3
      subst a1
      subst a2
      rw [hx] at h1
      rw [hy] at h2
      cases e1 with
      | some e =>
        simp only [Option.some.injEq] at h1 h2
        subst h1
        subst h2
        exact ⟨rfl, rfl, a3⟩
      | none =>
        have ht := hTok _ _ a3
        have hs := hStack _ _ a3
        simp only [← hs, ← ht] at h2
        simp only at h1
        split_ifs at h1 h2 <;> simp only [Option.some.injEq] at h1 h2 <;> subst h1 <;> subst h2
        · exact ⟨rfl, rfl, hErr _ _ _ a3⟩
        · exact ⟨rfl, rfl, hErr _ _ _ a3⟩
        · exact ⟨rfl, rfl, a3⟩

/-! ## The nesting stack against the tokens consumed -/

theorem consumeStack_LPAR {p : Parser} (h : p.CurrentToken.TokenType = Kind.LPAR) :
    consumeStack p = (none, { p with Stack := Push p.Stack ⟨Kind.LPAR, Iface.rune 40⟩ }) := by
  simp [consumeStack, h]

theorem consumeStack_other {p : Parser} (h1 : p.CurrentToken.TokenType ≠ Kind.LPAR)
    (h2 : p.CurrentToken.TokenType ≠ Kind.RPAR) : consumeStack p = (none, p) := by
  simp [consumeStack, h1, h2]

theorem consumeStack_RPAR_empty {p : Parser} (h : p.CurrentToken.TokenType = Kind.RPAR)
    (hs : p.Stack.Stack = []) : consumeStack p = (some Error.unexpectedRPar, p) := by
  simp [consumeStack, h, Peek, IsEmpty, hs]

theorem consumeStack_RPAR_marker {p : Parser} {s : List Token} {top : Token}
    (h : p.CurrentToken.TokenType = Kind.RPAR) (hs : p.Stack.Stack = s ++ [top])
    (htop : top.TokenType = Kind.LPAR) :
    consumeStack p = (none, { p with Stack := { Stack := s } }) := by
  have hst : p.Stack = { Stack := s ++ [top] } := by
    cases hp : p.Stack; simp [hp] at hs; simp [hs]
  simp [consumeStack, h, hst, Peek_snoc, Pop_snoc, htop]

/-- A call of `Consume` that does not get as far as reading the next token
leaves the parser as it was. -/
theorem Consume_not_advances {k : Kind} {p : Parser} (h : advances k p = false) :
    (Consume k p).2 = p := by
  unfold advances at h
  unfold Consume
  by_cases hk : p.CurrentToken.TokenType = k
  · simp only [hk, decide_True, Bool.true_and] at h
    simp only [hk, ne_eq, not_true_eq_false, if_false]
    by_cases h1 : p.CurrentToken.TokenType = Kind.LPAR
    · rw [consumeStack_LPAR h1] at h; simp at h
    · by_cases h2 : p.CurrentToken.TokenType = Kind.RPAR
      · rcases List.eq_nil_or_concat p.Stack.Stack with hs | ⟨s, top, hs⟩
        · rw [consumeStack_RPAR_empty h2 hs]
        · rw [List.concat_eq_append] at hs
          by_cases htop : top.TokenType = Kind.LPAR
          · rw [consumeStack_RPAR_marker h2 hs htop] at h; simp at h
          · have hst : p.Stack = { Stack := s ++ [top] } := by
              cases hp : p.Stack; simp [hp] at hs; simp [hs]
            have : consumeStack p = (some Error.invalidCharacterOnStack, p) := by
              simp [consumeStack, h2, hst, Peek_snoc, htop]
            rw [this]
      · rw [consumeStack_other h1 h2] at h; simp at h
  · simp [hk]

/-- A call of `Consume` that gets as far as reading the next token leaves the
nesting stack as `consumeStack` made it. -/
theorem Consume_advances {k : Kind} {p : Parser} (h : advances k p = true) :
    p.CurrentToken.TokenType = k ∧ (consumeStack p).1 = none
      ∧ (Consume k p).2.Stack = (consumeStack p).2.Stack
      ∧ (Consume k p).2.CurrentToken = (GetNextToken (consumeStack p).2.Lex).1
      ∧ (Consume k p).2.Lex = (GetNextToken (consumeStack p).2.Lex).2.2 := by
  unfold advances at h
  simp only [Bool.and_eq_true, decide_eq_true_eq, Option.isNone_iff_eq_none] at h
  obtain ⟨hk, hn⟩ := h
  refine ⟨hk, hn, ?_⟩
  unfold Consume
  simp only [hk, ne_eq, not_true_eq_false, if_false]
  rcases hc : consumeStack p with ⟨e, p2⟩
  rw [hc] at hn
  simp only at hn
  subst hn
  simp only
  rcases hg : GetNextToken p2.Lex with ⟨tok, _ | err, lex1⟩
  · simp only
    split_ifs <;> exact ⟨rfl, rfl, rfl⟩
  · exact ⟨rfl, rfl, rfl⟩

/-- One call of `Consume` on a stack of markers: a marker more when an LPAR is
consumed, a marker less when an RPAR is. -/
theorem Consume_stack_step (k : Kind) (p : Parser) (hm : onlyMarkers p.Stack) :
    onlyMarkers (Consume k p).2.Stack ∧
    (Consume k p).2.Stack.Stack.length
        + (if k = Kind.RPAR ∧ advances k p = true then 1 else 0)
      = p.Stack.Stack.length + (if k = Kind.LPAR ∧ advances k p = true then 1 else 0) := by
  cases ha : advances k p with
  | false =>
    rw [Consume_not_advances ha]
    simp [hm]
  | true =>
    obtain ⟨hk, hn, hs, _⟩ := Consume_advances ha
    rw [hs]
    by_cases h1 : p.CurrentToken.TokenType = Kind.LPAR
    · have hk1 : k = Kind.LPAR := hk.symm.trans h1
      rw [consumeStack_LPAR h1]
      subst hk1
      refine ⟨?_, by simp [Push]⟩
      intro t ht
      simp only [Push, List.mem_append, List.mem_singleton] at ht
      rcases ht with ht | ht
      · exact hm t ht
      · exact ht
    · by_cases h2 : p.CurrentToken.TokenType = Kind.RPAR
      · have hk2 : k = Kind.RPAR := hk.symm.trans h2
        subst hk2
        rcases List.eq_nil_or_concat p.Stack.Stack with hs0 | ⟨s, top, hs0⟩
        · rw [consumeStack_RPAR_empty h2 hs0] at hn; simp at hn
        · rw [List.concat_eq_append] at hs0
          have htop : top.TokenType = Kind.LPAR := by
            rw [hm top (by rw [hs0]; simp)]
          rw [consumeStack_RPAR_marker h2 hs0 htop, hs0]
          refine ⟨?_, by simp⟩
          intro t ht
          exact hm t (by rw [hs0]; exact List.mem_append_left _ ht)
      · rw [consumeStack_other h1 h2]
        have e1 : k ≠ Kind.LPAR := fun h => h1 (hk.trans h)
        have e2 : k ≠ Kind.RPAR := fun h => h2 (hk.trans h)
        simp [hm, e1, e2]

theorem runConsume_cons (k : Kind) (ks : List Kind) (p : Parser) :
    runConsume (k :: ks) p = runConsume ks (Consume k p).2 := rfl

theorem runConsume_append (a b : List Kind) (p : Parser) :
    runConsume (a ++ b) p = runConsume b (runConsume a p) := by
  simp [runConsume, List.foldl_append]

/-- After any calls of `Consume` on a stack of markers, the stack holds
markers only, as many more as LPAR tokens were consumed, as many less as RPAR
tokens were. -/
theorem runConsume_stack (ks : List Kind) :
    ∀ p, onlyMarkers p.Stack →
      onlyMarkers (runConsume ks p).Stack ∧
      (runConsume ks p).Stack.Stack.length + consumedOf Kind.RPAR ks p
        = p.Stack.Stack.length + consumedOf Kind.LPAR ks p := by
  induction ks with
  | nil => intro p hm; exact ⟨hm, rfl⟩
  | cons k ks ih =>
    intro p hm
    obtain ⟨s1, s2⟩ := Consume_stack_step k p hm
    obtain ⟨i1, i2⟩ := ih (Consume k p).2 s1
    rw [runConsume_cons]
    refine ⟨i1, ?_⟩
    simp only [consumedOf]
    omega

/-- The procedures of the parser change the parser by calls of `Consume`
only: the parser they return, with or without an error, is the one after some
calls of `Consume`. -/
theorem reach_all (p0 : Parser) (n : Nat) :
    (∀ p node e p', (∃ ks, p = runConsume ks p0) → Factor n p = some (node, e, p') →
      ∃ ks, p' = runConsume ks p0) ∧
    (∀ p node e p', (∃ ks, p = runConsume ks p0) → Term n p = some (node, e, p') →
      ∃ ks, p' = runConsume ks p0) ∧
    (∀ p node e p', (∃ ks, p = runConsume ks p0) → Expr n p = some (node, e, p') →
      ∃ ks, p' = runConsume ks p0) ∧
    (∀ p node e p', (∃ ks, p = runConsume ks p0) → Parse p = some (node, e, p') →
      ∃ ks, p' = runConsume ks p0) := by
  have hTok : ∀ p q, reachRel p0 none p q → p.CurrentToken = q.CurrentToken := by
    rintro p q ⟨rfl, _⟩; rfl
  have hStack : ∀ p q, reachRel p0 none p q → p.Stack = q.Stack := by
    rintro p q ⟨rfl, _⟩; rfl
  have hErr : ∀ e p q, reachRel p0 none p q → reachRel p0 (some e) p q := fun _ _ _ h => h
  have hC : ∀ k p q, reachRel p0 none p q → (Consume k p).1 = (Consume k q).1
      ∧ reachRel p0 (Consume k p).1 (Consume k p).2 (Consume k q).2 := by
    rintro k p q ⟨rfl, ks, hks⟩
    refine ⟨rfl, rfl, ks ++ [k], ?_⟩
    rw [runConsume_append, ← hks]
    rfl
  obtain ⟨hF, hT, _, hE, _⟩ := rel_all hTok hErr hC n
  refine ⟨?_, ?_, ?_, ?_⟩
  · intro p node e p' hp h
    rcases hF p p ⟨rfl, hp⟩ with ⟨f1, _⟩ | ⟨_, _, _, _, f1, _, hr⟩
    · rw [f1] at h; cases h
    · rw [f1] at h; cases h; exact hr.2
  · intro p node e p' hp h
    rcases hT p p ⟨rfl, hp⟩ with ⟨f1, _⟩ | ⟨_, _, _, _, f1, _, hr⟩
    · rw [f1] at h; cases h
    · rw [f1] at h; cases h; exact hr.2
  · intro p node e p' hp h
    rcases hE p p ⟨rfl, hp⟩ with ⟨f1, _⟩ | ⟨_, _, _, _, f1, _, hr⟩
    · rw [f1] at h; cases h
    · rw [f1] at h; cases h; exact hr.2
  · intro p node e p' hp h
    exact (Parse_rel hTok hStack hErr hC (show reachRel p0 none p p from ⟨rfl, hp⟩) h h).2.2.2

/-- The node `Parse` returns with an error is the error node that stores this
error. -/
theorem Parse_error_node {p p' : Parser} {node : ASTNode} {e : Error}
    (h : Parse p = some (node, some e, p')) : node = ASTNode.ErrorNode (some e) := by
  unfold Parse at h
  split at h
  · cases h
  · simp only [Option.some.injEq, Prod.mk.injEq] at h
    obtain ⟨h1, h2, _⟩ := h
    cases h2
    exact h1.symm
  · split_ifs at h <;> simp only [Option.some.injEq, Prod.mk.injEq] at h
    · obtain ⟨h1, h2, _⟩ := h
      cases h2
      exact h1.symm
    · obtain ⟨h1, h2, _⟩ := h
      cases h2
      exact h1.symm
    · exact absurd h.2.1 (by simp)

/-! ## Tokens no factor starts with -/

/-- On a token that starts no factor, `Factor` returns its error and leaves
the parser as it was. -/
theorem Factor_unexpected (n : Nat) (p : Parser)
    (h : startsFactor p.CurrentToken.TokenType = false) :
    Factor (n + 1) p
      = some (NewErrorNode (some (Error.factorUnexpected p.CurrentToken.TokenType)),
          some (Error.factorUnexpected p.CurrentToken.TokenType), p) := by
  rw [Factor_succ]
  unfold FactorBody
  cases hk : p.CurrentToken.TokenType <;> simp [startsFactor, hk] at h ⊢

theorem Term_unexpected (n : Nat) (p : Parser)
    (h : startsFactor p.CurrentToken.TokenType = false) :
    Term (n + 2) p
      = some (NewErrorNode (some (Error.factorUnexpected p.CurrentToken.TokenType)),
          some (Error.factorUnexpected p.CurrentToken.TokenType), p) := by
  rw [Term_succ]
  unfold TermBody
  simp only [Factor_unexpected n p h]

theorem Expr_unexpected (n : Nat) (p : Parser)
    (h : startsFactor p.CurrentToken.TokenType = false) :
    Expr (n + 3) p
      = some (NewErrorNode (some (Error.factorUnexpected p.CurrentToken.TokenType)),
          some (Error.factorUnexpected p.CurrentToken.TokenType), p) := by
  rw [Expr_succ]
  unfold ExprBody
  simp only [Term_unexpected n p h]

/-- On a token that starts no factor, `Parse` returns the error of `Factor`,
whatever the lexer holds. -/
theorem Parse_unexpected (p : Parser) (h : startsFactor p.CurrentToken.TokenType = false) :
    Parse p
      = some (NewErrorNode (some (Error.factorUnexpected p.CurrentToken.TokenType)),
          some (Error.factorUnexpected p.CurrentToken.TokenType), p) := by
  unfold Parse parseFuel
  have : 3 * p.Lex.Input.length + 9 = (3 * p.Lex.Input.length + 6) + 3 := by omega
  rw [this, Expr_unexpected _ p h]

theorem kinds_getLast (ts : List Token) : (kinds ts).getLast? = ts.getLast?.map (fun t => t.TokenType) := by
  simp [kinds, List.getLast?_map]

theorem kinds_head (ts : List Token) : (kinds ts).head? = ts.head?.map (fun t => t.TokenType) := by
  simp [kinds, List.head?_map]

/-- An input does not parse when its token sequence ends with an operator,
starts with a multiplicative operator, has an operator right before a
multiplicative operator, or an LPAR right before an RPAR. -/
theorem Parse_bad_tokens (input : List Nat)
    (h : (∃ t, (tokens input).getLast? = some t ∧ isOperator t.TokenType = true) ∨
      (∃ t, (tokens input).head? = some t ∧ mulOp t.TokenType = true) ∨
      (∃ a t1 t2 b, tokens input = a ++ t1 :: t2 :: b
        ∧ isOperator t1.TokenType = true ∧ mulOp t2.TokenType = true) ∨
      (∃ a t1 t2 b, tokens input = a ++ t1 :: t2 :: b
        ∧ t1.TokenType = Kind.LPAR ∧ t2.TokenType = Kind.RPAR))
    {node : ASTNode} {p' : Parser} :
    Parse (NewParser (NewLexer input)).1 ≠ some (node, none, p') := by
  intro hp
  obtain ⟨_, ⟨hch, ⟨x, hx1, hx2⟩, ⟨y, hy1, hy2⟩⟩, _⟩ := Parse_tokens input hp
  rcases h with ⟨t, h1, h2⟩ | ⟨t, h1, h2⟩ | ⟨a, t1, t2, b, h1, h2, h3⟩ | ⟨a, t1, t2, b, h1, h2, h3⟩
  · rw [kinds_getLast, h1] at hy1
    simp only [Option.map_some', Option.some.injEq] at hy1
    subst hy1
    revert h2 hy2
    cases t.TokenType <;> simp [isOperator, endsFactor]
  · rw [kinds_head, h1] at hx1
    simp only [Option.map_some', Option.some.injEq] at hx1
    subst hx1
    revert h2 hx2
    cases t.TokenType <;> simp [mulOp, startsFactor]
  · rw [h1, kinds_append, kinds_cons, kinds_cons] at hch
    have := (List.chain'_cons.1 hch.right_of_append).1
    revert h2 h3 this
    cases t1.TokenType <;> cases t2.TokenType <;>
      simp [isOperator, mulOp, validPair, endsFactor, startsFactor]
  · rw [h1, kinds_append, kinds_cons, kinds_cons] at hch
    have := (List.chain'_cons.1 hch.right_of_append).1
    rw [h2, h3] at this
    exact absurd this (by decide)

theorem Calculate_fails_of_not_ok (w : Nat) (input : List Nat)
    (h : ∀ node p', Parse (NewParser (NewLexer input)).1 ≠ some (node, none, p')) :
    ∃ e, Calculate w input = some (0, some e) := by
  obtain ⟨node, err, p', hp⟩ := Parse_NewParser_returns input
  cases err with
  | none => exact absurd hp (h node p')
  | some e => exact ⟨e, Calculate_of_Parse_error w input hp⟩

/-! ## Inputs with the same token sequence -/

theorem tokenStream_one (lex : Lexer) :
    tokenStream 1 lex = [((GetNextToken lex).1, (GetNextToken lex).2.1)] := by
  rcases h : GetNextToken lex with ⟨tok, _ | err, lex1⟩
  · simp only [tokenStream, h]
    split_ifs <;> rfl
  · simp only [tokenStream, h]

theorem tokenStream_zero_char (n : Nat) (lex : Lexer) (h : lex.CurrentChar = 0) :
    tokenStream (n + 1) lex = [(NewToken Kind.EOF (Iface.int 0), none)] := by
  simp [tokenStream, GetNextToken_zero_char lex h, NewToken]

theorem sameTokens_first {l1 l2 : Lexer} (h : sameTokens l1 l2) :
    (GetNextToken l1).1 = (GetNextToken l2).1 ∧ (GetNextToken l1).2.1 = (GetNextToken l2).2.1 := by
  have := h 1
  rw [tokenStream_one, tokenStream_one] at this
  simpa using this

theorem sameTokens_next {l1 l2 : Lexer} (h : sameTokens l1 l2)
    (he : (GetNextToken l1).2.1 = none) :
    sameTokens (GetNextToken l1).2.2 (GetNextToken l2).2.2 := by
  obtain ⟨ht, hee⟩ := sameTokens_first h
  rw [he] at hee
  by_cases hk : (GetNextToken l1).1.TokenType = Kind.EOF
  · have z1 := (GetNextToken_EOF l1 hk).2
    have z2 := (GetNextToken_EOF l2 (ht ▸ hk)).2
    intro n
    cases n with
    | zero => rfl
    | succ n => rw [tokenStream_zero_char n _ z1, tokenStream_zero_char n _ z2]
  · intro n
    have := h (n + 1)
    rcases h1 : GetNextToken l1 with ⟨t1, e1, x1⟩
    rcases h2 : GetNextToken l2 with ⟨t2, e2, x2⟩
    rw [h1] at he hk ht
    rw [h2] at hee ht
    simp only at he hk ht hee
    subst he
    subst hee
    subst ht
    simp only [tokenStream, h1, h2, hk, if_false, List.cons.injEq, true_and] at this
    exact this

theorem consumeStack_keeps (p : Parser) :
    (consumeStack p).2.Lex = p.Lex ∧ (consumeStack p).2.CurrentToken = p.CurrentToken := by
  by_cases h1 : p.CurrentToken.TokenType = Kind.LPAR
  · rw [consumeStack_LPAR h1]; exact ⟨rfl, rfl⟩
  · by_cases h2 : p.CurrentToken.TokenType = Kind.RPAR
    · rcases List.eq_nil_or_concat p.Stack.Stack with hs | ⟨s, top, hs⟩
      · rw [consumeStack_RPAR_empty h2 hs]; exact ⟨rfl, rfl⟩
      · rw [List.concat_eq_append] at hs
        by_cases htop : top.TokenType = Kind.LPAR
        · rw [consumeStack_RPAR_marker h2 hs htop]; exact ⟨rfl, rfl⟩
        · have hst : p.Stack = { Stack := s ++ [top] } := by
            cases hp : p.Stack; simp [hp] at hs; simp [hs]
          have : consumeStack p = (some Error.invalidCharacterOnStack, p) := by
            simp [consumeStack, h2, hst, Peek_snoc, htop]
          rw [this]; exact ⟨rfl, rfl⟩
    · rw [consumeStack_other h1 h2]; exact ⟨rfl, rfl⟩

/-- What `consumeStack` returns depends on the current token and on the
nesting stack only. -/
theorem consumeStack_congr {p q : Parser} (ht : p.CurrentToken = q.CurrentToken)
    (hs : p.Stack = q.Stack) :
    (consumeStack p).1 = (consumeStack q).1
      ∧ (consumeStack p).2.Stack = (consumeStack q).2.Stack := by
  obtain ⟨lp, tp, sp⟩ := p
  obtain ⟨lq, tq, sq⟩ := q
  simp only at ht hs
  subst ht
  subst hs
  by_cases h1 : tp.TokenType = Kind.LPAR
  · rw [consumeStack_LPAR (p := ⟨lp, tp, sp⟩) h1, consumeStack_LPAR (p := ⟨lq, tp, sp⟩) h1]
    exact ⟨rfl, rfl⟩
  · by_cases h2 : tp.TokenType = Kind.RPAR
    · rcases List.eq_nil_or_concat sp.Stack with hs | ⟨s, top, hs⟩
      · rw [consumeStack_RPAR_empty (p := ⟨lp, tp, sp⟩) h2 hs,
          consumeStack_RPAR_empty (p := ⟨lq, tp, sp⟩) h2 hs]
        exact ⟨rfl, rfl⟩
      · rw [List.concat_eq_append] at hs
        by_cases htop : top.TokenType = Kind.LPAR
        · rw [consumeStack_RPAR_marker (p := ⟨lp, tp, sp⟩) h2 hs htop,
            consumeStack_RPAR_marker (p := ⟨lq, tp, sp⟩) h2 hs htop]
          exact ⟨rfl, rfl⟩
        · have hst : sp = { Stack := s ++ [top] } := by
            cases sp; simp at hs; simp [hs]
          have e1 : consumeStack ⟨lp, tp, sp⟩
              = (some Error.invalidCharacterOnStack, ⟨lp, tp, sp⟩) := by
            simp [consumeStack, h2, hst, Peek_snoc, htop]
          have e2 : consumeStack ⟨lq, tp, sp⟩
              = (some Error.invalidCharacterOnStack, ⟨lq, tp, sp⟩) := by
            simp [consumeStack, h2, hst, Peek_snoc, htop]
          rw [e1, e2]
          exact ⟨rfl, rfl⟩
    · rw [consumeStack_other (p := ⟨lp, tp, sp⟩) h1 h2,
        consumeStack_other (p := ⟨lq, tp, sp⟩) h1 h2]
      exact ⟨rfl, rfl⟩

/-- On two states with the same current token and stack, whose lexers produce
the same token sequence, `Consume` returns the same error, and without an
error it leaves two such states. -/
theorem Consume_sim (k : Kind) (p q : Parser) (h : simRel none p q) :
    (Consume k p).1 = (Consume k q).1
      ∧ simRel (Consume k p).1 (Consume k p).2 (Consume k q).2 := by
  obtain ⟨ht, hs, hl⟩ := h
  obtain ⟨c1, c2⟩ := consumeStack_congr ht hs
  obtain ⟨kp1, kp2⟩ := consumeStack_keeps p
  obtain ⟨kq1, kq2⟩ := consumeStack_keeps q
  obtain ⟨g1, g2⟩ := sameTokens_first hl
  have g3 := sameTokens_next hl
  unfold Consume
  rw [← ht]
  by_cases hk : p.CurrentToken.TokenType = k
  · simp only [hk, ne_eq, not_true_eq_false, if_false]
    rcases hcp : consumeStack p with ⟨e1, p2⟩
    rcases hcq : consumeStack q with ⟨e2, q2⟩
    rw [hcp] at c1 c2 kp1 kp2
    rw [hcq] at c1 c2 kq1 kq2
    simp only at c1 c2 kp1 kp2 kq1 kq2
    subst c1
    cases e1 with
    | some e => exact ⟨rfl, trivial⟩
    | none =>
      simp only
      rw [kp1, kq1, kp2, kq2, ← ht]
      rcases hgp : GetNextToken p.Lex with ⟨t1, x1, lex1⟩
      rcases hgq : GetNextToken q.Lex with ⟨t2, x2, lex2⟩
      rw [hgp, hgq] at g1 g2
      rw [hgp] at g3
      rw [hgq] at g3
      simp only at g1 g2 g3
      subst g1
      subst g2
      cases x1 with
      | some e => exact ⟨rfl, trivial⟩
      | none =>
        simp only [c2]
        split_ifs
        · exact ⟨rfl, trivial⟩
        · exact ⟨rfl, trivial⟩
        · exact ⟨rfl, rfl, rfl, g3 rfl⟩
  · rw [if_pos hk, if_pos hk]
    exact ⟨rfl, trivial⟩

/-- `Interpret` returns the error of `Factor` when the first token could not
be read. -/
theorem Calculate_of_NewParser_error (w : Nat) (input : List Nat)
    (h : (NewParser (NewLexer input)).2 ≠ none) :
    Calculate w input = some (0, some (Error.factorUnexpected Kind.NONE)) := by
  have hk : (NewParser (NewLexer input)).1.CurrentToken.TokenType = Kind.NONE := by
    rw [NewParser_eq] at h ⊢
    exact lexSpec_error_kind input h
  have hp := Parse_unexpected (NewParser (NewLexer input)).1 (by rw [hk]; rfl)
  rw [hk] at hp
  exact Calculate_of_Parse_error w input hp

theorem NewParser_fields (lex : Lexer) :
    (NewParser lex).1 = ⟨(GetNextToken lex).2.2, (GetNextToken lex).1, NewNestingStack⟩
      ∧ (NewParser lex).2 = (GetNextToken lex).2.1 := by
  unfold NewParser
  rcases GetNextToken lex with ⟨t, e, l⟩
  exact ⟨rfl, rfl⟩

/-- Two inputs with the same token sequence get the same result from
`Interpret`. -/
theorem Calculate_sameTokens (w : Nat) (i1 i2 : List Nat)
    (h : sameTokens (NewLexer i1) (NewLexer i2)) : Calculate w i1 = Calculate w i2 := by
  obtain ⟨g1, g2⟩ := sameTokens_first h
  obtain ⟨f1, f2⟩ := NewParser_fields (NewLexer i1)
  obtain ⟨f3, f4⟩ := NewParser_fields (NewLexer i2)
  by_cases he : (NewParser (NewLexer i1)).2 = none
  · have he1 : (GetNextToken (NewLexer i1)).2.1 = none := by rw [← f2]; exact he
    have hsim : simRel none (NewParser (NewLexer i1)).1 (NewParser (NewLexer i2)).1 := by
      rw [f1, f3]
      exact ⟨g1, rfl, sameTokens_next h he1⟩
    obtain ⟨n1, e1, p1, hp1⟩ := Parse_NewParser_returns i1
    obtain ⟨n2, e2, p2, hp2⟩ := Parse_NewParser_returns i2
    have hr := Parse_rel (R := simRel) (fun p q h => h.1) (fun p q h => h.2.1)
      (fun _ _ _ _ => trivial) Consume_sim hsim hp1 hp2
    obtain ⟨r1, r2, _⟩ := hr
    simp only at r1 r2
    subst r1
    subst r2
    simp only [Calculate, Interpret, NewInterpreter, hp1, hp2]
    cases e1 <;> rfl
  · have he2 : (NewParser (NewLexer i2)).2 ≠ none := by
      rw [f4, ← g2, ← f2]; exact he
    rw [Calculate_of_NewParser_error w i1 he, Calculate_of_NewParser_error w i2 he2]

theorem tokenStream_cons {lex lex1 : Lexer} {tok : Token} (n : Nat)
    (h : GetNextToken lex = (tok, none, lex1)) (hk : tok.TokenType ≠ Kind.EOF) :
    tokenStream (n + 1) lex = (tok, none) :: tokenStream n lex1 := by
  simp only [tokenStream, h, hk, if_false]

theorem tokenStream_last {lex lex1 : Lexer} {tok : Token} (n : Nat)
    (h : GetNextToken lex = (tok, none, lex1)) (hk : tok.TokenType = Kind.EOF) :
    tokenStream (n + 1) lex = [(tok, none)] := by
  simp only [tokenStream, h, hk, if_true]


/-- The token sequence of a lexer that returns three tokens and then EOF. -/
theorem tokenStream_of_three (l0 l1 l2 l3 l4 : Lexer) (t1 t2 t3 t4 : Token)
    (h1 : GetNextToken l0 = (t1, none, l1)) (k1 : t1.TokenType ≠ Kind.EOF)
    (h2 : GetNextToken l1 = (t2, none, l2)) (k2 : t2.TokenType ≠ Kind.EOF)
    (h3 : GetNextToken l2 = (t3, none, l3)) (k3 : t3.TokenType ≠ Kind.EOF)
    (h4 : GetNextToken l3 = (t4, none, l4)) (k4 : t4.TokenType = Kind.EOF) (n : Nat) :
    tokenStream n l0 = List.take n [(t1, none), (t2, none), (t3, none), (t4, none)] := by
  rcases n with _ | _ | _ | _ | n
  · rfl
  · rw [tokenStream_cons 0 h1 k1]; rfl
  · rw [tokenStream_cons 1 h1 k1, tokenStream_cons 0 h2 k2]; rfl
  · rw [tokenStream_cons 2 h1 k1, tokenStream_cons 1 h2 k2, tokenStream_cons 0 h3 k3]; rfl
  · rw [tokenStream_cons (n + 3) h1 k1, tokenStream_cons (n + 2) h2 k2,
      tokenStream_cons (n + 1) h3 k3, tokenStream_last n h4 k4]
    simp

/-- The result of `Interpret` is a function of the node `Parse` returns. -/
theorem Calculate_of_same_node (w : Nat) (i1 i2 : List Nat) {node : ASTNode} {p1 p2 : Parser}
    (h1 : Parse (NewParser (NewLexer i1)).1 = some (node, none, p1))
    (h2 : Parse (NewParser (NewLexer i2)).1 = some (node, none, p2)) :
    Calculate w i1 = Calculate w i2 := by
  simp only [Calculate, Interpret, NewInterpreter, h1, h2]


/-! ## Termination -/

/-- `Interpret` returns, with an integer or with an error. -/
theorem Calculate_returns (w : Nat) (input : List Nat) :
    (∃ v, Calculate w input = some (v, none)) ∨ (∃ e, Calculate w input = some (0, some e)) := by
  obtain ⟨node, err, p', hp⟩ := Parse_NewParser_returns input
  cases err with
  | some e => exact Or.inr ⟨e, Calculate_of_Parse_error w input hp⟩
  | none =>
    simp only [Calculate, Interpret, NewInterpreter, hp]
    rcases ha : Accept w node with ⟨x, _ | e⟩
    · cases x with
      | int v => exact Or.inl ⟨v, rfl⟩
      | rune c => right; cases node <;> first | exact ⟨_, rfl⟩ | (rename_i s; cases s <;> exact ⟨_, rfl⟩)
      | nil => right; cases node <;> first | exact ⟨_, rfl⟩ | (rename_i s; cases s <;> exact ⟨_, rfl⟩)
      | err e0 => right; cases node <;> first | exact ⟨_, rfl⟩ | (rename_i s; cases s <;> exact ⟨_, rfl⟩)
    · exact Or.inr ⟨e, by cases x <;> rfl⟩

/-- A token that is not EOF takes at least one byte of the input. -/
theorem GetNextToken_advances (i : List Nat) (pos : Nat) {tok : Token} {lex1 : Lexer}
    (h : GetNextToken (lexerAt i pos) = (tok, none, lex1)) (hk : tok.TokenType ≠ Kind.EOF) :
    ∃ pos1, lex1 = lexerAt i pos1 ∧ pos < pos1 ∧ pos1 ≤ i.length := by
  rw [GetNextToken_lexerAt] at h
  simp only [Prod.mk.injEq] at h
  obtain ⟨h1, h2, h3⟩ := h
  obtain ⟨f1, _, f3, _⟩ := lexSpec_facts _ h2
  rw [h1] at f3
  have := f3 hk
  simp only [List.length_drop] at f1
  exact ⟨_, h3.symm, by omega, by omega⟩

/-- The token sequence from a position on has no more tokens than bytes are
left. -/
theorem tokensLoop_length (i : List Nat) :
    ∀ n pos, (tokensLoop n (lexerAt i pos)).length ≤ i.length - pos := by
  intro n
  induction n with
  | zero => intro pos; simp [tokensLoop]
  | succ n ih =>
    intro pos
    rcases hg : GetNextToken (lexerAt i pos) with ⟨tok, _ | e, lex1⟩
    · by_cases hk : tok.TokenType = Kind.EOF
      · simp [tokensLoop, hg, hk]
      · obtain ⟨pos1, rfl, h1, h2⟩ := GetNextToken_advances i pos hg hk
        simp only [tokensLoop, hg, hk, if_false, List.length_cons]
        have := ih pos1
        omega
    · simp [tokensLoop, hg]

theorem tokens_length (input : List Nat) : (tokens input).length ≤ input.length := by
  unfold tokens
  rw [NewLexer_eq]
  exact tokensLoop_length input _ 0

/-- The fuel of `Parse` is enough: more fuel gives the same result. -/
theorem Expr_parseFuel (input : List Nat) (n : Nat)
    (h : parseFuel (NewParser (NewLexer input)).1 ≤ n) :
    (∃ r, Expr (parseFuel (NewParser (NewLexer input)).1) (NewParser (NewLexer input)).1 = some r)
      ∧ Expr n (NewParser (NewLexer input)).1
        = Expr (parseFuel (NewParser (NewLexer input)).1) (NewParser (NewLexer input)).1 := by
  have := remaining_le (NewParser (NewLexer input)).1
  obtain ⟨r, hr⟩ := (total_all (parseFuel (NewParser (NewLexer input)).1)).2.2.2.1
    (NewParser (NewLexer input)).1 (NewParser_WF input) (by unfold parseFuel; omega)
  exact ⟨⟨r, hr⟩, by rw [hr]; exact Expr_fuel_le h hr⟩

/-! ## The nodes of a successful parse -/

theorem NewNumberLiteral_closed {tok : Token} {node : ASTNode}
    (h : NewNumberLiteral tok = .ok node) : closedNode node = true := by
  unfold NewNumberLiteral at h
  split at h
  · cases h; rfl
  · cases h

theorem closedNode_unary {tok : Token} {child : ASTNode}
    (hk : tok.TokenType = Kind.PLUS ∨ tok.TokenType = Kind.MINUS)
    (hc : closedNode child = true) : closedNode (NewUnaryOperation tok child) = true := by
  rcases hk with hk | hk <;> simp [NewUnaryOperation, closedNode, addOp, hk, hc]

theorem closedNode_binary {tok : Token} {l r : ASTNode}
    (hk : isOperator tok.TokenType = true)
    (hl : closedNode l = true) (hr : closedNode r = true) :
    closedNode (NewBinaryOperation l r tok) = true := by
  simp [NewBinaryOperation, closedNode, hk, hl, hr]

/-- A node returned without error holds nodes of the closed set only. -/
theorem closed_all (n : Nat) :
    (∀ p node p', Factor n p = some (node, none, p') → closedNode node = true) ∧
    (∀ p node p', Term n p = some (node, none, p') → closedNode node = true) ∧
    (∀ l p node p', closedNode l = true → TermLoop n l p = some (node, none, p') →
      closedNode node = true) ∧
    (∀ p node p', Expr n p = some (node, none, p') → closedNode node = true) ∧
    (∀ l p node p', closedNode l = true → ExprLoop n l p = some (node, none, p') →
      closedNode node = true) := by
  induction n with
  | zero =>
    simp [Factor_zero, Term_zero, TermLoop_zero, Expr_zero, ExprLoop_zero]
  | succ n ih =>
    obtain ⟨hF, hT, hTL, hE, hEL⟩ := ih
    refine ⟨?_, ?_, ?_, ?_, ?_⟩
    · intro p node p' h
      rw [Factor_succ] at h
      rcases FactorBody_ok h with ⟨hk, p1, child, _, hf, rfl⟩ | ⟨hk, p1, child, _, hf, rfl⟩
        | ⟨_, _, hn⟩ | ⟨_, p1, p2, _, he, _⟩
      · exact closedNode_unary (Or.inl hk) (hF _ _ _ hf)
      · exact closedNode_unary (Or.inr hk) (hF _ _ _ hf)
      · exact NewNumberLiteral_closed hn
      · exact hE _ _ _ he
    · intro p node p' h
      rw [Term_succ] at h
      obtain ⟨l, p1, h1, h2⟩ := TermBody_ok h
      exact hTL _ _ _ _ (hF _ _ _ h1) h2
    · intro l p node p' hl h
      rw [TermLoop_succ] at h
      rcases TermLoopBody_ok h with ⟨_, _, rfl, _⟩ | ⟨p1, right, p2, hk, _, hf, hL⟩
      · exact hl
      · refine hTL _ _ _ _ (closedNode_binary ?_ hl (hF _ _ _ hf)) hL
        rcases hk with hk | hk <;> rw [hk] <;> rfl
    · intro p node p' h
      rw [Expr_succ] at h
      obtain ⟨l, p1, h1, h2⟩ := ExprBody_ok h
      exact hEL _ _ _ _ (hT _ _ _ h1) h2
    · intro l p node p' hl h
      rw [ExprLoop_succ] at h
      rcases ExprLoopBody_ok h with ⟨_, _, rfl, _⟩ | ⟨p1, right, p2, hk, _, hf, hL⟩
      · exact hl
      · refine hEL _ _ _ _ (closedNode_binary ?_ hl (hT _ _ _ hf)) hL
        rcases hk with hk | hk <;> rw [hk] <;> rfl

theorem Parse_closed {p p' : Parser} {node : ASTNode} (h : Parse p = some (node, none, p')) :
    closedNode node = true :=
  (closed_all _).2.2.2.1 _ _ _ (Parse_ok h).1

/-- On a node of the closed set, `Accept` returns an integer with a nil
error, or the error of a division by zero. -/
theorem Accept_closed (w : Nat) (node : ASTNode) (h : closedNode node = true) :
    (∃ v, Accept w node = (Iface.int v, none))
      ∨ (∃ x, Accept w node = (x, some Error.divisionByZero)) := by
  induction node with
  | BinaryOperation l op r ihl ihr =>
    simp only [closedNode, Bool.and_eq_true] at h
    obtain ⟨⟨hk, hl⟩, hr⟩ := h
    rcases ihl hl with ⟨a, ha⟩ | ⟨x, ha⟩
    · rcases ihr hr with ⟨b, hb⟩ | ⟨y, hb⟩
      · simp only [Accept, ha, hb, VisitBinaryOperation]
        revert hk
        cases op.TokenType <;> simp [isOperator]
        by_cases h0 : b = 0 <;> simp [h0]
      · exact Or.inr ⟨Iface.nil, by simp only [Accept, ha, hb, VisitBinaryOperation]⟩
    · exact Or.inr ⟨Iface.int 0, by simp only [Accept, ha, VisitBinaryOperation]⟩
  | UnaryOperation op e ih =>
    simp only [closedNode, Bool.and_eq_true] at h
    obtain ⟨hk, he⟩ := h
    rcases ih he with ⟨a, ha⟩ | ⟨x, ha⟩
    · simp only [Accept, ha, VisitUnaryOperation]
      revert hk
      cases op.TokenType <;> simp [addOp]
    · exact Or.inr ⟨Iface.int 0, by simp only [Accept, ha, VisitUnaryOperation]⟩
  | NumberLiteral tok v => exact Or.inl ⟨v, rfl⟩
  | ErrorNode e => simp [closedNode] at h

/-- After a successful parse `Interpret` returns an integer or the error of a
division by zero. -/
theorem Interpret_closed (w : Nat) {p p' : Parser} {node : ASTNode}
    (h : Parse p = some (node, none, p')) :
    (∃ v, Interpret w (NewInterpreter p) = some (v, none) ∧ Accept w node = (Iface.int v, none))
      ∨ (Interpret w (NewInterpreter p) = some (0, some Error.divisionByZero)
        ∧ ∃ x, Accept w node = (x, some Error.divisionByZero)) := by
  rcases Accept_closed w node (Parse_closed h) with ⟨v, hv⟩ | ⟨x, hx⟩
  · exact Or.inl ⟨v, by simp [Interpret, NewInterpreter, h, hv], hv⟩
  · exact Or.inr ⟨by simp [Interpret, NewInterpreter, h, hx], x, hx⟩

/-! ## Integer literals, from any lexer state -/

theorem GetNextChar_any (lex : Lexer) :
    GetNextChar lex = lexerAt lex.Input (lex.Position + 1) := by
  have h : GetNextChar lex = GetNextChar (lexerAt lex.Input lex.Position) := rfl
  rw [h, GetNextChar_lexerAt]

theorem digitRun_digits (lex : Lexer) (h : isDigit lex.CurrentChar = true) :
    ∀ c ∈ digitRun lex, isDigit c = true := by
  intro c hc
  simp only [digitRun, List.mem_cons] at hc
  rcases hc with rfl | hc
  · exact h
  · exact List.mem_takeWhile_imp hc

/-- In a state reached from `NewLexer`, the run `Integer` reads is the maximal
run of digits at the cursor. -/
theorem digitRun_lexerAt (i : List Nat) (pos : Nat)
    (h : isDigit (lexerAt i pos).CurrentChar = true) :
    digitRun (lexerAt i pos) = (i.drop pos).takeWhile isDigit := by
  rcases drop_cases i pos with ⟨_, _, h3⟩ | ⟨c, r, h1, _, h3, h4⟩
  · rw [h3] at h; exact absurd h (by decide)
  · rw [h3] at h
    simp only [digitRun, h3, h1, List.takeWhile_cons, h, if_true]
    show c :: List.takeWhile isDigit (List.drop (pos + 1) i) = _
    rw [h4]

/-- The loop of `Integer` from a digit: the run of digits, and the cursor
behind it. -/
theorem IntegerLoop_digit (lex : Lexer) (h : isDigit lex.CurrentChar = true) :
    IntegerLoop (lex.Input.length - lex.Position + 1) [] lex
      = (digitRun lex, lexerAt lex.Input (lex.Position + (digitRun lex).length)) := by
  have h0 := isDigit_ne_zero h
  have e1 : IntegerLoop (lex.Input.length - lex.Position + 1) [] lex
      = IntegerLoop (lex.Input.length - lex.Position) [lex.CurrentChar]
          (lexerAt lex.Input (lex.Position + 1)) := by
    simp [IntegerLoop, h, h0, GetNextChar_any]
  rw [e1]
  by_cases hp : lex.Position < lex.Input.length
  · have hlen := takeWhile_length_le_drop lex.Input (lex.Position + 1) isDigit
    rw [IntegerLoop_lexerAt lex.Input _ _ _ (by omega)]
    simp only [digitRun, List.singleton_append, List.length_cons]
    rw [Nat.add_assoc, Nat.add_comm 1]
  · have hz : lex.Input.length - lex.Position = 0 := by omega
    have hd : List.drop (lex.Position + 1) lex.Input = [] :=
      List.drop_eq_nil_of_le (by omega)
    rw [hz]
    simp [IntegerLoop, digitRun, hd]

theorem ParseInt32_digits (ds : List Nat) (hne : ds ≠ []) (hd : ∀ c ∈ ds, isDigit c = true) :
    ParseInt32 ds = if digitsValue ds ≤ 2147483647 then .ok (digitsValue ds : Int)
      else .error Error.integerRange := by
  have e1 : ds.isEmpty = false := by cases ds <;> simp at hne ⊢
  have e2 : ds.all isDigit = true := by simpa using hd
  unfold ParseInt32
  simp only [e1, e2, Bool.not_true, Bool.or_self, Bool.false_eq_true, if_false]
  by_cases hv : digitsValue ds ≤ 2147483647
  · rw [if_neg (by omega), if_pos hv]
  · rw [if_pos (by omega), if_neg hv]

/-- From any lexer state whose current character is a digit, `GetNextToken`
returns the INTEGER token of the value of the run of digits, or the range
error, and leaves the cursor behind the run. -/
theorem GetNextToken_digit (lex : Lexer) (h : isDigit lex.CurrentChar = true) :
    GetNextToken lex
      = if digitsValue (digitRun lex) ≤ 2147483647 then
          (NewToken Kind.INTEGER (Iface.int (digitsValue (digitRun lex))), none,
            lexerAt lex.Input (lex.Position + (digitRun lex).length))
        else (NewToken Kind.NONE (Iface.int 0), some Error.integerRange,
            lexerAt lex.Input (lex.Position + (digitRun lex).length)) := by
  have h0 := isDigit_ne_zero h
  have hs := isDigit_not_isSpace h
  have hI : Integer lex
      = (match ParseInt32 (digitRun lex) with
          | .error e => (0, some e, lexerAt lex.Input (lex.Position + (digitRun lex).length))
          | .ok v => (v, none, lexerAt lex.Input (lex.Position + (digitRun lex).length))) := by
    unfold Integer
    simp only [IntegerLoop_digit lex h]
    try (cases ParseInt32 (digitRun lex) <;> rfl)
  have hP := ParseInt32_digits (digitRun lex) (by simp [digitRun]) (digitRun_digits lex h)
  unfold GetNextToken
  simp only [GetNextTokenLoop, ne_eq, h0, not_false_eq_true, if_true, hs, Bool.false_eq_true,
    if_false, h, hI, hP]
  by_cases hv : digitsValue (digitRun lex) ≤ 2147483647
  · simp only [if_pos hv]
  · simp only [if_neg hv]

/-- The cursor behind the run of digits is on no digit. -/
theorem after_digitRun (lex : Lexer) :
    isDigit (lexerAt lex.Input (lex.Position + (digitRun lex).length)).CurrentChar = false := by
  rw [lexerAt_CurrentChar]
  have e : lex.Position + (digitRun lex).length
      = (lex.Position + 1)
        + ((lex.Input.drop (lex.Position + 1)).takeWhile isDigit).length := by
    simp only [digitRun, List.length_cons]; omega
  rw [e, ← List.drop_drop, drop_takeWhile_length]
  cases hd : List.dropWhile isDigit (List.drop (lex.Position + 1) lex.Input) with
  | nil => rfl
  | cons c t => exact dropWhile_head_not _ _ _ _ hd

/-- An INTEGER token carries the value of a run of digits: a natural number,
no sign. -/
theorem GetNextToken_INTEGER (lex : Lexer)
    (h : (GetNextToken lex).1.TokenType = Kind.INTEGER) :
    ∃ v : Nat, (GetNextToken lex).1.Value = Iface.int (v : Int) := by
  have one : ∀ l : Lexer, isSpace l.CurrentChar = false →
      (GetNextTokenLoop 1 l).1.TokenType = Kind.INTEGER →
      ∃ v : Nat, (GetNextTokenLoop 1 l).1.Value = Iface.int (v : Int) := by
    intro l hs hk
    by_cases hd : isDigit l.CurrentChar = true
    · have hg := GetNextToken_digit l hd
      unfold GetNextToken at hg
      rw [GetNextTokenLoop_one 1 l hs] at hg
      rw [hg] at hk ⊢
      split_ifs at hk ⊢
      · exact ⟨_, rfl⟩
      · simp [NewToken] at hk
    · by_cases h0 : l.CurrentChar = 0
      · rw [GetNextTokenLoop_one_zero l h0] at hk; simp [NewToken] at hk
      · simp only [Bool.not_eq_true] at hd
        simp only [GetNextTokenLoop, ne_eq, h0, not_false_eq_true, if_true, hs,
          Bool.false_eq_true, if_false, hd] at hk
        split_ifs at hk <;> simp [NewToken] at hk
  unfold GetNextToken at h ⊢
  by_cases hsp : isSpace lex.CurrentChar = true
  · have h0 := isSpace_ne_zero hsp
    have e2 : GetNextTokenLoop 2 lex = GetNextTokenLoop 1 (SkipWhiteSpace lex) := by
      simp [GetNextTokenLoop, hsp, h0]
    rw [e2] at h ⊢
    exact one _ (SkipWhiteSpace_exit lex) h
  · simp only [Bool.not_eq_true] at hsp
    rw [GetNextTokenLoop_one 1 lex hsp] at h ⊢
    exact one _ hsp h

/-! ## The cursor stays in the input, and stops at a zero byte -/

/-- The cursor never moves beyond the bytes that are left, error or not. -/
theorem lexSpec_advance_le (r : List Nat) : (lexSpec r).2.2 ≤ r.length := by
  have hlen : r.length = (r.takeWhile isSpace).length + (r.dropWhile isSpace).length := by
    have := congrArg List.length (List.takeWhile_append_dropWhile isSpace r)
    rw [List.length_append] at this
    exact this.symm
  unfold lexSpec
  simp only
  cases hd : r.dropWhile isSpace with
  | nil => simp only; omega
  | cons c t =>
    rw [hd] at hlen
    simp only [List.length_cons] at hlen
    have hdig : ((c :: t).takeWhile isDigit).length ≤ t.length + 1 := by
      have := (List.takeWhile_prefix isDigit (l := c :: t)).length_le
      simpa using this
    simp only
    split_ifs
    all_goals first
      | (simp only; omega)
      | (cases ParseInt32 (List.takeWhile isDigit (c :: t)) <;> simp only <;> omega)

theorem takeWhile_append_zero (f : Nat → Bool) (hf : f 0 = false) (r t : List Nat) :
    (r ++ 0 :: t).takeWhile f = r.takeWhile f := by
  induction r with
  | nil => simp [List.takeWhile_cons, hf]
  | cons c r ih =>
    by_cases hc : f c = true
    · simp [List.takeWhile_cons, hc, ih]
    · simp [List.takeWhile_cons, hc]

theorem dropWhile_append_zero (f : Nat → Bool) (hf : f 0 = false) (r t : List Nat) :
    (r ++ 0 :: t).dropWhile f = r.dropWhile f ++ 0 :: t := by
  induction r with
  | nil => simp [List.dropWhile_cons, hf]
  | cons c r ih =>
    by_cases hc : f c = true
    · simp [List.dropWhile_cons, hc, ih]
    · simp [List.dropWhile_cons, hc]

/-- What follows a zero byte makes no difference to the token read. -/
theorem lexSpec_append_zero (r t : List Nat) : lexSpec (r ++ 0 :: t) = lexSpec r := by
  unfold lexSpec
  simp only [takeWhile_append_zero isSpace isSpace_zero, dropWhile_append_zero isSpace isSpace_zero]
  cases hd : r.dropWhile isSpace with
  | nil => simp
  | cons c rest =>
    have e := takeWhile_append_zero isDigit isDigit_zero (c :: rest) t
    simp only [List.cons_append] at e ⊢
    rw [e]

theorem drop_append_zero (s t : List Nat) (pos : Nat) (h : pos ≤ s.length) :
    (s ++ 0 :: t).drop pos = s.drop pos ++ 0 :: t :=
  List.drop_append_of_le_length h

theorem GetNextToken_append_zero (s t : List Nat) (pos : Nat) (h : pos ≤ s.length) :
    GetNextToken (lexerAt (s ++ 0 :: t) pos)
      = ((lexSpec (s.drop pos)).1, (lexSpec (s.drop pos)).2.1,
          lexerAt (s ++ 0 :: t) (pos + (lexSpec (s.drop pos)).2.2))
      ∧ pos + (lexSpec (s.drop pos)).2.2 ≤ s.length := by
  rw [GetNextToken_lexerAt, drop_append_zero s t pos h, lexSpec_append_zero]
  have := lexSpec_advance_le (s.drop pos)
  simp only [List.length_drop] at this
  exact ⟨rfl, by omega⟩

/-- The lexer on `s`, a zero byte and `t` returns what the lexer on `s`
returns, call after call. -/
theorem tokenStream_append_zero (s t : List Nat) :
    ∀ n pos, pos ≤ s.length →
      tokenStream n (lexerAt (s ++ 0 :: t) pos) = tokenStream n (lexerAt s pos) := by
  intro n
  induction n with
  | zero => intro pos _; rfl
  | succ n ih =>
    intro pos h
    obtain ⟨g, hle⟩ := GetNextToken_append_zero s t pos h
    simp only [tokenStream, g, GetNextToken_lexerAt s pos]
    cases (lexSpec (s.drop pos)).2.1 with
    | some e => rfl
    | none =>
      simp only
      split_ifs
      · rfl
      · rw [ih _ hle]

theorem tokensLoop_append_zero (s t : List Nat) :
    ∀ n pos, pos ≤ s.length →
      tokensLoop n (lexerAt (s ++ 0 :: t) pos) = tokensLoop n (lexerAt s pos) := by
  intro n
  induction n with
  | zero => intro pos _; rfl
  | succ n ih =>
    intro pos h
    obtain ⟨g, hle⟩ := GetNextToken_append_zero s t pos h
    simp only [tokensLoop, g, GetNextToken_lexerAt s pos]
    cases (lexSpec (s.drop pos)).2.1 with
    | some e => rfl
    | none =>
      simp only
      split_ifs
      · rfl
      · rw [ih _ hle]

theorem tokens_append_zero (s t : List Nat) : tokens (s ++ 0 :: t) = tokens s := by
  have h1 : tokens (s ++ 0 :: t) = tokensLoop ((s ++ 0 :: t).length + 1) (lexerAt s 0) := by
    unfold tokens
    rw [NewLexer_eq, tokensLoop_append_zero s t _ 0 (Nat.zero_le _)]
  rw [h1, ← NewLexer_eq]
  exact tokensLoop_fuel s _ (by simp)

theorem sameTokens_append_zero (s t : List Nat) :
    sameTokens (NewLexer (s ++ 0 :: t)) (NewLexer s) := by
  intro n
  rw [NewLexer_eq, NewLexer_eq]
  exact tokenStream_append_zero s t n 0 (Nat.zero_le _)

/-- The lexer after any calls of `GetNextToken`: its invariant. -/
theorem afterCalls_lexerAt (i : List Nat) :
    ∀ n pos, pos ≤ i.length →
      ∃ pos1, afterCalls n (lexerAt i pos) = lexerAt i pos1 ∧ pos ≤ pos1 ∧ pos1 ≤ i.length := by
  intro n
  induction n with
  | zero => intro pos h; exact ⟨pos, rfl, le_refl _, h⟩
  | succ n ih =>
    intro pos h
    have hadv := lexSpec_advance_le (i.drop pos)
    simp only [List.length_drop] at hadv
    obtain ⟨pos1, h1, h2, h3⟩ := ih (pos + (lexSpec (i.drop pos)).2.2) (by omega)
    refine ⟨pos1, ?_, by omega, h3⟩
    rw [afterCalls_succ, GetNextToken_lexerAt]
    exact h1

/-- The cursor never passes a zero byte. -/
theorem afterCalls_append_zero (s t : List Nat) :
    ∀ n pos, pos ≤ s.length →
      ∃ pos1, afterCalls n (lexerAt (s ++ 0 :: t) pos) = lexerAt (s ++ 0 :: t) pos1
        ∧ pos ≤ pos1 ∧ pos1 ≤ s.length := by
  intro n
  induction n with
  | zero => intro pos h; exact ⟨pos, rfl, le_refl _, h⟩
  | succ n ih =>
    intro pos h
    obtain ⟨g, hle⟩ := GetNextToken_append_zero s t pos h
    obtain ⟨pos1, h1, h2, h3⟩ := ih _ hle
    refine ⟨pos1, ?_, by omega, h3⟩
    rw [afterCalls_succ, g]
    exact h1

theorem afterCalls_comm (n : Nat) :
    ∀ lex, afterCalls (n + 1) lex = (GetNextToken (afterCalls n lex)).2.2 := by
  induction n with
  | zero => intro lex; rfl
  | succ n ih =>
    intro lex
    rw [afterCalls_succ, ih, afterCalls_succ]

/-! ## Wrapping arithmetic -/

/-- What `wrapInt` returns is in the native range and differs from its
argument by a multiple of `2 ^ w`. -/
theorem wrapInt_spec {w : Nat} (hw : 0 < w) (x : Int) :
    fits w (wrapInt w x) ∧ ((2 : Int) ^ w) ∣ (x - wrapInt w x) := by
  unfold wrapInt fits
  obtain ⟨k, rfl⟩ : ∃ k, w = k + 1 := ⟨w - 1, by omega⟩
  simp only [Nat.add_sub_cancel]
  have hm : ((2 ^ (k + 1) : Nat) : Int) = 2 * (2 : Int) ^ k := by push_cast; ring
  have hpos : (0 : Nat) < 2 ^ (k + 1) := by positivity
  have h1 := Int.le_bmod (x := x) hpos
  have h2 := Int.bmod_lt (x := x) hpos
  have h3 := Int.bmod_emod (x := x) (m := 2 ^ (k + 1))
  rw [hm] at h1 h2 h3
  have hp : (0 : Int) < 2 ^ k := by positivity
  have e1 : 2 * (2 : Int) ^ k / 2 = 2 ^ k := by omega
  have e2 : (2 * (2 : Int) ^ k + 1) / 2 = 2 ^ k := by omega
  rw [e1] at h1
  rw [e2] at h2
  refine ⟨⟨h1, h2⟩, ?_⟩
  have e3 : (2 : Int) ^ (k + 1) = 2 * 2 ^ k := by ring
  rw [e3]
  exact Int.dvd_of_emod_eq_zero (by
    have := Int.emod_emod_of_dvd x (dvd_refl (2 * (2 : Int) ^ k))
    rw [Int.sub_emod, h3, Int.sub_self, Int.zero_emod])

theorem wrapInt_neg_min {w : Nat} (hw : 0 < w) :
    wrapInt w (-(-(2 ^ (w - 1) : Int))) = -(2 ^ (w - 1) : Int) := by
  rw [neg_neg]
  exact wrapInt_half hw

/-- What `VisitUnaryOperation` returns on a node of which the child evaluates
to an integer. -/
theorem Accept_unary (w : Nat) (e : ASTNode) (op : Token) (a : Int)
    (he : Accept w e = (Iface.int a, none)) :
    (op.TokenType = Kind.PLUS → Accept w (ASTNode.UnaryOperation op e) = (Iface.int a, none)) ∧
    (op.TokenType = Kind.MINUS →
      Accept w (ASTNode.UnaryOperation op e) = (Iface.int (wrapInt w (-a)), none)) := by
  constructor <;> intro hk <;> simp only [Accept, he, VisitUnaryOperation, hk]

/-- What `VisitBinaryOperation` returns on a PLUS, MINUS or MUL node of which
both children evaluate to integers. -/
theorem Accept_arith (w : Nat) (l r : ASTNode) (op : Token) (a b : Int)
    (hl : Accept w l = (Iface.int a, none)) (hr : Accept w r = (Iface.int b, none)) :
    (op.TokenType = Kind.PLUS →
      Accept w (ASTNode.BinaryOperation l op r) = (Iface.int (wrapInt w (a + b)), none)) ∧
    (op.TokenType = Kind.MINUS →
      Accept w (ASTNode.BinaryOperation l op r) = (Iface.int (wrapInt w (a - b)), none)) ∧
    (op.TokenType = Kind.MUL →
      Accept w (ASTNode.BinaryOperation l op r) = (Iface.int (wrapInt w (a * b)), none)) := by
  refine ⟨?_, ?_, ?_⟩ <;> intro hk <;> simp only [Accept, hl, hr, VisitBinaryOperation, hk]

/-! ## The claims -/

/-- C3 fails in the code at the input `"1\x00("`, which has one opening and
no closing parenthesis: `Parse` returns a nil error and `Interpret` the value
1.  The lexer takes the zero byte of the input for its end-of-input sentinel
and returns EOF with a nil error, though a zero byte is no character of the
alphabet; the parenthesis after it is never read. -/
theorem C3_counterexample :
    List.count 40 [49, 0, 40] ≠ List.count 41 [49, 0, 40] ∧
    (Parse (NewParser (NewLexer [49, 0, 40])).1).map (fun r => r.2.1) = some none ∧
    Calculate 64 [49, 0, 40] = some (1, none) := by
  decide!

/-- C3 where the code meets it: on every input without a zero byte, and for
any input on its part before the first zero byte (the whole input when it
holds none).  If in that part the number of '(' differs from the number of
')', or some prefix of that part holds more ')' than '(', then `Parse` returns
a non-nil error, and so does `Interpret`. -/
theorem C3_unbalanced_parentheses_fail (w : Nat) (input : List Nat)
    (h : (beforeZero input).count 40 ≠ (beforeZero input).count 41 ∨
      ∃ q, ((beforeZero input).take q).count 40 < ((beforeZero input).take q).count 41) :
    (∃ node e p', Parse (NewParser (NewLexer input)).1 = some (node, some e, p')) ∧
    (∃ e, Calculate w input = some (0, some e)) ∧
    ((∀ b ∈ input, b ≠ 0) → beforeZero input = input) := by
  have hz : (∀ b ∈ input, b ≠ 0) → beforeZero input = input := by
    intro hb
    unfold beforeZero
    rw [List.takeWhile_eq_self_iff]
    intro b hmem
    simpa using hb b hmem
  obtain ⟨node, e, p', hp⟩ := Parse_NewParser_returns input
  cases e with
  | none =>
    exfalso
    obtain ⟨h1, h2⟩ := Parse_ok_balanced input hp
    rcases h with h | ⟨q, hq⟩
    · exact h h1
    · have := h2 q; omega
  | some e => exact ⟨⟨node, e, p', hp⟩, ⟨e, Calculate_of_Parse_error w input hp⟩, hz⟩

/-- C3 at the input `"(2 + 3"` of the specification, which holds no zero byte:
an opening parenthesis that is never closed. -/
theorem C3_witness :
    ((beforeZero (bytes "(2 + 3")).count 40 ≠ (beforeZero (bytes "(2 + 3")).count 41 ∧
      beforeZero (bytes "(2 + 3") = bytes "(2 + 3") ∧
    (∃ node e p', Parse (NewParser (NewLexer (bytes "(2 + 3"))).1 = some (node, some e, p')) ∧
    ∃ e, Calculate 64 (bytes "(2 + 3") = some (0, some e) := by
  have h : (beforeZero (bytes "(2 + 3")).count 40 ≠ (beforeZero (bytes "(2 + 3")).count 41 := by
    decide!
  have hc := C3_unbalanced_parentheses_fail 64 (bytes "(2 + 3") (Or.inl h)
  exact ⟨⟨h, hc.2.2 (by decide)⟩, hc.1, hc.2.1⟩

/-- C4: for every input whose token sequence (the tokens `GetNextToken` returns
in turn, up to any length `n`) holds two INTEGER tokens with no operator token
between them, `Interpret` returns a non-nil error, whatever the whitespace. -/
theorem C4_adjacent_integers_fail (w : Nat) (input : List Nat) (n : Nat)
    (h : adjacentIntegers (tokensLoop n (NewLexer input))) :
    ∃ e, Calculate w input = some (0, some e) := by
  obtain ⟨node, e, p', hp⟩ := Parse_NewParser_returns input
  cases e with
  | none => exact absurd hp (Parse_adjacentIntegers input n h)
  | some e => exact ⟨e, Calculate_of_Parse_error w input hp⟩

/-- C4 at the inputs `"1 1"` and `"1 1 "` of the tests. -/
theorem C4_witness :
    (adjacentIntegers (tokensLoop 2 (NewLexer (bytes "1 1")))
      ∧ ∃ e, Calculate 64 (bytes "1 1") = some (0, some e)) ∧
    (adjacentIntegers (tokensLoop 2 (NewLexer (bytes "1 1 ")))
      ∧ ∃ e, Calculate 64 (bytes "1 1 ") = some (0, some e)) := by
  have h1 : adjacentIntegers (tokensLoop 2 (NewLexer (bytes "1 1"))) :=
    ⟨[], NewToken Kind.INTEGER (Iface.int 1), [], NewToken Kind.INTEGER (Iface.int 1), [],
      by decide!, rfl, rfl, by simp⟩
  have h2 : adjacentIntegers (tokensLoop 2 (NewLexer (bytes "1 1 "))) :=
    ⟨[], NewToken Kind.INTEGER (Iface.int 1), [], NewToken Kind.INTEGER (Iface.int 1), [],
      by decide!, rfl, rfl, by simp⟩
  exact ⟨⟨h1, C4_adjacent_integers_fail 64 _ 2 h1⟩, ⟨h2, C4_adjacent_integers_fail 64 _ 2 h2⟩⟩

/-- C1: for every input string derived from the grammar (a well-formed
derivation `e`, with whitespace between the tokens and at the end), in which
every literal is at most 2147483647, no division has a zero divisor and no
result of an operation leaves the range of the native `int` (of `w` bits,
`w` at least 32), `NewParser` and `Interpret` return a nil error and the value
of the expression under the standard integer rules. -/
theorem C1_valid_input_evaluates (w : Nat) (hw : 32 ≤ w) (e : Tree Level.expr)
    (wsEnd : List Nat) (hwf : wellFormed e) (hs : allSpace wsEnd) (hz : noZeroDivisor e)
    (hr : inRange w e) :
    (NewParser (NewLexer (render e ++ wsEnd))).2 = none ∧
    Calculate w (render e ++ wsEnd) = some (value e, none) :=
  ⟨NewParser_render_error e wsEnd hwf hs, Calculate_render w hw e wsEnd hwf hs hz hr⟩

/-- C1 at the input `"2 * (16 -8) / 2 - 1"` of the tests, whose value is 7. -/
theorem C1_witness :
    (32 ≤ 64 ∧ wellFormed exampleTree ∧ allSpace [] ∧ noZeroDivisor exampleTree
      ∧ inRange 64 exampleTree) ∧
    render exampleTree ++ [] = bytes "2 * (16 -8) / 2 - 1" ∧ value exampleTree = 7 ∧
    (NewParser (NewLexer (render exampleTree ++ []))).2 = none ∧
    Calculate 64 (render exampleTree ++ []) = some (value exampleTree, none) := by
  have h1 : wellFormed exampleTree := by
    simp [exampleTree, wellFormed, allSpace, isLiteral, isSpace, isDigit, digitsValue]
  have h2 : allSpace [] := by simp [allSpace]
  have h3 : noZeroDivisor exampleTree := by
    simp [exampleTree, noZeroDivisor, value, digitsValue]
  have h4 : inRange 64 exampleTree := by
    simp [exampleTree, inRange, fits, value, digitsValue]
    decide
  exact ⟨⟨by decide, h1, h2, h3, h4⟩, by decide!, by decide!,
    C1_valid_input_evaluates 64 (by decide) exampleTree [] h1 h2 h3 h4⟩

/-- C5: for all literals `a`, `b`, `c` (each at most 2147483647), `Parse` of
`"a + b * c"` returns Binary(PLUS, a, Binary(MUL, b, c)), `Parse` of
`"a * b + c"` returns Binary(PLUS, Binary(MUL, a, b), c), and `Parse` of
`"- a * b"` returns Binary(MUL, Unary(MINUS, a), b); the same with MINUS for
PLUS (`minus`) and DIV for MUL (`divide`).  Hence `"2 + 3 * 4"` evaluates to
14 and `"28 - 16 * 2 + 3"` to -1. -/
theorem C5_precedence (a b c : List Nat) (ha : isLiteral a) (hb : isLiteral b)
    (hc : isLiteral c) (minus divide : Bool) :
    (∃ p', Parse (NewParser (NewLexer
        (a ++ [32, addChar minus, 32] ++ b ++ [32, mulChar divide, 32] ++ c))).1
      = some (NewBinaryOperation (litNode a)
          (NewBinaryOperation (litNode b) (litNode c) (mulToken divide)) (addToken minus),
          none, p')) ∧
    (∃ p', Parse (NewParser (NewLexer
        (a ++ [32, mulChar divide, 32] ++ b ++ [32, addChar minus, 32] ++ c))).1
      = some (NewBinaryOperation
          (NewBinaryOperation (litNode a) (litNode b) (mulToken divide)) (litNode c)
          (addToken minus), none, p')) ∧
    (∃ p', Parse (NewParser (NewLexer ([45, 32] ++ a ++ [32, mulChar divide, 32] ++ b))).1
      = some (NewBinaryOperation
          (NewUnaryOperation (NewToken Kind.MINUS (Iface.rune 45)) (litNode a)) (litNode b)
          (mulToken divide), none, p')) ∧
    Calculate 64 (bytes "2 + 3 * 4") = some (14, none) ∧
    Calculate 64 (bytes "28 - 16 * 2 + 3") = some (-1, none) := by
  have hs := allSpace_blank
  have hn := allSpace_nil
  refine ⟨?_, ?_, ?_, by decide!, by decide!⟩
  · cases minus <;> cases divide
    · have := Parse_render (Tree.add (Tree.term (Tree.factor (Tree.int [] a))) [32]
        (Tree.mul (Tree.factor (Tree.int [32] b)) [32] (Tree.int [32] c))) []
        ⟨⟨hn, ha⟩, hs, ⟨hs, hb⟩, hs, hs, hc⟩ hn
      exact ⟨_, by simpa [render, toAST, addChar, mulChar, addToken, mulToken, litNode,
        NewBinaryOperation] using this⟩
    · have := Parse_render (Tree.add (Tree.term (Tree.factor (Tree.int [] a))) [32]
        (Tree.div (Tree.factor (Tree.int [32] b)) [32] (Tree.int [32] c))) []
        ⟨⟨hn, ha⟩, hs, ⟨hs, hb⟩, hs, hs, hc⟩ hn
      exact ⟨_, by simpa [render, toAST, addChar, mulChar, addToken, mulToken, litNode,
        NewBinaryOperation] using this⟩
    · have := Parse_render (Tree.sub (Tree.term (Tree.factor (Tree.int [] a))) [32]
        (Tree.mul (Tree.factor (Tree.int [32] b)) [32] (Tree.int [32] c))) []
        ⟨⟨hn, ha⟩, hs, ⟨hs, hb⟩, hs, hs, hc⟩ hn
      exact ⟨_, by simpa [render, toAST, addChar, mulChar, addToken, mulToken, litNode,
        NewBinaryOperation] using this⟩
    · have := Parse_render (Tree.sub (Tree.term (Tree.factor (Tree.int [] a))) [32]
        (Tree.div (Tree.factor (Tree.int [32] b)) [32] (Tree.int [32] c))) []
        ⟨⟨hn, ha⟩, hs, ⟨hs, hb⟩, hs, hs, hc⟩ hn
      exact ⟨_, by simpa [render, toAST, addChar, mulChar, addToken, mulToken, litNode,
        NewBinaryOperation] using this⟩
  · cases minus <;> cases divide
    · have := Parse_render (Tree.add (Tree.term (Tree.mul (Tree.factor (Tree.int [] a)) [32]
        (Tree.int [32] b))) [32] (Tree.factor (Tree.int [32] c))) []
        ⟨⟨⟨hn, ha⟩, hs, hs, hb⟩, hs, hs, hc⟩ hn
      exact ⟨_, by simpa [render, toAST, addChar, mulChar, addToken, mulToken, litNode,
        NewBinaryOperation] using this⟩
    · have := Parse_render (Tree.add (Tree.term (Tree.div (Tree.factor (Tree.int [] a)) [32]
        (Tree.int [32] b))) [32] (Tree.factor (Tree.int [32] c))) []
        ⟨⟨⟨hn, ha⟩, hs, hs, hb⟩, hs, hs, hc⟩ hn
      exact ⟨_, by simpa [render, toAST, addChar, mulChar, addToken, mulToken, litNode,
        NewBinaryOperation] using this⟩
    · have := Parse_render (Tree.sub (Tree.term (Tree.mul (Tree.factor (Tree.int [] a)) [32]
        (Tree.int [32] b))) [32] (Tree.factor (Tree.int [32] c))) []
        ⟨⟨⟨hn, ha⟩, hs, hs, hb⟩, hs, hs, hc⟩ hn
      exact ⟨_, by simpa [render, toAST, addChar, mulChar, addToken, mulToken, litNode,
        NewBinaryOperation] using this⟩
    · have := Parse_render (Tree.sub (Tree.term (Tree.div (Tree.factor (Tree.int [] a)) [32]
        (Tree.int [32] b))) [32] (Tree.factor (Tree.int [32] c))) []
        ⟨⟨⟨hn, ha⟩, hs, hs, hb⟩, hs, hs, hc⟩ hn
      exact ⟨_, by simpa [render, toAST, addChar, mulChar, addToken, mulToken, litNode,
        NewBinaryOperation] using this⟩
  · cases divide
    · have := Parse_render (Tree.term (Tree.mul (Tree.factor (Tree.neg [] (Tree.int [32] a)))
        [32] (Tree.int [32] b))) [] ⟨⟨hn, hs, ha⟩, hs, hs, hb⟩ hn
      exact ⟨_, by simpa [render, toAST, mulChar, mulToken, litNode, NewBinaryOperation,
        NewUnaryOperation] using this⟩
    · have := Parse_render (Tree.term (Tree.div (Tree.factor (Tree.neg [] (Tree.int [32] a)))
        [32] (Tree.int [32] b))) [] ⟨⟨hn, hs, ha⟩, hs, hs, hb⟩ hn
      exact ⟨_, by simpa [render, toAST, mulChar, mulToken, litNode, NewBinaryOperation,
        NewUnaryOperation] using this⟩

/-- C5 at the literals 2, 3 and 4, with PLUS and MUL. -/
theorem C5_witness :
    (isLiteral [50] ∧ isLiteral [51] ∧ isLiteral [52]) ∧
    (∃ p', Parse (NewParser (NewLexer
        ([50] ++ [32, addChar false, 32] ++ [51] ++ [32, mulChar false, 32] ++ [52]))).1
      = some (NewBinaryOperation (litNode [50])
          (NewBinaryOperation (litNode [51]) (litNode [52]) (mulToken false)) (addToken false),
          none, p')) := by
  have h2 : isLiteral [50] := by simp [isLiteral, isDigit, digitsValue]
  have h3 : isLiteral [51] := by simp [isLiteral, isDigit, digitsValue]
  have h4 : isLiteral [52] := by simp [isLiteral, isDigit, digitsValue]
  exact ⟨⟨h2, h3, h4⟩, (C5_precedence [50] [51] [52] h2 h3 h4 false false).1⟩

/-- C6: for literals `x0`, `x1`, ..., `xn` and operators that are all
multiplicative, or all additive, `Parse` of `"x0 o1 x1 ... on xn"` returns
without error the left fold of the steps, in which each operator and operand
make the previous result the new left child; `"15 / 3 * 9"` evaluates to 45
and `"222 + 9 + 15 - 12"` to 234. -/
theorem C6_left_associative (x0 : List Nat) (steps : List (Bool × List Nat))
    (hx : isLiteral x0) (hs : ∀ s ∈ steps, isLiteral s.2) :
    (∃ p', Parse (NewParser (NewLexer (x0 ++ chainInput mulChar steps))).1
      = some (chainNode mulToken (litNode x0) steps, none, p')) ∧
    (∃ p', Parse (NewParser (NewLexer (x0 ++ chainInput addChar steps))).1
      = some (chainNode addToken (litNode x0) steps, none, p')) ∧
    Calculate 64 (bytes "15 / 3 * 9") = some (45, none) ∧
    Calculate 64 (bytes "222 + 9 + 15 - 12") = some (234, none) := by
  refine ⟨?_, ?_, by decide!, by decide!⟩
  · have h := Parse_render (Tree.term (chainTerm (Tree.factor (Tree.int [] x0)) steps)) []
      (wellFormed_chainTerm steps hs _ ⟨allSpace_nil, hx⟩) allSpace_nil
    have hr : render (Tree.term (chainTerm (Tree.factor (Tree.int [] x0)) steps))
        = x0 ++ chainInput mulChar steps := by
      show render (chainTerm (Tree.factor (Tree.int [] x0)) steps) = _
      rw [render_chainTerm]
      simp [render]
    have ha : toAST (Tree.term (chainTerm (Tree.factor (Tree.int [] x0)) steps))
        = chainNode mulToken (litNode x0) steps := by
      show toAST (chainTerm (Tree.factor (Tree.int [] x0)) steps) = _
      rw [toAST_chainTerm]
      rfl
    rw [hr, ha, List.append_nil] at h
    exact ⟨_, h⟩
  · have h := Parse_render (chainExpr (Tree.term (Tree.factor (Tree.int [] x0))) steps) []
      (wellFormed_chainExpr steps hs _ ⟨allSpace_nil, hx⟩) allSpace_nil
    have hr : render (chainExpr (Tree.term (Tree.factor (Tree.int [] x0))) steps)
        = x0 ++ chainInput addChar steps := by
      rw [render_chainExpr]
      simp [render]
    have ha : toAST (chainExpr (Tree.term (Tree.factor (Tree.int [] x0))) steps)
        = chainNode addToken (litNode x0) steps := by
      rw [toAST_chainExpr]
      rfl
    rw [hr, ha, List.append_nil] at h
    exact ⟨_, h⟩

/-- C6 at `"15 / 3 * 9"` and at `"222 + 9 + 15 - 12"`. -/
theorem C6_witness :
    (isLiteral [49, 53] ∧ ∀ s ∈ [(true, [51]), (false, [57])], isLiteral s.2) ∧
    [49, 53] ++ chainInput mulChar [(true, [51]), (false, [57])] = bytes "15 / 3 * 9" ∧
    ∃ p', Parse (NewParser (NewLexer
        ([49, 53] ++ chainInput mulChar [(true, [51]), (false, [57])]))).1
      = some (NewBinaryOperation
          (NewBinaryOperation (litNode [49, 53]) (litNode [51]) (NewToken Kind.DIV (Iface.rune 47)))
          (litNode [57]) (NewToken Kind.MUL (Iface.rune 45)), none, p') := by
  have hx : isLiteral [49, 53] := by simp [isLiteral, isDigit, digitsValue]
  have hs : ∀ s ∈ [(true, [51]), (false, [57])], isLiteral s.2 := by
    intro s h
    simp only [List.mem_cons, List.mem_singleton, List.not_mem_nil, or_false] at h
    rcases h with rfl | rfl <;> simp [isLiteral, isDigit, digitsValue]
  exact ⟨⟨hx, hs⟩, by decide, (C6_left_associative [49, 53] [(true, [51]), (false, [57])] hx hs).1⟩

/-- C7: a run of `k` '-' signs, with any whitespace between them, before a
literal `n` of at most 2147483647 evaluates to `n` when `k` is even and to
`-n` when `k` is odd; a run of '+' signs before a factor leaves its result
unchanged; `"- - 9"` gives 9, `"- 9"` gives -9 and `"+9"` gives 9. -/
theorem C7_unary_chains (w : Nat) (hw : 32 ≤ w) (signs : List (List Nat))
    (wsn n wsEnd : List Nat) (f : Tree Level.factor)
    (hs : ∀ ws ∈ signs, allSpace ws) (hwsn : allSpace wsn) (hn : isLiteral n)
    (he : allSpace wsEnd) (hf : wellFormed f) :
    Calculate w (signsInput 45 signs ++ (wsn ++ n) ++ wsEnd)
      = some (if signs.length % 2 = 0 then (digitsValue n : Int) else -(digitsValue n : Int),
          none) ∧
    Calculate w (signsInput 43 signs ++ render f ++ wsEnd) = Calculate w (render f ++ wsEnd) ∧
    Calculate 64 (bytes "- - 9") = some (9, none) ∧
    Calculate 64 (bytes "- 9") = some (-9, none) ∧
    Calculate 64 (bytes "+9") = some (9, none) := by
  refine ⟨?_, ?_, by decide!, by decide!, by decide!⟩
  · have h := Calculate_render w hw
      (Tree.term (Tree.factor (signsTree true signs (Tree.int wsn n)))) wsEnd
      (wellFormed_signsTree true signs _ hs ⟨hwsn, hn⟩) he
      (noZeroDivisor_signsTree true signs _ trivial)
      (inRange_signsTree_minus w signs _ trivial (fits_literal hw hn.2.2)
        (fits_neg_literal hw hn.2.2))
    have hr : render (Tree.term (Tree.factor (signsTree true signs (Tree.int wsn n))))
        = signsInput 45 signs ++ (wsn ++ n) := by
      show render (signsTree true signs (Tree.int wsn n)) = _
      rw [render_signsTree]
      rfl
    have hv : value (Tree.term (Tree.factor (signsTree true signs (Tree.int wsn n))))
        = if signs.length % 2 = 0 then (digitsValue n : Int) else -(digitsValue n : Int) := by
      show value (signsTree true signs (Tree.int wsn n)) = _
      rw [value_signsTree_minus]
      rfl
    rw [hr, hv] at h
    exact h
  · have h1 := Parse_render (Tree.term (Tree.factor (signsTree false signs f))) wsEnd
      (wellFormed_signsTree false signs f hs hf) he
    have h0 := Parse_render (Tree.term (Tree.factor f)) wsEnd hf he
    have hr : render (Tree.term (Tree.factor (signsTree false signs f)))
        = signsInput 43 signs ++ render f := by
      show render (signsTree false signs f) = _
      rw [render_signsTree]
      rfl
    have hr0 : render (Tree.term (Tree.factor f)) = render f := rfl
    rw [hr] at h1
    rw [hr0] at h0
    have hp := Accept_signsTree_plus w signs f
    rcases Accept_toAST_cases w f with ⟨v, hv⟩ | ⟨x, e, hx⟩
    · rw [Calculate_of_Parse_ok w _ h1 (hp.1 v hv), Calculate_of_Parse_ok w _ h0 hv]
    · obtain ⟨y, hy⟩ := hp.2 x e hx
      rw [Calculate_of_Accept_error w _ h1 hy, Calculate_of_Accept_error w _ h0 hx]

/-- C7 at `"- -  - 9 "` on 64 bits, and at two '+' signs before `"(4)"`. -/
theorem C7_witness :
    (32 ≤ 64 ∧ (∀ ws ∈ [[], [32], [32, 32]], allSpace ws) ∧ allSpace [32] ∧ isLiteral [57]
      ∧ allSpace [32]
      ∧ wellFormed (Tree.paren [] (Tree.term (Tree.factor (Tree.int [] [52]))) [])) ∧
    signsInput 45 [[], [32], [32, 32]] ++ ([32] ++ [57]) ++ [32] = bytes "- -  - 9 " ∧
    Calculate 64 (signsInput 45 [[], [32], [32, 32]] ++ ([32] ++ [57]) ++ [32])
      = some (-9, none) := by
  have hb : allSpace [32] := allSpace_blank
  have hs : ∀ ws ∈ [[], [32], [32, 32]], allSpace ws := by
    intro ws h
    simp only [List.mem_cons, List.mem_singleton, List.not_mem_nil, or_false] at h
    rcases h with rfl | rfl | rfl <;> intro c hc <;> simp at hc <;> simp [hc, isSpace]
  have hn : isLiteral [57] := by simp [isLiteral, isDigit, digitsValue]
  have hf : wellFormed (Tree.paren [] (Tree.term (Tree.factor (Tree.int [] [52]))) []) :=
    ⟨allSpace_nil, ⟨allSpace_nil, by simp [isLiteral, isDigit, digitsValue]⟩, allSpace_nil⟩
  refine ⟨⟨by decide, hs, hb, hn, hb, hf⟩, by decide, ?_⟩
  have h := (C7_unary_chains 64 (by decide) [[], [32], [32, 32]] [32] [57] [32]
    (Tree.paren [] (Tree.term (Tree.factor (Tree.int [] [52]))) []) hs hb hn hb hf).1
  simpa [digitsValue] using h

/-- C2 fails at a literal above 2147483647: `"2147483648 / 0"` is rejected
by the lexer (`NewParser` gets the range error of `strconv.ParseInt`), and
`Interpret` returns the error of `Factor` on the NONE token, not the
division-by-zero error. -/
theorem C2_counterexample :
    (NewParser (NewLexer (bytes "2147483648 / 0"))).2 = some Error.integerRange ∧
    Calculate 64 (bytes "2147483648 / 0") = some (0, some (Error.factorUnexpected Kind.NONE)) ∧
    Calculate 64 (bytes "2147483648 / 0") ≠ some (0, some Error.divisionByZero) := by
  decide!

/-- C2, amended: on a Binary node with operator DIV of which the children
evaluate without error, the right one to 0, `VisitBinaryOperation` returns
the division-by-zero error and the nil value; for every literal `n` of at
most 2147483647, `Interpret` on `"n / 0"` and on `"-n / 0"` returns that
error. -/
theorem C2_division_by_zero (w : Nat) (l r : ASTNode) (op : Token) (a : Int) (n : List Nat)
    (hop : op.TokenType = Kind.DIV) (hl : Accept w l = (Iface.int a, none))
    (hr : Accept w r = (Iface.int 0, none)) (hn : isLiteral n) :
    Accept w (ASTNode.BinaryOperation l op r) = (Iface.nil, some Error.divisionByZero) ∧
    Calculate w (n ++ [32, 47, 32, 48]) = some (0, some Error.divisionByZero) ∧
    Calculate w (45 :: n ++ [32, 47, 32, 48]) = some (0, some Error.divisionByZero) := by
  refine ⟨?_, ?_, ?_⟩
  · rw [Accept_div w l r op a 0 hop hl hr, if_pos rfl]
  · have h := Parse_render
      (Tree.term (Tree.div (Tree.factor (Tree.int [] n)) [32] (Tree.int [32] [48]))) []
      ⟨⟨allSpace_nil, hn⟩, allSpace_blank, allSpace_blank, isLiteral_zero⟩ allSpace_nil
    have hr2 : render (Tree.term (Tree.div (Tree.factor (Tree.int [] n)) [32]
        (Tree.int [32] [48]))) ++ [] = n ++ [32, 47, 32, 48] := by
      simp [render]
    rw [hr2] at h
    have hacc : Accept w (toAST (Tree.term (Tree.div (Tree.factor (Tree.int [] n)) [32]
        (Tree.int [32] [48])))) = (Iface.nil, some Error.divisionByZero) := by
      have hd := Accept_div w (litNode n) (litNode [48]) (NewToken Kind.DIV (Iface.rune 47))
        (digitsValue n) 0 rfl rfl rfl
      rw [if_pos rfl] at hd
      exact hd
    exact Calculate_of_Accept_error w _ h hacc
  · have h := Parse_render
      (Tree.term (Tree.div (Tree.factor (Tree.neg [] (Tree.int [] n))) [32]
        (Tree.int [32] [48]))) []
      ⟨⟨allSpace_nil, allSpace_nil, hn⟩, allSpace_blank, allSpace_blank, isLiteral_zero⟩
      allSpace_nil
    have hr2 : render (Tree.term (Tree.div (Tree.factor (Tree.neg [] (Tree.int [] n))) [32]
        (Tree.int [32] [48]))) ++ [] = 45 :: n ++ [32, 47, 32, 48] := by
      simp [render]
    rw [hr2] at h
    have hacc : Accept w (toAST (Tree.term (Tree.div (Tree.factor (Tree.neg []
        (Tree.int [] n))) [32] (Tree.int [32] [48])))) = (Iface.nil, some Error.divisionByZero) := by
      have hu : Accept w (ASTNode.UnaryOperation (NewToken Kind.MINUS (Iface.rune 45))
          (litNode n)) = (Iface.int (wrapInt w (-(digitsValue n : Int))), none) := by
        simp [litNode, Accept, VisitUnaryOperation, VisitNumberLiteral, NewToken]
      have hd := Accept_div w _ (litNode [48]) (NewToken Kind.DIV (Iface.rune 47))
        _ 0 rfl hu rfl
      rw [if_pos rfl] at hd
      exact hd
    exact Calculate_of_Accept_error w _ h hacc

/-- C2 at the node of `"7 / 0"` on 64 bits and at the literal 2147483647. -/
theorem C2_witness :
    ((NewToken Kind.DIV (Iface.rune 47)).TokenType = Kind.DIV
      ∧ Accept 64 (litNode [55]) = (Iface.int 7, none)
      ∧ Accept 64 (litNode [48]) = (Iface.int 0, none)
      ∧ isLiteral (bytes "2147483647")) ∧
    Accept 64 (ASTNode.BinaryOperation (litNode [55]) (NewToken Kind.DIV (Iface.rune 47))
      (litNode [48])) = (Iface.nil, some Error.divisionByZero) ∧
    Calculate 64 (bytes "2147483647" ++ [32, 47, 32, 48]) = some (0, some Error.divisionByZero) ∧
    Calculate 64 (45 :: bytes "2147483647" ++ [32, 47, 32, 48])
      = some (0, some Error.divisionByZero) := by
  have hn : isLiteral (bytes "2147483647") := by
    refine ⟨by decide, by decide, by decide⟩
  exact ⟨⟨rfl, rfl, rfl, hn⟩,
    C2_division_by_zero 64 (litNode [55]) (litNode [48]) (NewToken Kind.DIV (Iface.rune 47)) 7
      (bytes "2147483647") rfl rfl rfl hn⟩

/-- C8 fails at the least native integer divided by -1: on 64 bits the
children of the DIV node of `"-2097152*2097152*2097152 / -1"` evaluate to
-9223372036854775808 and to -1, the quotient truncated toward zero is
9223372036854775808, and the division of Go wraps to -9223372036854775808. -/
theorem C8_counterexample :
    ∃ l r : ASTNode,
      (∃ p', Parse (NewParser (NewLexer (bytes "-2097152*2097152*2097152 / -1"))).1
        = some (ASTNode.BinaryOperation l (NewToken Kind.DIV (Iface.rune 47)) r, none, p')) ∧
      Accept 64 l = (Iface.int (-9223372036854775808), none) ∧
      Accept 64 r = (Iface.int (-1), none) ∧
      Accept 64 (ASTNode.BinaryOperation l (NewToken Kind.DIV (Iface.rune 47)) r)
        = (Iface.int (-9223372036854775808), none) ∧
      Int.tdiv (-9223372036854775808) (-1) = 9223372036854775808 ∧
      Calculate 64 (bytes "-2097152*2097152*2097152 / -1")
        = some (-9223372036854775808, none) := by
  have hl : isLiteral (bytes "2097152") := ⟨by decide, by decide, by decide⟩
  have h1 : isLiteral [49] := ⟨by decide, by decide, by decide⟩
  have hn : allSpace [] := allSpace_nil
  have h := Parse_render
    (Tree.term (Tree.div
      (Tree.mul (Tree.mul (Tree.factor (Tree.neg [] (Tree.int [] (bytes "2097152")))) []
        (Tree.int [] (bytes "2097152"))) [] (Tree.int [] (bytes "2097152")))
      [32] (Tree.neg [32] (Tree.int [] [49])))) []
    ⟨⟨⟨⟨hn, hn, hl⟩, hn, hn, hl⟩, hn, hn, hl⟩, allSpace_blank, allSpace_blank, hn, h1⟩ hn
  exact ⟨_, _, ⟨_, h⟩, by decide!, by decide!, by decide!, by decide!, by decide!⟩

/-- C8, amended: on a Binary node with operator DIV of which the children
evaluate to the native integers `a` and `b`, `b` not 0, `VisitBinaryOperation`
returns without error the quotient of `a` by `b` truncated toward zero
(`Int.tdiv a b`), except that the least integer divided by -1 gives the least
integer; `"-7 / 2"` gives -3, where the floor is -4, `"7 / -2"` gives -3 and
`"-7 / -2"` gives 3, where the Euclidean quotient is 4. -/
theorem C8_division_truncates (w : Nat) (l r : ASTNode) (op : Token) (a b : Int)
    (hw : 0 < w) (hop : op.TokenType = Kind.DIV) (hl : Accept w l = (Iface.int a, none))
    (hr : Accept w r = (Iface.int b, none)) (hb : b ≠ 0) (ha : fits w a) :
    Accept w (ASTNode.BinaryOperation l op r)
      = (Iface.int (if a = -(2 ^ (w - 1) : Int) ∧ b = -1 then a else Int.tdiv a b), none) ∧
    (Calculate 64 (bytes "-7 / 2") = some (-3, none) ∧ Int.fdiv (-7) 2 = -4) ∧
    Calculate 64 (bytes "7 / -2") = some (-3, none) ∧
    (Calculate 64 (bytes "-7 / -2") = some (3, none) ∧ Int.ediv (-7) (-2) = 4) := by
  refine ⟨?_, ⟨by decide!, by decide⟩, by decide!, ⟨by decide!, by decide⟩⟩
  rw [Accept_div w l r op a b hop hl hr, if_neg hb]
  by_cases hx : a = -(2 ^ (w - 1) : Int) ∧ b = -1
  · rw [if_pos hx]
    obtain ⟨h1, h2⟩ := hx
    rw [h1, h2, tdiv_min_neg_one, wrapInt_half hw]
  · rw [if_neg hx, wrapInt_fits hw (fits_tdiv ha hb hx)]

/-- C8 at the node of `"7 / 2"` on 64 bits. -/
theorem C8_witness :
    (0 < 64 ∧ (NewToken Kind.DIV (Iface.rune 47)).TokenType = Kind.DIV
      ∧ Accept 64 (litNode [55]) = (Iface.int 7, none)
      ∧ Accept 64 (litNode [50]) = (Iface.int 2, none) ∧ (2 : Int) ≠ 0 ∧ fits 64 7) ∧
    Accept 64 (ASTNode.BinaryOperation (litNode [55]) (NewToken Kind.DIV (Iface.rune 47))
      (litNode [50])) = (Iface.int 3, none) := by
  have hf : fits 64 7 := by unfold fits; constructor <;> norm_num
  refine ⟨⟨by decide, rfl, rfl, rfl, by decide, hf⟩, ?_⟩
  have h := (C8_division_truncates 64 (litNode [55]) (litNode [50])
    (NewToken Kind.DIV (Iface.rune 47)) 7 2 (by decide) rfl rfl rfl (by decide) hf).1
  rw [h]
  decide

/-- C9 fails at the end of the input and at a zero byte: after the
whitespace of `" "`, and on the input of the one byte 0, the current
character is 0, which is no digit, operator or parenthesis, and
`GetNextToken` returns the EOF token with a nil error. -/
theorem C9_counterexample :
    ((SkipWhiteSpace (NewLexer [32])).CurrentChar = 0 ∧
      isSpace (SkipWhiteSpace (NewLexer [32])).CurrentChar = false ∧
      isDigit (SkipWhiteSpace (NewLexer [32])).CurrentChar = false ∧
      (SkipWhiteSpace (NewLexer [32])).CurrentChar ∉ [43, 45, 42, 47, 40, 41] ∧
      (GetNextToken (NewLexer [32])).1 = NewToken Kind.EOF (Iface.int 0) ∧
      (GetNextToken (NewLexer [32])).2.1 = none) ∧
    ((SkipWhiteSpace (NewLexer [0])).CurrentChar = 0 ∧
      isSpace 0 = false ∧ isDigit 0 = false ∧ 0 ∉ [43, 45, 42, 47, 40, 41] ∧
      (GetNextToken (NewLexer [0])).1 = NewToken Kind.EOF (Iface.int 0) ∧
      (GetNextToken (NewLexer [0])).2.1 = none) := by
  decide!

/-- C9, amended: for every lexer state, if after the leading whitespace is
skipped the current character is not 0, not a decimal digit and none of
`+ - * / ( )`, then `GetNextToken` returns the NONE token and the error of
the invalid character, the lexer staying on that character; so `NewParser`
gets that error on `"a"`, and `Interpret` returns an error on `"a"`,
`"2 + $ + 3"` and `"(. + 3)"`. -/
theorem C9_invalid_character (lex : Lexer)
    (h0 : (SkipWhiteSpace lex).CurrentChar ≠ 0)
    (hd : isDigit (SkipWhiteSpace lex).CurrentChar = false)
    (hs : (SkipWhiteSpace lex).CurrentChar ∉ [43, 45, 42, 47, 40, 41]) :
    GetNextToken lex
      = (NewToken Kind.NONE (Iface.int 0),
          some (Error.invalidCharacter (SkipWhiteSpace lex).CurrentChar), SkipWhiteSpace lex) ∧
    (NewParser (NewLexer (bytes "a"))).2 = some (Error.invalidCharacter 97) ∧
    Calculate 64 (bytes "a") = some (0, some (Error.factorUnexpected Kind.NONE)) ∧
    Calculate 64 (bytes "2 + $ + 3") = some (0, some (Error.invalidCharacter 36)) ∧
    Calculate 64 (bytes "(. + 3)") = some (0, some (Error.invalidCharacter 46)) :=
  ⟨GetNextToken_invalid lex h0 hd hs, by decide!, by decide!, by decide!, by decide!⟩

/-- C9 at the lexer on `"  $1"`. -/
theorem C9_witness :
    ((SkipWhiteSpace (NewLexer (bytes "  $1"))).CurrentChar ≠ 0 ∧
      isDigit (SkipWhiteSpace (NewLexer (bytes "  $1"))).CurrentChar = false ∧
      (SkipWhiteSpace (NewLexer (bytes "  $1"))).CurrentChar ∉ [43, 45, 42, 47, 40, 41]) ∧
    GetNextToken (NewLexer (bytes "  $1"))
      = (NewToken Kind.NONE (Iface.int 0), some (Error.invalidCharacter 36),
          lexerAt (bytes "  $1") 2) := by
  have h0 : (SkipWhiteSpace (NewLexer (bytes "  $1"))).CurrentChar ≠ 0 := by decide!
  have hd : isDigit (SkipWhiteSpace (NewLexer (bytes "  $1"))).CurrentChar = false := by decide!
  have hs : (SkipWhiteSpace (NewLexer (bytes "  $1"))).CurrentChar ∉ [43, 45, 42, 47, 40, 41] := by
    decide!
  have h := (C9_invalid_character (NewLexer (bytes "  $1")) h0 hd hs).1
  refine ⟨⟨h0, hd, hs⟩, ?_⟩
  rw [h]
  decide!

/-- C10 fails between the range of 32 bits and the native range: the run
`"2147483648"` has a value below 9223372036854775807, and `GetNextToken`
returns the NONE token and the range error of `strconv.ParseInt`. -/
theorem C10_counterexample :
    digitsValue (bytes "2147483648") = 2147483648 ∧
    digitsValue (bytes "2147483648") ≤ 9223372036854775807 ∧
    GetNextToken (NewLexer (bytes "2147483648"))
      = (NewToken Kind.NONE (Iface.int 0), some Error.integerRange,
          lexerAt (bytes "2147483648") 10) := by
  decide!

/-- C10, amended: at a maximal run `ds` of decimal digits, `GetNextToken`
returns the INTEGER token of the base-10 value of the run, a nil error and the
lexer after the run, when the value is at most 2147483647; it returns the NONE
token and the range error exactly when the value exceeds 2147483647. -/
theorem C10_integer_literal (i : List Nat) (pos : Nat) (ds rest : List Nat)
    (hi : i.drop pos = ds ++ rest) (hne : ds ≠ []) (hd : ∀ c ∈ ds, isDigit c = true)
    (hr : ∀ c t, rest = c :: t → isDigit c = false) :
    GetNextToken (lexerAt i pos)
      = (if digitsValue ds ≤ 2147483647 then
          (NewToken Kind.INTEGER (Iface.int (digitsValue ds)), none, lexerAt i (pos + ds.length))
        else (NewToken Kind.NONE (Iface.int 0), some Error.integerRange,
          lexerAt i (pos + ds.length))) ∧
    ((GetNextToken (lexerAt i pos)).2.1 ≠ none ↔ 2147483647 < digitsValue ds) := by
  have h := GetNextToken_lexerAt i pos
  rw [hi, lexSpec_digits ds rest hne hd hr] at h
  rw [h]
  by_cases hv : digitsValue ds ≤ 2147483647
  · simp only [if_pos hv]
    exact ⟨trivial, by simp; omega⟩
  · simp only [if_neg hv]
    exact ⟨trivial, by simp; omega⟩

/-- C10 at the run `"2147483647"` of the input `"1+2147483647)"`. -/
theorem C10_witness :
    ((bytes "1+2147483647)").drop 2 = bytes "2147483647" ++ [41] ∧ bytes "2147483647" ≠ [] ∧
      (∀ c ∈ bytes "2147483647", isDigit c = true) ∧
      (∀ c t, [41] = c :: t → isDigit c = false)) ∧
    GetNextToken (lexerAt (bytes "1+2147483647)") 2)
      = (NewToken Kind.INTEGER (Iface.int 2147483647), none,
          lexerAt (bytes "1+2147483647)") 12) := by
  have hi : (bytes "1+2147483647)").drop 2 = bytes "2147483647" ++ [41] := by decide
  have hne : bytes "2147483647" ≠ [] := by decide
  have hd : ∀ c ∈ bytes "2147483647", isDigit c = true := by decide
  have hr : ∀ c t, [41] = c :: t → isDigit c = false := by
    intro c t h
    cases h
    rfl
  have h := (C10_integer_literal (bytes "1+2147483647)") 2 (bytes "2147483647") [41]
    hi hne hd hr).1
  refine ⟨⟨hi, hne, hd, hr⟩, ?_⟩
  rw [h]
  decide!

/-- C11: for every lexer state in which `GetNextToken` returns an EOF token,
every later call returns the EOF token with a nil error and leaves the lexer,
so `Position` and `CurrentChar`, as the first call left it. -/
theorem C11_eof_idempotent (lex : Lexer) (n : Nat)
    (h : (GetNextToken lex).1.TokenType = Kind.EOF) :
    afterCalls (n + 1) lex = afterCalls 1 lex ∧
    GetNextToken (afterCalls (n + 1) lex)
      = (NewToken Kind.EOF (Iface.int 0), none, afterCalls (n + 1) lex) ∧
    (afterCalls (n + 2) lex).Position = (afterCalls 1 lex).Position ∧
    (afterCalls (n + 2) lex).CurrentChar = (afterCalls 1 lex).CurrentChar := by
  have hz := (GetNextToken_EOF lex h).2
  have e : ∀ m, afterCalls (m + 1) lex = (GetNextToken lex).2.2 := by
    intro m
    rw [afterCalls_succ, afterCalls_zero_char m _ hz]
  refine ⟨by rw [e n, e 0], ?_, by rw [e (n + 1), e 0], by rw [e (n + 1), e 0]⟩
  rw [e n]
  exact GetNextToken_zero_char _ hz

/-- C11 from the blanks at the end of `"7  "`: the fifth call is as the
first. -/
theorem C11_witness :
    (GetNextToken (lexerAt (bytes "7  ") 1)).1.TokenType = Kind.EOF ∧
    afterCalls 4 (lexerAt (bytes "7  ") 1) = lexerAt (bytes "7  ") 3 ∧
    GetNextToken (afterCalls 4 (lexerAt (bytes "7  ") 1))
      = (NewToken Kind.EOF (Iface.int 0), none, lexerAt (bytes "7  ") 3) := by
  have h : (GetNextToken (lexerAt (bytes "7  ") 1)).1.TokenType = Kind.EOF := by decide!
  have h1 : afterCalls 1 (lexerAt (bytes "7  ") 1) = lexerAt (bytes "7  ") 3 := by decide!
  have hc := C11_eof_idempotent (lexerAt (bytes "7  ") 1) 3 h
  rw [hc.1, h1] at hc
  exact ⟨h, h1.symm ▸ hc.1 ▸ rfl, hc.2.1⟩

/-- C12: for every parser state and every expected kind that differs from the
kind of the current token, `Consume` returns the error of the mismatch and
leaves the parser as it was: the current token, the lexer and the nesting
stack. -/
theorem C12_consume_mismatch (p : Parser) (expectedType : Kind)
    (h : p.CurrentToken.TokenType ≠ expectedType) :
    (Consume expectedType p).1
      = some (Error.consumeExpected expectedType p.CurrentToken.TokenType) ∧
    (Consume expectedType p).2 = p ∧
    (Consume expectedType p).2.CurrentToken = p.CurrentToken ∧
    (Consume expectedType p).2.Lex.Position = p.Lex.Position ∧
    (Consume expectedType p).2.Lex.CurrentChar = p.Lex.CurrentChar ∧
    (Consume expectedType p).2.Stack = p.Stack := by
  have e : Consume expectedType p
      = (some (Error.consumeExpected expectedType p.CurrentToken.TokenType), p) := by
    unfold Consume
    rw [if_pos h]
  rw [e]
  exact ⟨rfl, rfl, rfl, rfl, rfl, rfl⟩

/-- C12 at the parser on `"(1"` after its first token, asked for an RPAR. -/
theorem C12_witness :
    (NewParser (NewLexer (bytes "(1"))).1.CurrentToken.TokenType ≠ Kind.RPAR ∧
    Consume Kind.RPAR (NewParser (NewLexer (bytes "(1"))).1
      = (some (Error.consumeExpected Kind.RPAR Kind.LPAR),
          (NewParser (NewLexer (bytes "(1"))).1) := by
  have h : (NewParser (NewLexer (bytes "(1"))).1.CurrentToken.TokenType ≠ Kind.RPAR := by
    decide!
  have hc := C12_consume_mismatch (NewParser (NewLexer (bytes "(1"))).1 Kind.RPAR h
  refine ⟨h, Prod.ext ?_ hc.2.1⟩
  rw [hc.1]
  decide!

/-- C13: whenever `Parse` returns a nil error, the current token of the parser
is EOF and the nesting stack is empty; and every input whose token sequence is
that of a complete expression followed by an INTEGER, an LPAR or an RPAR, with
whatever tokens after it, makes `Parse` return a non-nil error, as do
`"(1)(2)"`, `"(1) 2"`, `"1 (2)"` and `"(1+2)) + 13"`. -/
theorem C13_parse_ends_at_eof (input : List Nat) (e : Tree Level.expr) (t : Token)
    (more : List Token) (hwf : wellFormed e)
    (h : tokens input = tokens (render e) ++ t :: more)
    (ht : t.TokenType = Kind.INTEGER ∨ t.TokenType = Kind.LPAR ∨ t.TokenType = Kind.RPAR) :
    (∀ p node p', Parse p = some (node, none, p') →
      p'.CurrentToken.TokenType = Kind.EOF ∧ IsEmpty p'.Stack = true) ∧
    (∃ node err p', Parse (NewParser (NewLexer input)).1 = some (node, some err, p')) ∧
    (Parse (NewParser (NewLexer (bytes "(1)(2)"))).1).map (fun r => r.2.1)
      = some (some Error.unexpectedInputAtEnd) ∧
    (Parse (NewParser (NewLexer (bytes "(1) 2"))).1).map (fun r => r.2.1)
      = some (some Error.unexpectedInputAtEnd) ∧
    (Parse (NewParser (NewLexer (bytes "1 (2)"))).1).map (fun r => r.2.1)
      = some (some Error.unexpectedInputAtEnd) ∧
    (Parse (NewParser (NewLexer (bytes "(1+2)) + 13"))).1).map (fun r => r.2.1)
      = some (some Error.unexpectedRPar) := by
  refine ⟨?_, ?_, by decide!, by decide!, by decide!, by decide!⟩
  · intro p node p' hp
    obtain ⟨_, hs, hk⟩ := Parse_ok hp
    exact ⟨hk, by simp [IsEmpty, hs]⟩
  · obtain ⟨node, err, p', hp⟩ := Parse_NewParser_returns input
    cases err with
    | none => exact absurd hp (Parse_extra_token input e hwf t more h ht)
    | some err => exact ⟨node, err, p', hp⟩

/-- C13 at `"(1) 2"`: the complete expression `"(1)"` and the INTEGER 2. -/
theorem C13_witness :
    (wellFormed (Tree.term (Tree.factor
        (Tree.paren [] (Tree.term (Tree.factor (Tree.int [] [49]))) []))) ∧
      tokens (bytes "(1) 2")
        = tokens (render (Tree.term (Tree.factor
            (Tree.paren [] (Tree.term (Tree.factor (Tree.int [] [49]))) []))))
          ++ NewToken Kind.INTEGER (Iface.int 2) :: [] ∧
      (NewToken Kind.INTEGER (Iface.int 2)).TokenType = Kind.INTEGER) ∧
    ∃ node err p', Parse (NewParser (NewLexer (bytes "(1) 2"))).1
      = some (node, some err, p') := by
  have hwf : wellFormed (Tree.term (Tree.factor
      (Tree.paren [] (Tree.term (Tree.factor (Tree.int [] [49]))) []))) :=
    ⟨allSpace_nil, ⟨allSpace_nil, by simp [isLiteral, isDigit, digitsValue]⟩, allSpace_nil⟩
  have h : tokens (bytes "(1) 2")
      = tokens (render (Tree.term (Tree.factor
          (Tree.paren [] (Tree.term (Tree.factor (Tree.int [] [49]))) []))))
        ++ NewToken Kind.INTEGER (Iface.int 2) :: [] := by decide!
  exact ⟨⟨hwf, h, rfl⟩,
    (C13_parse_ends_at_eof (bytes "(1) 2") _ _ [] hwf h (Or.inl rfl)).2.1⟩

/-- C14: a token counts as consumed when a call of `Consume` gets as far as
replacing it by the next token (`advances`); a call that does not leaves the
parser as it was.  From the fresh parser of `NewParser`, after any calls of
`Consume`, the nesting stack holds LPAR markers only, and its size is the
number of LPAR tokens consumed minus the number of RPAR tokens consumed.
The parser that `Factor`, `Term`, `Expr` or `Parse` returns, with or without
an error, is the one after some calls of `Consume`, so this holds at every
point of a parse; it holds as well with the successful calls of `Consume`
counted; and when `Parse` returns a nil error the stack is empty. -/
theorem C14_nesting_stack (input : List Nat) (ks : List Kind) :
    (onlyMarkers (runConsume ks (NewParser (NewLexer input)).1).Stack ∧
      StackSize (runConsume ks (NewParser (NewLexer input)).1).Stack
        = consumedOf Kind.LPAR ks (NewParser (NewLexer input)).1
          - consumedOf Kind.RPAR ks (NewParser (NewLexer input)).1 ∧
      consumedOf Kind.RPAR ks (NewParser (NewLexer input)).1
        ≤ consumedOf Kind.LPAR ks (NewParser (NewLexer input)).1) ∧
    (∀ k p, advances k p = false → (Consume k p).2 = p) ∧
    (∀ n p node e p', (Factor n p = some (node, e, p') ∨ Term n p = some (node, e, p')
        ∨ Expr n p = some (node, e, p') ∨ Parse p = some (node, e, p')) →
      ∃ calls, p' = runConsume calls p) ∧
    (∀ ts p', Consumed (NewParser (NewLexer input)).1 ts p' →
      StackSize p'.Stack = (kinds ts).count Kind.LPAR - (kinds ts).count Kind.RPAR
        ∧ (kinds ts).count Kind.RPAR ≤ (kinds ts).count Kind.LPAR) ∧
    (∀ node p', Parse (NewParser (NewLexer input)).1 = some (node, none, p') →
      IsEmpty p'.Stack = true) := by
  have h0 : (NewParser (NewLexer input)).1.Stack.Stack = [] := by rw [NewParser_eq]; rfl
  have hm : onlyMarkers (NewParser (NewLexer input)).1.Stack := by
    intro t ht; rw [h0] at ht; cases ht
  refine ⟨?_, fun k p h => Consume_not_advances h, ?_, ?_, ?_⟩
  · obtain ⟨i1, i2⟩ := runConsume_stack ks _ hm
    rw [h0] at i2
    simp only [List.length_nil, Nat.zero_add] at i2
    unfold StackSize
    exact ⟨i1, by omega, by omega⟩
  · intro n p node e p' h
    obtain ⟨hF, hT, hE, hP⟩ := reach_all p n
    rcases h with h | h | h | h
    · exact hF p node e p' ⟨[], rfl⟩ h
    · exact hT p node e p' ⟨[], rfl⟩ h
    · exact hE p node e p' ⟨[], rfl⟩ h
    · exact hP p node e p' ⟨[], rfl⟩ h
  · intro ts p' h
    have := Consumed_stack h
    rw [h0] at this
    simp only [List.length_nil, Nat.zero_add] at this
    unfold StackSize
    exact ⟨by omega, by omega⟩
  · intro node p' h
    simp [IsEmpty, (Parse_ok h).2.1]

/-- C14 on `"((1)"` after the calls of `Consume` on its four tokens: two LPAR
and one RPAR consumed, one marker on the stack. -/
theorem C14_witness :
    consumedOf Kind.LPAR [Kind.LPAR, Kind.LPAR, Kind.INTEGER, Kind.RPAR]
      (NewParser (NewLexer (bytes "((1)"))).1 = 2 ∧
    consumedOf Kind.RPAR [Kind.LPAR, Kind.LPAR, Kind.INTEGER, Kind.RPAR]
      (NewParser (NewLexer (bytes "((1)"))).1 = 1 ∧
    StackSize (runConsume [Kind.LPAR, Kind.LPAR, Kind.INTEGER, Kind.RPAR]
      (NewParser (NewLexer (bytes "((1)"))).1).Stack = 2 - 1 := by
  have h := (C14_nesting_stack (bytes "((1)")
    [Kind.LPAR, Kind.LPAR, Kind.INTEGER, Kind.RPAR]).1.2.1
  have h1 : consumedOf Kind.LPAR [Kind.LPAR, Kind.LPAR, Kind.INTEGER, Kind.RPAR]
      (NewParser (NewLexer (bytes "((1)"))).1 = 2 := by decide!
  have h2 : consumedOf Kind.RPAR [Kind.LPAR, Kind.LPAR, Kind.INTEGER, Kind.RPAR]
      (NewParser (NewLexer (bytes "((1)"))).1 = 1 := by decide!
  rw [h1, h2] at h
  exact ⟨h1, h2, h⟩

/-- C15: on a Binary node whose left child evaluates to an error,
`VisitBinaryOperation` returns that error, whatever the operator and the
right child are; when the left child evaluates to an integer and the right
child to an error, it returns the error of the right child. -/
theorem C15_left_error_first (w : Nat) (l r : ASTNode) (op : Token) :
    (∀ e, (Accept w l).2 = some e →
      Accept w (ASTNode.BinaryOperation l op r) = (Iface.int 0, some e)) ∧
    (∀ a e, Accept w l = (Iface.int a, none) → (Accept w r).2 = some e →
      Accept w (ASTNode.BinaryOperation l op r) = (Iface.nil, some e)) := by
  constructor
  · intro e h
    rcases hl : Accept w l with ⟨x, el⟩
    rw [hl] at h
    simp only at h
    subst h
    simp only [Accept, hl, VisitBinaryOperation]
  · intro a e h1 h2
    rcases hr : Accept w r with ⟨y, er⟩
    rw [hr] at h2
    simp only at h2
    subst h2
    simp only [Accept, h1, hr, VisitBinaryOperation]

/-- C15 on 64 bits: the left child is the node of `"1 / 0"`, the right child an
error node; and the left child is the literal 1, the right child the node of
`"1 / 0"`. -/
theorem C15_witness :
    ((Accept 64 (ASTNode.BinaryOperation (litNode [49]) (NewToken Kind.DIV (Iface.rune 47))
        (litNode [48]))).2 = some Error.divisionByZero ∧
      Accept 64 (ASTNode.BinaryOperation
        (ASTNode.BinaryOperation (litNode [49]) (NewToken Kind.DIV (Iface.rune 47))
          (litNode [48]))
        (NewToken Kind.DIV (Iface.rune 47)) (ASTNode.ErrorNode (some Error.popEmpty)))
        = (Iface.int 0, some Error.divisionByZero)) ∧
    (Accept 64 (litNode [49]) = (Iface.int 1, none) ∧
      Accept 64 (ASTNode.BinaryOperation (litNode [49]) (NewToken Kind.PLUS (Iface.rune 43))
        (ASTNode.BinaryOperation (litNode [49]) (NewToken Kind.DIV (Iface.rune 47))
          (litNode [48])))
        = (Iface.nil, some Error.divisionByZero)) := by
  have h1 : (Accept 64 (ASTNode.BinaryOperation (litNode [49])
      (NewToken Kind.DIV (Iface.rune 47)) (litNode [48]))).2 = some Error.divisionByZero := by
    decide!
  have h2 : Accept 64 (litNode [49]) = (Iface.int 1, none) := by decide!
  exact ⟨⟨h1, (C15_left_error_first 64 _ (ASTNode.ErrorNode (some Error.popEmpty))
      (NewToken Kind.DIV (Iface.rune 47))).1 _ h1⟩,
    ⟨h2, (C15_left_error_first 64 (litNode [49]) _
      (NewToken Kind.PLUS (Iface.rune 43))).2 1 _ h2 h1⟩⟩

/-- C16 fails at an error node that stores a nil error, as the default branch
of the loop of `Term` builds: `VisitErrorNode` returns what the node stores,
so a nil value and a nil error. -/
theorem C16_counterexample :
    NewErrorNode none = ASTNode.ErrorNode none ∧
    (∀ w, Accept w (ASTNode.ErrorNode none) = (Iface.nil, none)) ∧
    (Accept 64 (NewErrorNode none)).2 = none := by
  exact ⟨rfl, fun _ => rfl, rfl⟩

/-- C16, amended: evaluating an error node that stores a non-nil error returns
that error, as the value and as the error, never a numeric result; an error
node that stores a nil error evaluates to the nil value, no numeric result
either, with a nil error.  The node `Parse` returns with an error stores that
error, so evaluating it fails with it. -/
theorem C16_error_node (w : Nat) (stored : Option Error) :
    Accept w (ASTNode.ErrorNode stored) = VisitErrorNode stored ∧
    (∀ e, stored = some e → Accept w (ASTNode.ErrorNode stored) = (Iface.err e, some e)) ∧
    (stored = none → Accept w (ASTNode.ErrorNode stored) = (Iface.nil, none)) ∧
    (∀ n, (Accept w (ASTNode.ErrorNode stored)).1 ≠ Iface.int n) ∧
    (∀ p node e p', Parse p = some (node, some e, p') →
      node = ASTNode.ErrorNode (some e) ∧ Accept w node = (Iface.err e, some e)) := by
  refine ⟨rfl, ?_, ?_, ?_, ?_⟩
  · rintro e rfl; rfl
  · rintro rfl; rfl
  · intro n
    cases stored <;> simp [Accept, VisitErrorNode]
  · intro p node e p' h
    have := Parse_error_node h
    subst this
    exact ⟨rfl, rfl⟩

/-- C16 at the node that stores the error of a division by zero, on 64 bits. -/
theorem C16_witness :
    Accept 64 (ASTNode.ErrorNode (some Error.divisionByZero))
      = (Iface.err Error.divisionByZero, some Error.divisionByZero) :=
  (C16_error_node 64 (some Error.divisionByZero)).2.1 Error.divisionByZero rfl

/-- C17: on a parser state whose current token is MUL, DIV, RPAR, EOF or the
token of empty kind that a lexer error leaves, `Factor` returns a non-nil error
and the parser as it was.  An input whose token sequence ends with an
operator, starts with a multiplicative operator, has an operator right before
a multiplicative operator, or an LPAR right before an RPAR, makes `Interpret`
fail, as do the eight inputs of the tests; a binary operator followed by a run
of unary signs and a literal is accepted, as are `"2 ++ 3"` and `"1 *+ 2"`. -/
theorem C17_factor_rejects (w n : Nat) (p : Parser) (input a b : List Nat)
    (signs : List (List Nat)) (divide sub minus : Bool)
    (hk : p.CurrentToken.TokenType ∈ [Kind.MUL, Kind.DIV, Kind.RPAR, Kind.EOF, Kind.NONE])
    (h : (∃ t, (tokens input).getLast? = some t ∧ isOperator t.TokenType = true) ∨
      (∃ t, (tokens input).head? = some t ∧ mulOp t.TokenType = true) ∨
      (∃ a t1 t2 b, tokens input = a ++ t1 :: t2 :: b
        ∧ isOperator t1.TokenType = true ∧ mulOp t2.TokenType = true) ∨
      (∃ a t1 t2 b, tokens input = a ++ t1 :: t2 :: b
        ∧ t1.TokenType = Kind.LPAR ∧ t2.TokenType = Kind.RPAR))
    (ha : isLiteral a) (hb : isLiteral b) (hs : ∀ ws ∈ signs, allSpace ws) :
    Factor (n + 1) p
      = some (NewErrorNode (some (Error.factorUnexpected p.CurrentToken.TokenType)),
          some (Error.factorUnexpected p.CurrentToken.TokenType), p) ∧
    (∃ e, Calculate w input = some (0, some e)) ∧
    (Calculate 64 (bytes "1 + ") = some (0, some (Error.factorUnexpected Kind.EOF)) ∧
      Calculate 64 (bytes "2 + 3 -") = some (0, some (Error.factorUnexpected Kind.EOF)) ∧
      Calculate 64 (bytes "+ ") = some (0, some (Error.factorUnexpected Kind.EOF)) ∧
      Calculate 64 (bytes "(1+2) +") = some (0, some (Error.factorUnexpected Kind.EOF)) ∧
      Calculate 64 (bytes "* 9 + 2") = some (0, some (Error.factorUnexpected Kind.MUL)) ∧
      Calculate 64 (bytes "4 ** 5") = some (0, some (Error.factorUnexpected Kind.MUL)) ∧
      Calculate 64 (bytes "()") = some (0, some (Error.factorUnexpected Kind.RPAR)) ∧
      Calculate 64 (bytes "2 * ()") = some (0, some (Error.factorUnexpected Kind.RPAR))) ∧
    (∃ node p', Parse (NewParser (NewLexer
        (a ++ mulChar divide :: (signsInput (addChar minus) signs ++ b)))).1
      = some (node, none, p')) ∧
    (∃ node p', Parse (NewParser (NewLexer
        (a ++ addChar sub :: (signsInput (addChar minus) signs ++ b)))).1
      = some (node, none, p')) ∧
    Calculate 64 (bytes "2 ++ 3") = some (5, none) ∧
    Calculate 64 (bytes "1 *+ 2") = some (2, none) := by
  have hn : allSpace [] := allSpace_nil
  have hf : wellFormed (signsTree minus signs (Tree.int [] b)) :=
    wellFormed_signsTree minus signs _ hs ⟨hn, hb⟩
  have hr : render (signsTree minus signs (Tree.int [] b))
      = signsInput (addChar minus) signs ++ b := by
    rw [render_signsTree]
    rfl
  refine ⟨?_, ?_, ⟨by decide!, by decide!, by decide!, by decide!, by decide!, by decide!,
    by decide!, by decide!⟩, ?_, ?_, by decide!, by decide!⟩
  · apply Factor_unexpected
    simp only [List.mem_cons, List.mem_singleton, List.not_mem_nil, or_false] at hk
    rcases hk with hk | hk | hk | hk | hk <;> rw [hk] <;> rfl
  · exact Calculate_fails_of_not_ok w input (fun node p' => Parse_bad_tokens input h)
  · cases divide
    · have := Parse_render (Tree.term (Tree.mul (Tree.factor (Tree.int [] a)) []
        (signsTree minus signs (Tree.int [] b)))) [] ⟨⟨hn, ha⟩, hn, hf⟩ hn
      simp only [render, hr, List.nil_append, List.append_nil] at this
      exact ⟨_, _, this⟩
    · have := Parse_render (Tree.term (Tree.div (Tree.factor (Tree.int [] a)) []
        (signsTree minus signs (Tree.int [] b)))) [] ⟨⟨hn, ha⟩, hn, hf⟩ hn
      simp only [render, hr, List.nil_append, List.append_nil] at this
      exact ⟨_, _, this⟩
  · cases sub
    · have := Parse_render (Tree.add (Tree.term (Tree.factor (Tree.int [] a))) []
        (Tree.factor (signsTree minus signs (Tree.int [] b)))) [] ⟨⟨hn, ha⟩, hn, hf⟩ hn
      simp only [render, hr, List.nil_append, List.append_nil] at this
      exact ⟨_, _, this⟩
    · have := Parse_render (Tree.sub (Tree.term (Tree.factor (Tree.int [] a))) []
        (Tree.factor (signsTree minus signs (Tree.int [] b)))) [] ⟨⟨hn, ha⟩, hn, hf⟩ hn
      simp only [render, hr, List.nil_append, List.append_nil] at this
      exact ⟨_, _, this⟩

/-- C17 at the parser on `"* 9"`, at the input `"1 + "`, and at
`"2*- -3"`. -/
theorem C17_witness :
    ((NewParser (NewLexer (bytes "* 9"))).1.CurrentToken.TokenType
        ∈ [Kind.MUL, Kind.DIV, Kind.RPAR, Kind.EOF, Kind.NONE] ∧
      (∃ t, (tokens (bytes "1 + ")).getLast? = some t ∧ isOperator t.TokenType = true) ∧
      isLiteral [50] ∧ isLiteral [51] ∧ (∀ ws ∈ [[], [32]], allSpace ws)) ∧
    Factor 1 (NewParser (NewLexer (bytes "* 9"))).1
      = some (NewErrorNode (some (Error.factorUnexpected Kind.MUL)),
          some (Error.factorUnexpected Kind.MUL), (NewParser (NewLexer (bytes "* 9"))).1) ∧
    (∃ e, Calculate 64 (bytes "1 + ") = some (0, some e)) ∧
    (∃ node p', Parse (NewParser (NewLexer (bytes "2*- -3"))).1 = some (node, none, p')) := by
  have hk : (NewParser (NewLexer (bytes "* 9"))).1.CurrentToken.TokenType
      ∈ [Kind.MUL, Kind.DIV, Kind.RPAR, Kind.EOF, Kind.NONE] := by decide!
  have ht : ∃ t, (tokens (bytes "1 + ")).getLast? = some t ∧ isOperator t.TokenType = true :=
    ⟨NewToken Kind.PLUS (Iface.rune 43), by decide!, rfl⟩
  have ha : isLiteral [50] := by simp [isLiteral, isDigit, digitsValue]
  have hb : isLiteral [51] := by simp [isLiteral, isDigit, digitsValue]
  have hs : ∀ ws ∈ [[], [32]], allSpace ws := by
    intro ws h
    simp only [List.mem_cons, List.mem_singleton, List.not_mem_nil, or_false] at h
    rcases h with rfl | rfl
    · exact allSpace_nil
    · exact allSpace_blank
  have hc := C17_factor_rejects 64 0 (NewParser (NewLexer (bytes "* 9"))).1 (bytes "1 + ")
    [50] [51] [[], [32]] false false true hk (Or.inl ht) ha hb hs
  refine ⟨⟨hk, ht, ha, hb, hs⟩, ?_, hc.2.1, hc.2.2.2.1⟩
  have h1 := hc.1
  have e : (NewParser (NewLexer (bytes "* 9"))).1.CurrentToken.TokenType = Kind.MUL := by decide!
  rw [e] at h1
  exact h1

/-- C18: two inputs that produce the same token sequence (call after call
`GetNextToken` returns the same token and error, up to the first EOF or
error) get the same result from `Interpret`, the same value or the same error;
so do the strings of two derivations that differ in their whitespace only,
whatever whitespace ends them; `"2+2"` and `"2     +     2"` give 4, and
`"   2  +  8"` gives 10. -/
theorem C18_whitespace_insensitive (w : Nat) (i1 i2 : List Nat) (e1 e2 : Tree Level.expr)
    (ws1 ws2 : List Nat) (h : sameTokens (NewLexer i1) (NewLexer i2))
    (hw1 : wellFormed e1) (hw2 : wellFormed e2) (hs1 : allSpace ws1) (hs2 : allSpace ws2)
    (he : toAST e1 = toAST e2) :
    Calculate w i1 = Calculate w i2 ∧
    Calculate w (render e1 ++ ws1) = Calculate w (render e2 ++ ws2) ∧
    Calculate 64 (bytes "2+2") = some (4, none) ∧
    Calculate 64 (bytes "2     +     2") = some (4, none) ∧
    Calculate 64 (bytes "   2  +  8") = some (10, none) := by
  refine ⟨Calculate_sameTokens w i1 i2 h, ?_, by decide!, by decide!, by decide!⟩
  have p1 := Parse_render e1 ws1 hw1 hs1
  have p2 := Parse_render e2 ws2 hw2 hs2
  rw [he] at p1
  exact Calculate_of_same_node w _ _ p1 p2

/-- C18 at `"2+2"` and `"2     +     2"`, on 64 bits. -/
theorem C18_witness :
    sameTokens (NewLexer (bytes "2+2")) (NewLexer (bytes "2     +     2")) ∧
    Calculate 64 (bytes "2+2") = Calculate 64 (bytes "2     +     2") := by
  have h : sameTokens (NewLexer (bytes "2+2")) (NewLexer (bytes "2     +     2")) := by
    intro n
    have a := tokenStream_of_three
      (NewLexer (bytes "2+2")) (lexerAt (bytes "2+2") 1)
      (lexerAt (bytes "2+2") 2) (lexerAt (bytes "2+2") 3) (lexerAt (bytes "2+2") 3)
      (NewToken Kind.INTEGER (Iface.int 2)) (NewToken Kind.PLUS (Iface.rune 43))
      (NewToken Kind.INTEGER (Iface.int 2)) (NewToken Kind.EOF (Iface.int 0))
      (by decide!) (by decide) (by decide!) (by decide) (by decide!) (by decide)
      (by decide!) rfl n
    have b := tokenStream_of_three
      (NewLexer (bytes "2     +     2")) (lexerAt (bytes "2     +     2") 1)
      (lexerAt (bytes "2     +     2") 7) (lexerAt (bytes "2     +     2") 13)
      (lexerAt (bytes "2     +     2") 13)
      (NewToken Kind.INTEGER (Iface.int 2)) (NewToken Kind.PLUS (Iface.rune 43))
      (NewToken Kind.INTEGER (Iface.int 2)) (NewToken Kind.EOF (Iface.int 0))
      (by decide!) (by decide) (by decide!) (by decide) (by decide!) (by decide)
      (by decide!) rfl n
    rw [a, b]
  have hw : wellFormed (Tree.term (Tree.factor (Tree.int [] [50]))) :=
    ⟨allSpace_nil, by simp [isLiteral, isDigit, digitsValue]⟩
  exact ⟨h, (C18_whitespace_insensitive 64 _ _ (Tree.term (Tree.factor (Tree.int [] [50])))
    (Tree.term (Tree.factor (Tree.int [] [50]))) [] [] h hw hw allSpace_nil allSpace_nil rfl).1⟩

/-- C19: for every input on which `NewParser` returns a non-nil error, the
parser it still returns holds the token of empty kind, `Parse` on it returns
the error of `Factor` on that token, and so does `Interpret`: a caller that
drops the error of `NewParser` gets no numeric result. -/
theorem C19_first_token_error (w : Nat) (input : List Nat)
    (h : (NewParser (NewLexer input)).2 ≠ none) :
    (NewParser (NewLexer input)).1.CurrentToken.TokenType = Kind.NONE ∧
    Parse (NewParser (NewLexer input)).1
      = some (NewErrorNode (some (Error.factorUnexpected Kind.NONE)),
          some (Error.factorUnexpected Kind.NONE), (NewParser (NewLexer input)).1) ∧
    Calculate w input = some (0, some (Error.factorUnexpected Kind.NONE)) := by
  have hk : (NewParser (NewLexer input)).1.CurrentToken.TokenType = Kind.NONE := by
    rw [NewParser_eq] at h ⊢
    exact lexSpec_error_kind input h
  have hp := Parse_unexpected (NewParser (NewLexer input)).1 (by rw [hk]; rfl)
  rw [hk] at hp
  exact ⟨hk, hp, Calculate_of_NewParser_error w input h⟩

/-- C19 at `"a"` and at `"99999999999 + 1"`, on 64 bits. -/
theorem C19_witness :
    ((NewParser (NewLexer (bytes "a"))).2 = some (Error.invalidCharacter 97) ∧
      Calculate 64 (bytes "a") = some (0, some (Error.factorUnexpected Kind.NONE))) ∧
    ((NewParser (NewLexer (bytes "99999999999 + 1"))).2 = some Error.integerRange ∧
      Calculate 64 (bytes "99999999999 + 1")
        = some (0, some (Error.factorUnexpected Kind.NONE))) := by
  have h1 : (NewParser (NewLexer (bytes "a"))).2 = some (Error.invalidCharacter 97) := by
    decide!
  have h2 : (NewParser (NewLexer (bytes "99999999999 + 1"))).2 = some Error.integerRange := by
    decide!
  exact ⟨⟨h1, (C19_first_token_error 64 (bytes "a") (by rw [h1]; simp)).2.2⟩,
    ⟨h2, (C19_first_token_error 64 (bytes "99999999999 + 1") (by rw [h2]; simp)).2.2⟩⟩

/-- C20: the nesting stack is a LIFO stack.  `Push` followed by `Pop` returns
the element pushed, a nil error and the stack as it was; `Peek` returns the
element and the verdict of `Pop` (it returns no stack: the method assigns
nothing); on an empty stack `Pop` and `Peek` return an error and `Pop` leaves
the stack empty; `StackSize` grows by one on `Push` and shrinks by one on a
successful `Pop`; `IsEmpty` holds exactly when `StackSize` is 0. -/
theorem C20_nesting_stack_lifo (s : NestingStack) (x : Token) :
    Pop (Push s x) = (x, none, s) ∧
    Peek (Push s x) = (x, none) ∧
    ((Peek s).1 = (Pop s).1 ∧ ((Peek s).2 = none ↔ (Pop s).2.1 = none)) ∧
    (IsEmpty s = true →
      Pop s = (zeroToken, some Error.popEmpty, s) ∧ Peek s = (zeroToken, some Error.peekEmpty)
        ∧ IsEmpty (Pop s).2.2 = true) ∧
    (IsEmpty s = false → (Pop s).2.1 = none ∧ (Peek s).2 = none) ∧
    StackSize (Push s x) = StackSize s + 1 ∧
    ((Pop s).2.1 = none → StackSize (Pop s).2.2 + 1 = StackSize s) ∧
    (IsEmpty s = true ↔ StackSize s = 0) := by
  obtain ⟨l⟩ := s
  refine ⟨Pop_snoc l x, Peek_snoc l x, ?_, ?_, ?_, ?_, ?_, ?_⟩
  · unfold Peek Pop
    split_ifs <;> simp
  · intro h
    simp [Pop, Peek, h]
  · intro h
    simp [Pop, Peek, h]
  · simp [StackSize, Push]
  · unfold Pop
    split_ifs with h
    · simp
    · intro _
      simp only [IsEmpty, beq_iff_eq] at h
      simp only [StackSize, List.length_take]
      omega
  · simp [IsEmpty, StackSize]

/-- C20 on the stack of two LPAR markers and on the empty stack. -/
theorem C20_witness :
    (IsEmpty NewNestingStack = true ∧
      Pop NewNestingStack = (zeroToken, some Error.popEmpty, NewNestingStack) ∧
      Peek NewNestingStack = (zeroToken, some Error.peekEmpty)) ∧
    ((Pop (Push (Push NewNestingStack (NewToken Kind.LPAR (Iface.rune 40)))
        (NewToken Kind.LPAR (Iface.rune 40)))).2.1 = none ∧
      StackSize (Pop (Push (Push NewNestingStack (NewToken Kind.LPAR (Iface.rune 40)))
        (NewToken Kind.LPAR (Iface.rune 40)))).2.2 + 1 = 2) := by
  have h := C20_nesting_stack_lifo NewNestingStack (NewToken Kind.LPAR (Iface.rune 40))
  have h2 := C20_nesting_stack_lifo
    (Push (Push NewNestingStack (NewToken Kind.LPAR (Iface.rune 40)))
      (NewToken Kind.LPAR (Iface.rune 40))) zeroToken
  have e : (Pop (Push (Push NewNestingStack (NewToken Kind.LPAR (Iface.rune 40)))
      (NewToken Kind.LPAR (Iface.rune 40)))).2.1 = none := by decide
  obtain ⟨a, b, _⟩ := h.2.2.2.1 rfl
  exact ⟨⟨rfl, a, b⟩, e, h2.2.2.2.2.2.2.1 e⟩

/-- C21: for every input, `NewParser` followed by `Interpret` returns, an
integer or an error.  The bounds of the model are never what stops it: two
rounds of the loop of `GetNextToken` are enough, the loops of `SkipWhiteSpace`
and `Integer` stop on their tests, and more fuel than `3 * len + 9` gives
`Expr` the same result.  A token that is not EOF takes at least one byte; a
successful `Consume`, and so a successful `Factor`, `Term` or `Expr`, leaves
fewer tokens to read; the input has no more tokens than bytes; and `Accept`
calls itself on the children of the node only. -/
theorem C21_terminates (w : Nat) (input : List Nat) :
    ((∃ v, Calculate w input = some (v, none)) ∨ (∃ e, Calculate w input = some (0, some e))) ∧
    (parseFuel (NewParser (NewLexer input)).1 = 3 * input.length + 9 ∧
      ∀ n, 3 * input.length + 9 ≤ n →
        (∃ r, Expr n (NewParser (NewLexer input)).1 = some r) ∧
        Expr n (NewParser (NewLexer input)).1
          = Expr (3 * input.length + 9) (NewParser (NewLexer input)).1) ∧
    (∀ n lex, GetNextTokenLoop (n + 2) lex = GetNextToken lex) ∧
    (∀ lex, isSpace (SkipWhiteSpace lex).CurrentChar = false) ∧
    (∀ lex, isDigit (IntegerLoop (lex.Input.length - lex.Position + 1) [] lex).2.CurrentChar
      = false) ∧
    (∀ i pos tok lex1, GetNextToken (lexerAt i pos) = (tok, none, lex1) →
      tok.TokenType ≠ Kind.EOF → ∃ pos1, lex1 = lexerAt i pos1 ∧ pos < pos1 ∧ pos1 ≤ i.length) ∧
    (∀ k p p', WF p → proper k = true → Consume k p = (none, p') →
      remaining p' < remaining p) ∧
    (∀ n p node p', WF p →
      (Factor n p = some (node, none, p') ∨ Term n p = some (node, none, p')
        ∨ Expr n p = some (node, none, p')) → remaining p' < remaining p) ∧
    (tokens input).length ≤ input.length ∧
    (∀ l op r, Accept w (ASTNode.BinaryOperation l op r)
      = VisitBinaryOperation w op (Accept w l) (Accept w r)) ∧
    (∀ op e, Accept w (ASTNode.UnaryOperation op e) = VisitUnaryOperation w op (Accept w e)) := by
  have hI : (NewParser (NewLexer input)).1.Lex.Input = input := by rw [NewParser_eq]; rfl
  have hf : parseFuel (NewParser (NewLexer input)).1 = 3 * input.length + 9 := by
    unfold parseFuel; rw [hI]
  refine ⟨Calculate_returns w input, ⟨hf, ?_⟩, fun n lex => GetNextTokenLoop_fuel n lex,
    SkipWhiteSpace_exit, fun lex => IntegerLoop_exit _ [] lex (by omega),
    fun i pos tok lex1 h hk => GetNextToken_advances i pos h hk,
    fun k p p' hw hk h => Consume_remaining hw hk h, ?_, tokens_length input,
    fun _ _ _ => rfl, fun _ _ => rfl⟩
  · intro n hn
    obtain ⟨⟨r, hr⟩, he⟩ := Expr_parseFuel input n (by rw [hf]; exact hn)
    rw [hf] at hr he
    exact ⟨⟨r, by rw [he, hr]⟩, he⟩
  · intro n p node p' hw h
    obtain ⟨rF, rT, rE⟩ := ok_remaining n
    rcases h with h | h | h
    · exact (rF p node p' hw h).2
    · exact (rT p node p' hw h).2
    · exact (rE p node p' hw h).2

/-- C21 at `"(1+2)*3"` and at `"(1+2"`, on 64 bits. -/
theorem C21_witness :
    Calculate 64 (bytes "(1+2)*3") = some (9, none) ∧
    Calculate 64 (bytes "(1+2") = some (0, some (Error.consumeExpected Kind.RPAR Kind.EOF)) ∧
    (tokens (bytes "(1+2)*3")).length ≤ 7 := by
  have h := C21_terminates 64 (bytes "(1+2)*3")
  exact ⟨by decide!, by decide!, h.2.2.2.2.2.2.2.2.1⟩

/-- C22: whenever `Parse` returns a nil error, the tree it returns holds
number literals, unary operations with PLUS or MINUS and binary operations
with PLUS, MINUS, MUL or DIV only, and no error node; on it `Accept` returns
an integer with a nil error or the error of a division by zero, so `Interpret`
returns that integer or that error: the failed type assertions and the default
cases of the visitors are never reached. -/
theorem C22_closed_tree (w : Nat) (p p' : Parser) (node : ASTNode)
    (h : Parse p = some (node, none, p')) :
    closedNode node = true ∧
    ((∃ v, Interpret w (NewInterpreter p) = some (v, none)
        ∧ Accept w node = (Iface.int v, none))
      ∨ (Interpret w (NewInterpreter p) = some (0, some Error.divisionByZero)
        ∧ ∃ x, Accept w node = (x, some Error.divisionByZero))) ∧
    (∀ input, p = (NewParser (NewLexer input)).1 →
      (∃ v, Calculate w input = some (v, none))
        ∨ Calculate w input = some (0, some Error.divisionByZero)) := by
  refine ⟨Parse_closed h, Interpret_closed w h, ?_⟩
  rintro input rfl
  rcases Interpret_closed w h with ⟨v, hv, _⟩ | ⟨hv, _⟩
  · exact Or.inl ⟨v, hv⟩
  · exact Or.inr hv

/-- C22 at `"8 / 0"` on 64 bits: the parse succeeds, the tree is of the closed
set, and `Interpret` returns the error of the division by zero. -/
theorem C22_witness :
    Parse (NewParser (NewLexer (bytes "8 / 0"))).1
      = some (NewBinaryOperation (litNode [56]) (litNode [48]) (NewToken Kind.DIV (Iface.rune 47)),
          none, parserAt (bytes "8 / 0") 5 NewNestingStack) ∧
    closedNode (NewBinaryOperation (litNode [56]) (litNode [48])
      (NewToken Kind.DIV (Iface.rune 47))) = true ∧
    Calculate 64 (bytes "8 / 0") = some (0, some Error.divisionByZero) := by
  have h : Parse (NewParser (NewLexer (bytes "8 / 0"))).1
      = some (NewBinaryOperation (litNode [56]) (litNode [48])
          (NewToken Kind.DIV (Iface.rune 47)),
          none, parserAt (bytes "8 / 0") 5 NewNestingStack) := by decide!
  have hc := C22_closed_tree 64 _ _ _ h
  refine ⟨h, hc.1, ?_⟩
  rcases hc.2.2 (bytes "8 / 0") rfl with ⟨v, hv⟩ | hv
  · have e : Calculate 64 (bytes "8 / 0") = some (0, some Error.divisionByZero) := by decide!
    rw [e] at hv
    cases hv
  · exact hv

/-- C23: from every lexer state whose current character is a digit,
`GetNextToken` reads the run of digits at the cursor (in a state reached from
`NewLexer`, the maximal run of digits from the cursor on) and, when its
base-10 value is at most 2147483647, returns the INTEGER token of that value
with a nil error, the cursor left behind the run, on a character that is no
digit.  Every INTEGER token carries a natural number: `"007"` gives 7,
`"4152"` gives 4152, and `"-5"` gives MINUS and then INTEGER 5. -/
theorem C23_integer_token (lex : Lexer) (h : isDigit lex.CurrentChar = true)
    (hv : digitsValue (digitRun lex) ≤ 2147483647) :
    GetNextToken lex
      = (NewToken Kind.INTEGER (Iface.int (digitsValue (digitRun lex))), none,
          lexerAt lex.Input (lex.Position + (digitRun lex).length)) ∧
    (∀ c ∈ digitRun lex, isDigit c = true) ∧
    isDigit (lexerAt lex.Input (lex.Position + (digitRun lex).length)).CurrentChar = false ∧
    (lex = lexerAt lex.Input lex.Position →
      digitRun lex = (lex.Input.drop lex.Position).takeWhile isDigit) ∧
    (∀ l, (GetNextToken l).1.TokenType = Kind.INTEGER →
      ∃ v : Nat, (GetNextToken l).1.Value = Iface.int (v : Int)) ∧
    GetNextToken (NewLexer (bytes "007"))
      = (NewToken Kind.INTEGER (Iface.int 7), none, lexerAt (bytes "007") 3) ∧
    GetNextToken (NewLexer (bytes "4152"))
      = (NewToken Kind.INTEGER (Iface.int 4152), none, lexerAt (bytes "4152") 4) ∧
    tokens (bytes "-5")
      = [NewToken Kind.MINUS (Iface.rune 45), NewToken Kind.INTEGER (Iface.int 5)] := by
  refine ⟨?_, digitRun_digits lex h, after_digitRun lex, ?_, GetNextToken_INTEGER,
    by decide!, by decide!, by decide!⟩
  · rw [GetNextToken_digit lex h, if_pos hv]
  · intro hw
    rw [hw] at h
    have := digitRun_lexerAt lex.Input lex.Position h
    rw [← hw] at this
    exact this

/-- C23 at the lexer on `"12+3"`. -/
theorem C23_witness :
    (isDigit (NewLexer (bytes "12+3")).CurrentChar = true ∧
      digitsValue (digitRun (NewLexer (bytes "12+3"))) ≤ 2147483647) ∧
    digitRun (NewLexer (bytes "12+3")) = bytes "12" ∧
    GetNextToken (NewLexer (bytes "12+3"))
      = (NewToken Kind.INTEGER (Iface.int 12), none, lexerAt (bytes "12+3") 2) := by
  have h : isDigit (NewLexer (bytes "12+3")).CurrentChar = true := by decide
  have hv : digitsValue (digitRun (NewLexer (bytes "12+3"))) ≤ 2147483647 := by decide
  have hc := (C23_integer_token (NewLexer (bytes "12+3")) h hv).1
  refine ⟨⟨h, hv⟩, by decide, ?_⟩
  rw [hc]
  decide

/-- C24: a zero byte in the input acts as the end of the input.  For all
strings `s` and `t`, with or without a zero byte in `s`, the lexer on `s`, a
zero byte and `t` returns call after call what the lexer on `s` returns, its
cursor never passes the zero byte, on which `GetNextToken` returns EOF with a
nil error, and `Interpret` returns the same result for both inputs: what
follows the zero byte is ignored, as in `"1+2\x00)$("`, which evaluates to
3. -/
theorem C24_zero_byte_ends_input (w n : Nat) (s t : List Nat) :
    sameTokens (NewLexer (s ++ 0 :: t)) (NewLexer s) ∧
    tokens (s ++ 0 :: t) = tokens s ∧
    Calculate w (s ++ 0 :: t) = Calculate w s ∧
    (afterCalls n (NewLexer (s ++ 0 :: t))).Position ≤ s.length ∧
    GetNextToken (lexerAt (s ++ 0 :: t) s.length)
      = (NewToken Kind.EOF (Iface.int 0), none, lexerAt (s ++ 0 :: t) s.length) ∧
    Calculate 64 (bytes "1+2" ++ 0 :: bytes ")$(") = some (3, none) := by
  refine ⟨sameTokens_append_zero s t, tokens_append_zero s t,
    Calculate_sameTokens w _ _ (sameTokens_append_zero s t), ?_, ?_, by decide!⟩
  · rw [NewLexer_eq]
    obtain ⟨pos1, h1, _, h3⟩ := afterCalls_append_zero s t n 0 (Nat.zero_le _)
    rw [h1]
    exact h3
  · apply GetNextToken_zero_char
    rw [lexerAt_CurrentChar, drop_append_zero s t s.length (le_refl _)]
    simp

/-- C24 at `"1+2"` followed by a zero byte and `")$("`, on 64 bits. -/
theorem C24_witness :
    tokens (bytes "1+2" ++ 0 :: bytes ")$(") = tokens (bytes "1+2") ∧
    Calculate 64 (bytes "1+2" ++ 0 :: bytes ")$(") = Calculate 64 (bytes "1+2") ∧
    (afterCalls 9 (NewLexer (bytes "1+2" ++ 0 :: bytes ")$("))).Position ≤ 3 := by
  have h := C24_zero_byte_ends_input 64 9 (bytes "1+2") (bytes ")$(")
  exact ⟨h.2.1, h.2.2.1, h.2.2.2.1⟩

/-- C25: the evaluator reports no overflow.  On a Binary node whose children
evaluate to `a` and `b`, `VisitBinaryOperation` returns with a nil error
`a + b`, `a - b` or `a * b` wrapped to the native integer of `w` bits for PLUS,
MINUS and MUL, and the wrapped quotient for DIV when `b` is not 0; a unary
MINUS returns the wrapped negation.  The wrapped value is in the native range
and differs from the exact one by a multiple of `2 ^ w`; the least integer
negated, or divided by -1, gives the least integer.  On 64 bits
`"2147483647 * 2147483647 * 2147483647"` returns 4611686024869838847 with a
nil error, which is not the product 9903520300447984150353281023. -/
theorem C25_wraps_silently (w : Nat) (l r : ASTNode) (op : Token) (a b : Int)
    (hw : 0 < w) (hl : Accept w l = (Iface.int a, none))
    (hr : Accept w r = (Iface.int b, none)) :
    (op.TokenType = Kind.PLUS →
      Accept w (ASTNode.BinaryOperation l op r) = (Iface.int (wrapInt w (a + b)), none)) ∧
    (op.TokenType = Kind.MINUS →
      Accept w (ASTNode.BinaryOperation l op r) = (Iface.int (wrapInt w (a - b)), none)) ∧
    (op.TokenType = Kind.MUL →
      Accept w (ASTNode.BinaryOperation l op r) = (Iface.int (wrapInt w (a * b)), none)) ∧
    (op.TokenType = Kind.DIV → b ≠ 0 →
      Accept w (ASTNode.BinaryOperation l op r)
        = (Iface.int (wrapInt w (Int.tdiv a b)), none)) ∧
    (op.TokenType = Kind.MINUS →
      Accept w (ASTNode.UnaryOperation op l) = (Iface.int (wrapInt w (-a)), none)) ∧
    (∀ x, fits w (wrapInt w x) ∧ ((2 : Int) ^ w) ∣ (x - wrapInt w x)) ∧
    wrapInt w (-(-(2 ^ (w - 1) : Int))) = -(2 ^ (w - 1) : Int) ∧
    wrapInt w (Int.tdiv (-(2 ^ (w - 1) : Int)) (-1)) = -(2 ^ (w - 1) : Int) ∧
    Calculate 64 (bytes "2147483647 * 2147483647 * 2147483647")
      = some (4611686024869838847, none) ∧
    (2147483647 : Int) * 2147483647 * 2147483647 = 9903520300447984150353281023 := by
  obtain ⟨h1, h2, h3⟩ := Accept_arith w l r op a b hl hr
  refine ⟨h1, h2, h3, ?_, (Accept_unary w l op a hl).2, fun x => wrapInt_spec hw x,
    wrapInt_neg_min hw, ?_, by decide!, by decide⟩
  · intro hk hb
    rw [Accept_div w l r op a b hk hl hr, if_neg hb]
  · rw [tdiv_min_neg_one, wrapInt_half hw]

/-- C25 on 64 bits at the MUL node of `2147483647 * 2147483647` and
`2147483647`. -/
theorem C25_witness :
    (0 < 64 ∧
      Accept 64 (NewBinaryOperation (litNode (bytes "2147483647"))
        (litNode (bytes "2147483647")) (mulToken false)) = (Iface.int 4611686014132420609, none) ∧
      Accept 64 (litNode (bytes "2147483647")) = (Iface.int 2147483647, none)) ∧
    Accept 64 (ASTNode.BinaryOperation
      (NewBinaryOperation (litNode (bytes "2147483647")) (litNode (bytes "2147483647"))
        (mulToken false))
      (mulToken false) (litNode (bytes "2147483647")))
      = (Iface.int 4611686024869838847, none) := by
  have hl : Accept 64 (NewBinaryOperation (litNode (bytes "2147483647"))
      (litNode (bytes "2147483647")) (mulToken false))
      = (Iface.int 4611686014132420609, none) := by decide!
  have hr : Accept 64 (litNode (bytes "2147483647")) = (Iface.int 2147483647, none) := by
    decide!
  have h := (C25_wraps_silently 64 _ _ (mulToken false) _ _ (by decide) hl hr).2.2.1 rfl
  refine ⟨⟨by decide, hl, hr⟩, ?_⟩
  rw [h]
  decide!

/-- C26: in every lexer state reached from `NewLexer` by calls of
`GetNextToken`, the input is unchanged, `Position` is at most the length of
the input, and `CurrentChar` is the byte at `Position` when `Position` is
inside the input and 0 otherwise; `Position` never decreases.  `GetNextChar`,
which the lexer calls on a current character other than 0 only, then finds
`Position` inside the input and keeps the invariant, and it indexes the input
only after its test, which leaves the index inside the input. -/
theorem C26_lexer_invariant (input : List Nat) (n : Nat) :
    (afterCalls n (NewLexer input)).Input = input ∧
    (afterCalls n (NewLexer input)).Position ≤ input.length ∧
    ((afterCalls n (NewLexer input)).Position < input.length →
      input[(afterCalls n (NewLexer input)).Position]?
        = some (afterCalls n (NewLexer input)).CurrentChar) ∧
    (input.length ≤ (afterCalls n (NewLexer input)).Position →
      (afterCalls n (NewLexer input)).CurrentChar = 0) ∧
    (afterCalls n (NewLexer input)).Position ≤ (afterCalls (n + 1) (NewLexer input)).Position ∧
    (∀ i pos, (lexerAt i pos).CurrentChar ≠ 0 →
      pos < i.length ∧ GetNextChar (lexerAt i pos) = lexerAt i (pos + 1)) ∧
    (∀ lex : Lexer, ¬ (lex.Position + 1 > lex.Input.length - 1) →
      lex.Position + 1 < lex.Input.length
        ∧ (GetNextChar lex).CurrentChar = lex.Input.getD (lex.Position + 1) 0) := by
  obtain ⟨pos1, h1, _, h3⟩ := afterCalls_lexerAt input n 0 (Nat.zero_le _)
  rw [← NewLexer_eq] at h1
  have h2 : (afterCalls (n + 1) (NewLexer input)).Position
      = pos1 + (lexSpec (input.drop pos1)).2.2 := by
    rw [afterCalls_comm, h1, GetNextToken_lexerAt]
    rfl
  rw [h2, h1]
  refine ⟨rfl, h3, ?_, ?_, Nat.le_add_right _ _, ?_, ?_⟩
  · intro hlt
    simp only [lexerAt] at hlt ⊢
    simp [List.getD_eq_getElem?_getD, List.getElem?_eq_getElem hlt]
  · intro hle
    simp only [lexerAt] at hle ⊢
    simp [List.getD_eq_getElem?_getD, List.getElem?_eq_none hle]
  · intro i pos hc
    rcases drop_cases i pos with ⟨_, _, hz⟩ | ⟨_, _, _, hlt, _, _⟩
    · exact absurd hz hc
    · exact ⟨hlt, GetNextChar_lexerAt i pos⟩
  · intro lex hg
    refine ⟨by omega, ?_⟩
    unfold GetNextChar
    simp only [hg, if_false]

/-- C26 on `"12 +"`: the lexer after one call and after five calls. -/
theorem C26_witness :
    afterCalls 1 (NewLexer (bytes "12 +")) = lexerAt (bytes "12 +") 2 ∧
    afterCalls 5 (NewLexer (bytes "12 +")) = lexerAt (bytes "12 +") 4 ∧
    (afterCalls 5 (NewLexer (bytes "12 +"))).Position ≤ 4 ∧
    (afterCalls 5 (NewLexer (bytes "12 +"))).CurrentChar = 0 := by
  have h := C26_lexer_invariant (bytes "12 +") 5
  have e : afterCalls 5 (NewLexer (bytes "12 +")) = lexerAt (bytes "12 +") 4 := by decide!
  refine ⟨by decide!, e, h.2.1, h.2.2.2.1 ?_⟩
  rw [e]
  exact le_refl _

end Calc
